import Mathlib

/-!
# Points-to analysis (`assign3/PointTo.h`, `assign3/Dataflow.h`)

A shallow embedding of the interprocedural points-to analysis and of the generic
forward dataflow engine it is plugged into.

* A `Value` is an LLVM `Value *`: an opaque identity.  Identities are natural
  numbers, and the order of the naturals stands for the order of the addresses
  (it is what orders a `std::map` keyed by pointers).
* A `ValueSet` is a `std::unordered_set<Value *>`, a `PointToMap` is a
  `std::unordered_map<Value *, ValueSet>`.  Both are kept in a canonical form,
  so that `operator==` of the containers is equality in Lean.
* Loops over an unordered container whose body commutes are folds over the
  underlying multiset; loops whose body depends on the order of iteration take
  the order from an `Order`.
* Loops that may not terminate (`while (!worklist.empty())`) take a bound
  `fuel` on the number of iterations and answer `none` when it is exceeded.
-/

namespace PointTo

/-- An LLVM `Value *`. -/
abbrev Value := Nat

/-- `using ValueSet = std::unordered_set<Value *>`. -/
abbrev ValueSet := Finset Value

/-- `using FunctionSet = std::unordered_set<Function *>`. -/
abbrev FunctionSet := Finset Value

/-- `using PointToMap = std::unordered_map<Value*, ValueSet>`: the keys that are
present and the set stored under each of them.  A key that is absent stores
nothing, which makes the representation canonical. -/
structure PointToMap where
  keys : Finset Value
  sets : Value → ValueSet
  absent : ∀ v, v ∉ keys → sets v = ∅

namespace PointToMap

theorem eq_iff (a b : PointToMap) :
    a = b ↔ a.keys = b.keys ∧ ∀ k ∈ a.keys, a.sets k = b.sets k := by
  constructor
  · rintro rfl
    exact ⟨rfl, fun _ _ => rfl⟩
  · rintro ⟨hk, hs⟩
    cases a with
    | mk ak as aa =>
      cases b with
      | mk bk bs ba =>
        simp only at hk hs
        subst hk
        have hfun : as = bs := by
          funext k
          by_cases h : k ∈ ak
          · exact hs k h
          · rw [aa k h, ba k h]
        subst hfun
        rfl

theorem ext {a b : PointToMap} (hk : a.keys = b.keys) (hs : ∀ k, a.sets k = b.sets k) :
    a = b :=
  (eq_iff a b).2 ⟨hk, fun k _ => hs k⟩

/-- The `operator==` of `std::unordered_map`: same keys, equal sets. -/
instance : DecidableEq PointToMap := fun a b =>
  decidable_of_iff _ (eq_iff a b).symm

/-- The map `PointToMap()` without any key. -/
def empty : PointToMap := ⟨∅, fun _ => ∅, fun _ _ => rfl⟩

/-- The call `m.count(k)`. -/
def count (m : PointToMap) (k : Value) : Bool := decide (k ∈ m.keys)

/-- The effect of `m[k]` on the map: `operator[]` creates the key, with an empty
set, when it is absent.  The set read is then `(m.touch k).sets k`. -/
def touch (m : PointToMap) (k : Value) : PointToMap :=
  ⟨insert k m.keys, m.sets, fun v hv => m.absent v (fun h => hv (Finset.mem_insert_of_mem h))⟩

/-- The statements `m[k].clear(); m[k].insert(s.begin(), s.end())` taken
together, and also `m[k].clear()` alone with `s = ∅`. -/
def assign (m : PointToMap) (k : Value) (s : ValueSet) : PointToMap :=
  ⟨insert k m.keys, fun v => if v = k then s else m.sets v, fun v hv => by
    have h1 : v ≠ k := fun h => hv (h ▸ Finset.mem_insert_self _ _)
    have h2 : v ∉ m.keys := fun h => hv (Finset.mem_insert_of_mem h)
    simp [h1, m.absent v h2]⟩

/-- The statement `m[k].insert(s.begin(), s.end())`. -/
def insertAll (m : PointToMap) (k : Value) (s : ValueSet) : PointToMap :=
  m.assign k (m.sets k ∪ s)

/-- The statement `m.erase(k)`. -/
def erase (m : PointToMap) (k : Value) : PointToMap :=
  ⟨m.keys.erase k, fun v => if v = k then ∅ else m.sets v, fun v hv => by
    by_cases h : v = k
    · simp [h]
    · have h2 : v ∉ m.keys := fun hm => hv (Finset.mem_erase.2 ⟨h, hm⟩)
      simp [h, m.absent v h2]⟩

/-- A loop `for (auto i = m.begin(); i != m.end(); i++)` that rewrites the set
`i->second` of every entry by `f`, leaving the keys alone. -/
def mapSets (m : PointToMap) (f : ValueSet → ValueSet) : PointToMap :=
  ⟨m.keys, fun v => if v ∈ m.keys then f (m.sets v) else ∅, fun v hv => by simp [hv]⟩

/-- One turn of the loop of `merge`: `dest[k].insert(src[k].begin(), src[k].end())`. -/
def mergeStep (src : PointToMap) (k : Value) (dest : PointToMap) : PointToMap :=
  dest.insertAll k (src.sets k)

@[simp] theorem keys_empty : empty.keys = ∅ := rfl
@[simp] theorem sets_empty (k : Value) : empty.sets k = ∅ := rfl
@[simp] theorem keys_touch (m : PointToMap) (k : Value) : (m.touch k).keys = insert k m.keys := rfl
@[simp] theorem sets_touch (m : PointToMap) (k v : Value) : (m.touch k).sets v = m.sets v := rfl
@[simp] theorem keys_assign (m : PointToMap) (k : Value) (s : ValueSet) :
    (m.assign k s).keys = insert k m.keys := rfl
@[simp] theorem sets_assign (m : PointToMap) (k : Value) (s : ValueSet) (v : Value) :
    (m.assign k s).sets v = if v = k then s else m.sets v := rfl
@[simp] theorem keys_insertAll (m : PointToMap) (k : Value) (s : ValueSet) :
    (m.insertAll k s).keys = insert k m.keys := rfl
@[simp] theorem sets_insertAll (m : PointToMap) (k : Value) (s : ValueSet) (v : Value) :
    (m.insertAll k s).sets v = if v = k then m.sets k ∪ s else m.sets v := rfl
@[simp] theorem keys_erase (m : PointToMap) (k : Value) : (m.erase k).keys = m.keys.erase k := rfl
@[simp] theorem sets_erase (m : PointToMap) (k v : Value) :
    (m.erase k).sets v = if v = k then ∅ else m.sets v := rfl
@[simp] theorem keys_mapSets (m : PointToMap) (f : ValueSet → ValueSet) :
    (m.mapSets f).keys = m.keys := rfl
@[simp] theorem sets_mapSets (m : PointToMap) (f : ValueSet → ValueSet) (v : Value) :
    (m.mapSets f).sets v = if v ∈ m.keys then f (m.sets v) else ∅ := rfl
@[simp] theorem count_eq_true (m : PointToMap) (k : Value) : m.count k = true ↔ k ∈ m.keys := by
  simp [count]

theorem sets_eq_empty_of_not_mem (m : PointToMap) {k : Value} (h : k ∉ m.keys) : m.sets k = ∅ :=
  m.absent k h

instance mergeStep_leftComm (src : PointToMap) : LeftCommutative (mergeStep src) := by
  constructor
  intro a b d
  apply ext
  · simp only [mergeStep, keys_insertAll]
    exact Finset.Insert.comm a b d.keys
  · intro k
    simp only [mergeStep, sets_insertAll]
    by_cases hab : a = b
    · subst hab
      rfl
    · have hba : ¬ b = a := fun h => hab h.symm
      by_cases h1 : k = a
      · subst h1
        simp [hab]
      · by_cases h2 : k = b
        · subst h2
          simp [hba]
        · simp [h1, h2]

/-- One of the two loops of `PointToVisitor::merge` (`PointTo.h` 108-112 for
`pt`, 114-118 for `field_pt`): for every entry of `src`, its set is inserted
into the set of `dest` under the same key. -/
def merge (dest src : PointToMap) : PointToMap :=
  src.keys.val.foldr (mergeStep src) dest

/-- The order of the lattice on one map: every key of `a` is a key of `b` and
every set of `a` is a subset of the set of `b` under the same key. -/
def le (a b : PointToMap) : Prop :=
  a.keys ⊆ b.keys ∧ ∀ k, a.sets k ⊆ b.sets k

theorem le_iff (a b : PointToMap) :
    a.le b ↔ a.keys ⊆ b.keys ∧ ∀ k ∈ a.keys, a.sets k ⊆ b.sets k := by
  constructor
  · exact fun h => ⟨h.1, fun k _ => h.2 k⟩
  · intro h
    refine ⟨h.1, fun k => ?_⟩
    by_cases hk : k ∈ a.keys
    · exact h.2 k hk
    · rw [a.absent k hk]
      exact Finset.empty_subset _

instance (a b : PointToMap) : Decidable (a.le b) :=
  decidable_of_iff _ (le_iff a b).symm

end PointToMap

/-- The `struct PointToState`: the lattice element.  (`init_flag` is written by
no constructor or assignment and read by no comparison, so it is left out.) -/
structure PointToState where
  pt : PointToMap
  field_pt : PointToMap
deriving DecidableEq

namespace PointToState

/-- The state `PointToState()`: both maps empty, the bottom of the lattice. -/
def bot : PointToState := ⟨PointToMap.empty, PointToMap.empty⟩

/-- The order `⊑` of the lattice: the order of the maps, on both maps. -/
def le (a b : PointToState) : Prop :=
  a.pt.le b.pt ∧ a.field_pt.le b.field_pt

instance (a b : PointToState) : Decidable (a.le b) :=
  inferInstanceAs (Decidable (a.pt.le b.pt ∧ a.field_pt.le b.field_pt))

end PointToState

/-- The method `PointToVisitor::merge(dest, src)` (`PointTo.h` 106-119); the
result is the new value of `*dest`. -/
def merge (dest src : PointToState) : PointToState :=
  ⟨dest.pt.merge src.pt, dest.field_pt.merge src.field_pt⟩


/-! ## The program representation (the interface consumed from LLVM) -/

/-- A `CallInst *` that is not an intrinsic call, with what the analysis reads
from it. -/
structure CallInst where
  /-- The call instruction itself, as a `Value *` and `Instruction *`. -/
  id : Value
  /-- The result of `getCalledOperand()`. -/
  called : Value
  /-- The operands `getArgOperand(0)`, ..., `getArgOperand(getNumArgOperands() - 1)`. -/
  args : List Value
  /-- The result of `getDebugLoc().getLine()`. -/
  line : Nat
  /-- The result of `getFunction()`: the function the call stands in. -/
  fn : Value
deriving DecidableEq

/-- An `Instruction *`, by the case of `compDFVal` that it takes. -/
inductive Instruction where
  /-- A `MemCpyInst`, with `getArgOperand(0)` and `getArgOperand(1)`. -/
  | memcpy (dst src : Value)
  /-- Any other `IntrinsicInst`. -/
  | intrinsic
  /-- A `PHINode` with its `incoming_values()`. -/
  | phi (id : Value) (incoming : List Value)
  /-- A `StoreInst` with `getValueOperand()` and `getPointerOperand()`. -/
  | store (value addr : Value)
  /-- A `LoadInst` with `getPointerOperand()`. -/
  | load (id addr : Value)
  /-- A `GetElementPtrInst` with `getPointerOperand()`. -/
  | gep (id base : Value)
  /-- A `CallInst` that is not an intrinsic. -/
  | call (ci : CallInst)
  /-- A `ReturnInst` with `getFunction()` and `getReturnValue()`. -/
  | ret (fn : Value) (retval : Option Value)
  /-- Every other instruction. -/
  | other

/-- A `Module`, through the questions the analysis asks about it. -/
structure Module where
  /-- The test `isa<Function>(v)`. -/
  isFunction : Value → Bool
  /-- The test `isa<ConstantPointerNull>(v)`. -/
  isNull : Value → Bool
  /-- The test `v->getType()->isPointerTy()`. -/
  isPointerTy : Value → Bool
  /-- The cast `dyn_cast<BitCastInst>(v)`, giving `getOperand(0)` of the cast. -/
  bitcastOf : Value → Option Value
  /-- The cast `dyn_cast<GetElementPtrInst>(v)`, giving `getPointerOperand()`. -/
  gepOf : Value → Option Value
  /-- The test `F.isIntrinsic()`. -/
  isIntrinsic : Value → Bool
  /-- The pointer `callee->arg_begin() + i`. -/
  arg : Value → Nat → Value
  /-- The blocks of a function, from `fn->begin()` to `fn->end()`; none for a
  declaration. -/
  blocks : Value → List Value
  /-- The instructions of a block, from `block->begin()` to `block->end()`. -/
  insts : Value → List Instruction
  /-- The blocks from `pred_begin(bb)` to `pred_end(bb)`. -/
  preds : Value → List Value
  /-- The blocks from `succ_begin(bb)` to `succ_end(bb)`. -/
  succs : Value → List Value
  /-- The functions of the module, in the order of `for (auto &F : M)`. -/
  functions : List Value

namespace Module

/-- The test `F->isDeclaration()`: the function has no body. -/
def isDeclaration (M : Module) (f : Value) : Bool := (M.blocks f).isEmpty

/-- The block `&*callee->begin()`, the entry block of a function with a body. -/
def entry (M : Module) (f : Value) : Value := (M.blocks f).headD 0

end Module

/-- The order in which a container hands out its elements (`begin()`, `++`).
For an unordered container it is implementation-defined: any enumeration of the
set without repetition.  The first element of the enumeration is `*begin()`. -/
structure Order where
  enum : Finset Value → List Value
  nodup : ∀ s, (enum s).Nodup
  mem_enum : ∀ s x, x ∈ enum s ↔ x ∈ s

namespace Order

/-- The elements of a set by increasing identity: the order of a `std::set` of
pointers. -/
def asc : Order where
  enum s := (List.range (s.sup id + 1)).filter (fun x => decide (x ∈ s))
  nodup s := (List.nodup_range _).filter _
  mem_enum s x := by
    simp only [List.mem_filter, List.mem_range, decide_eq_true_eq, and_iff_right_iff_imp]
    intro hx
    exact Nat.lt_succ_of_le (Finset.le_sup (f := id) hx)

/-- The elements of a set by decreasing identity. -/
def desc : Order where
  enum s := ((List.range (s.sup id + 1)).filter (fun x => decide (x ∈ s))).reverse
  nodup s := List.nodup_reverse.2 ((List.nodup_range _).filter _)
  mem_enum s x := by
    simp only [List.mem_reverse, List.mem_filter, List.mem_range, decide_eq_true_eq,
      and_iff_right_iff_imp]
    intro hx
    exact Nat.lt_succ_of_le (Finset.le_sup (f := id) hx)

end Order

/-! ## Result tables -/

/-- A `std::map<K *, std::pair<T, T>>` keyed by addresses: the table
`DataflowBBResult<T>::Type` of the blocks and `DataflowInstResult<T>::Type` of
the call sites.  The pair is `(in, out)`. -/
abbrev Table (T : Type) := Value → Option (T × T)

namespace Table

variable {T : Type}

/-- The table without entries. -/
def empty : Table T := fun _ => none

/-- The call `t->insert(std::make_pair(k, v))`: an entry that exists is kept. -/
def insert (t : Table T) (k : Value) (v : T × T) : Table T :=
  fun x => if x = k then (match t k with
    | some p => some p
    | none => some v) else t x

/-- The effect of `(*t)[k]` on the table: an absent entry is created from the
default `T()`. -/
def touch (t : Table T) (d : T) (k : Value) : Table T := t.insert k (d, d)

/-- The pair read by `(*t)[k]`. -/
def get (t : Table T) (d : T) (k : Value) : T × T := (t k).getD (d, d)

/-- The assignment `(*t)[k].first = v`. -/
def setFirst (t : Table T) (d : T) (k : Value) (v : T) : Table T :=
  fun x => if x = k then some (v, (t.get d k).2) else t x

/-- The assignment `(*t)[k].second = v`. -/
def setSecond (t : Table T) (d : T) (k : Value) (v : T) : Table T :=
  fun x => if x = k then some ((t.get d k).1, v) else t x

end Table

/-! ## The per-instruction transfer functions of `PointToVisitor` -/

/-- The method `handleMemCpyInst` (`PointTo.h` 170-193). -/
def handleMemCpyInst (M : Module) (dstOp srcOp : Value) (state : PointToState) : PointToState :=
  match M.bitcastOf dstOp, M.bitcastOf srcOp with
  | some dst, some src =>
    -- `ValueSet src_pt = state->pt[src]; ValueSet src_fpt = state->field_pt[src];`
    let pt1 := state.pt.touch src
    let src_pt := pt1.sets src
    let fpt1 := state.field_pt.touch src
    let src_fpt := fpt1.sets src
    -- `state->pt[dst].clear(); state->pt[dst].insert(...)`, the same on `field_pt`
    ⟨pt1.assign dst src_pt, fpt1.assign dst src_fpt⟩
  | _, _ => state

/-- One turn of the loop of `handlePHINode` (`PointTo.h` 200-214), for one
incoming value. -/
def phiStep (M : Module) (phi : Value) (state : PointToState) (value : Value) : PointToState :=
  if M.isNull value then state
  else if M.isFunction value then { state with pt := state.pt.insertAll phi {value} }
  else if !state.pt.count value then { state with pt := state.pt.insertAll phi {value} }
  else { state with pt := state.pt.insertAll phi (state.pt.sets value) }

/-- The method `handlePHINode` (`PointTo.h` 195-215). -/
def handlePHINode (M : Module) (phi : Value) (incoming : List Value) (state : PointToState) :
    PointToState :=
  incoming.foldl (phiStep M phi) { state with pt := state.pt.assign phi ∅ }

/-- One turn of the loop of `handleStoreInst` over the candidate bases
(`PointTo.h` 266-272): `field_pt[bfpt].clear(); field_pt[bfpt].insert(overwrite_pt)`. -/
def storeStep (overwrite_pt : ValueSet) (bfpt : Value) (field_pt : PointToMap) : PointToMap :=
  field_pt.assign bfpt overwrite_pt

instance storeStep_leftComm (overwrite_pt : ValueSet) : LeftCommutative (storeStep overwrite_pt) := by
  constructor
  intro a b d
  apply PointToMap.ext
  · simp only [storeStep, PointToMap.keys_assign]
    exact Finset.Insert.comm a b d.keys
  · intro k
    simp only [storeStep, PointToMap.sets_assign]
    by_cases h1 : k = a <;> by_cases h2 : k = b <;> simp [h1, h2]

/-- The method `handleStoreInst` (`PointTo.h` 217-279). -/
def handleStoreInst (M : Module) (ptr_value ptr_addr : Value) (state : PointToState) :
    PointToState :=
  -- `if(state->pt[ptr_value].empty())`
  let pt1 := state.pt.touch ptr_value
  let pt2 := if pt1.sets ptr_value = ∅ then pt1.erase ptr_value else pt1
  let overwrite_pt : ValueSet := if pt1.sets ptr_value = ∅ then {ptr_value} else pt1.sets ptr_value
  match M.gepOf ptr_addr with
  | some base =>
    -- `if(state->pt[gep->getPointerOperand()].empty())`
    let pt3 := pt2.touch base
    if pt3.sets base = ∅ then
      ⟨pt3.erase base, state.field_pt.assign base overwrite_pt⟩
    else
      ⟨pt3, (pt3.sets base).val.foldr (storeStep overwrite_pt) state.field_pt⟩
  | none => ⟨pt2.assign ptr_addr overwrite_pt, state.field_pt⟩

/-- One turn of the loop of `handleLoadInst` over the candidate bases
(`PointTo.h` 304-310): `content_pt = field_pt[bfpt]; pt[li].insert(content_pt)`. -/
def loadStep (li : Value) (bfpt : Value) (state : PointToState) : PointToState :=
  let fpt1 := state.field_pt.touch bfpt
  ⟨state.pt.insertAll li (fpt1.sets bfpt), fpt1⟩

instance loadStep_leftComm (li : Value) : LeftCommutative (loadStep li) := by
  constructor
  intro a b d
  have hpt : ((loadStep li a (loadStep li b d)).pt = (loadStep li b (loadStep li a d)).pt) := by
    apply PointToMap.ext
    · simp [loadStep]
    · intro k
      simp only [loadStep, PointToMap.sets_insertAll, PointToMap.sets_touch]
      by_cases h : k = li
      · simp only [h, if_true]
        rw [Finset.union_right_comm]
      · simp [h]
  have hfpt : ((loadStep li a (loadStep li b d)).field_pt =
      (loadStep li b (loadStep li a d)).field_pt) := by
    apply PointToMap.ext
    · simp only [loadStep, PointToMap.keys_touch]
      exact Finset.Insert.comm a b d.field_pt.keys
    · intro k
      simp [loadStep]
  cases h1 : loadStep li a (loadStep li b d) with
  | mk p1 f1 =>
    cases h2 : loadStep li b (loadStep li a d) with
    | mk p2 f2 =>
      rw [h1, h2] at hpt hfpt
      simp only at hpt hfpt
      rw [hpt, hfpt]

/-- The method `handleLoadInst` (`PointTo.h` 281-317). -/
def handleLoadInst (M : Module) (li ptr_addr : Value) (state : PointToState) : PointToState :=
  -- `state->pt[li].clear();`
  let pt0 := state.pt.assign li ∅
  match M.gepOf ptr_addr with
  | some base =>
    -- `if(state->pt[gep->getPointerOperand()].empty())`
    let pt1 := pt0.touch base
    if pt1.sets base = ∅ then
      let pt2 := pt1.erase base
      let fpt1 := state.field_pt.touch base
      ⟨pt2.insertAll li (fpt1.sets base), fpt1⟩
    else
      (pt1.sets base).val.foldr (loadStep li) ⟨pt1, state.field_pt⟩
  | none =>
    -- `ValueSet add_pt = state->pt[ptr_addr]; state->pt[li].insert(add_pt)`
    let pt1 := pt0.touch ptr_addr
    ⟨pt1.insertAll li (pt1.sets ptr_addr), state.field_pt⟩

/-- The method `handleGetElementPtrInst` (`PointTo.h` 319-336). -/
def handleGetElementPtrInst (gep base : Value) (state : PointToState) : PointToState :=
  -- `state->pt[gep].clear(); if(state->pt[gep->getPointerOperand()].empty())`
  let pt0 := state.pt.assign gep ∅
  let pt1 := pt0.touch base
  if pt1.sets base = ∅ then
    { state with pt := (pt1.erase base).insertAll gep {base} }
  else
    { state with pt := pt1.insertAll gep (pt1.sets base) }

/-! ## Resolution of the callees -/

/-- The loop `while(!worklist.empty())` of `getFunctions` (`PointTo.h` 617-626),
with a bound on the number of turns.  The element `*worklist.begin()` is the
first one in the iteration order of the set. -/
def getFunctionsLoop (M : Module) (o : Order) :
    Nat → ValueSet → FunctionSet → PointToState → Option (FunctionSet × PointToState)
  | 0, worklist, func, state =>
    match o.enum worklist with
    | [] => some (func, state)
    | _ :: _ => none
  | n + 1, worklist, func, state =>
    match o.enum worklist with
    | [] => some (func, state)
    | vi :: _ =>
      let worklist := worklist.erase vi
      if M.isFunction vi then getFunctionsLoop M o n worklist (insert vi func) state
      else
        -- `worklist.insert(state->pt[vi].begin(), state->pt[vi].end())`
        let state := { state with pt := state.pt.touch vi }
        getFunctionsLoop M o n (worklist ∪ state.pt.sets vi) func state

/-- The method `getFunctions` (`PointTo.h` 602-629).  The state is passed by
pointer and `state->pt[vi]` may create keys in it, so the state is part of the
result. -/
def getFunctions (M : Module) (o : Order) (fuel : Nat) (value : Value) (state : PointToState) :
    Option (FunctionSet × PointToState) :=
  if M.isFunction value then some ({value}, state)
  else
    let worklist : ValueSet := if state.pt.count value then state.pt.sets value else ∅
    getFunctionsLoop M o fuel worklist ∅ state

/-! ## Calls and returns -/

/-- The call `m.insert(std::make_pair(k, v))` on a `std::map<Value *, Value *>`
(`arg_map`, `reverse_arg_map`): the entries are kept sorted by key and a key
that is present keeps its value. -/
def mapInsert : List (Value × Value) → Value → Value → List (Value × Value)
  | [], k, v => [(k, v)]
  | (k', v') :: rest, k, v =>
    if k < k' then (k, v) :: (k', v') :: rest
    else if k = k' then (k', v') :: rest
    else (k', v') :: mapInsert rest k v

/-- The loop that fills `arg_map` (`PointTo.h` 398-409), from position `i` on:
caller argument to callee parameter, for the pointer-typed arguments. -/
def argMapFrom (M : Module) (callee : Value) :
    Nat → List Value → List (Value × Value) → List (Value × Value)
  | _, [], arg_map => arg_map
  | i, caller_arg :: rest, arg_map =>
    argMapFrom M callee (i + 1) rest
      (if M.isPointerTy caller_arg then mapInsert arg_map caller_arg (M.arg callee i) else arg_map)

/-- The loop that fills `reverse_arg_map` (`PointTo.h` 510-520), from position
`i` on: callee parameter to caller argument, for the pointer-typed arguments. -/
def reverseArgMapFrom (M : Module) (callee : Value) :
    Nat → List Value → List (Value × Value) → List (Value × Value)
  | _, [], arg_map => arg_map
  | i, caller_arg :: rest, arg_map =>
    reverseArgMapFrom M callee (i + 1) rest
      (if M.isPointerTy caller_arg then mapInsert arg_map (M.arg callee i) caller_arg else arg_map)

/-- The loops `if(pi->second.count(x) && !isa<Function>(x)) { pi->second.erase(x);
pi->second.insert(y); }` over the entries of one map (`PointTo.h` 422-441 and
537-555). -/
def renameMembers (M : Module) (x y : Value) (m : PointToMap) : PointToMap :=
  m.mapSets (fun s => if x ∈ s ∧ M.isFunction x = false then insert y (s.erase x) else s)

/-- The block `if(m.count(x)) { vs = m[x]; m.erase(x); m[y].insert(vs); }`
(`PointTo.h` 451-464 and 563-574). -/
def moveKey (x y : Value) (m : PointToMap) : PointToMap :=
  if m.count x then (m.erase x).insertAll y (m.sets x) else m

/-- The renaming of `handleCallInst` for one callee (`PointTo.h` 396-472): the
state `tmp_state` that is merged into the entry block of the callee. -/
def renameCall (M : Module) (ci : CallInst) (callee : Value) (state : PointToState) :
    PointToState :=
  let arg_map := argMapFrom M callee 0 ci.args []
  -- members of the sets, 416-442
  let s1 := arg_map.foldl
    (fun st e => ⟨renameMembers M e.1 e.2 st.pt, renameMembers M e.1 e.2 st.field_pt⟩) state
  -- keys, 446-465
  let s2 := arg_map.foldl (fun st e => ⟨moveKey e.1 e.2 st.pt, moveKey e.1 e.2 st.field_pt⟩) s1
  -- functions passed as arguments, 466-472
  arg_map.foldl
    (fun st e => if M.isFunction e.1 then { st with pt := st.pt.insertAll e.2 {e.1} } else st) s2

/-- The block `PointTo.h` 522-528 of `handleReturnInst`: the returned value is
filed under the call instruction. -/
def renameRetval (M : Module) (ci : CallInst) (retval : Option Value) (state : PointToState) :
    PointToState :=
  match retval with
  | some rv =>
    if M.isPointerTy rv then
      -- `vs = tmp_state.pt[rv]; tmp_state.pt.erase(rv); tmp_state.pt[ci].insert(vs)`
      let pt1 := state.pt.touch rv
      { state with pt := (pt1.erase rv).insertAll ci.id (pt1.sets rv) }
    else state
  | none => state

/-- The renaming of `handleReturnInst` for one call site (`PointTo.h` 510-575):
the state `tmp_state` that is merged into the out summary of the call.  The
loop at 547 runs from `field_pt.begin()` to `pt.end()`; the end iterator of
every `unordered_map` is the null node, so it visits the entries of `field_pt`. -/
def renameReturn (M : Module) (ci : CallInst) (callee : Value) (retval : Option Value)
    (state : PointToState) : PointToState :=
  let reverse_arg_map := reverseArgMapFrom M callee 0 ci.args []
  let s0 := renameRetval M ci retval state
  let s1 := reverse_arg_map.foldl
    (fun st e => ⟨renameMembers M e.1 e.2 st.pt, renameMembers M e.1 e.2 st.field_pt⟩) s0
  reverse_arg_map.foldl (fun st e => ⟨moveKey e.1 e.2 st.pt, moveKey e.1 e.2 st.field_pt⟩) s1

/-- The table `call_return`, a `std::map<CallInst *, FunctionSet, CallInstCmp>`:
its entries in the order of the comparator, which compares the source lines. -/
abbrev CallReturn := List (CallInst × FunctionSet)

/-- The statement `call_return[ci].insert(fs.begin(), fs.end())`.  Two keys are
the same key for the map when neither line is below the other. -/
def callReturnInsert : CallReturn → CallInst → FunctionSet → CallReturn
  | [], ci, fs => [(ci, fs)]
  | (c, s) :: rest, ci, fs =>
    if ci.line < c.line then (ci, fs) :: (c, s) :: rest
    else if c.line < ci.line then (c, s) :: callReturnInsert rest ci fs
    else (c, s ∪ fs) :: rest

/-- The callee set found by `call_return.find(ci)`, empty when there is none. -/
def callReturnGet : CallReturn → CallInst → FunctionSet
  | [], _ => ∅
  | (c, s) :: rest, ci =>
    if ci.line < c.line then ∅
    else if c.line < ci.line then callReturnGet rest ci
    else s

/-- The members of `PointToVisitor` other than `bbresult`, which is the table of
the engine and is passed next to them. -/
structure Globals where
  func_set : FunctionSet
  call_return : CallReturn
  instresult : Table PointToState

/-- The members as `PointToVisitor()` and `runOnModule` set them up. -/
def Globals.init : Globals := ⟨∅, [], Table.empty⟩

/-- One turn of the loop of `handleCallInst` over the callees (`PointTo.h`
389-486). -/
def calleeStep (M : Module) (ci : CallInst) (state : PointToState)
    (w : Table PointToState × Globals) (callee : Value) : Table PointToState × Globals :=
  if M.isDeclaration callee then w
  else
    let tmp_state := renameCall M ci callee state
    -- `PointToState &callee_node_in = (*bbresult)[&*callee->begin()].first;`
    let bbresult := w.1.touch PointToState.bot (M.entry callee)
    let old_callee_node_in := (bbresult.get PointToState.bot (M.entry callee)).1
    let callee_node_in := merge old_callee_node_in tmp_state
    let bbresult := bbresult.setFirst PointToState.bot (M.entry callee) callee_node_in
    if old_callee_node_in ≠ callee_node_in then
      (bbresult, { w.2 with func_set := insert callee w.2.func_set })
    else (bbresult, w.2)

/-- The method `handleCallInst` (`PointTo.h` 348-492).  The copy `old_instate`
(385-386) is merged with the state and then dropped, so it does not appear. -/
def handleCallInst (M : Module) (o : Order) (fuel : Nat) (ci : CallInst) (state : PointToState)
    (bbresult : Table PointToState) (g : Globals) :
    Option (PointToState × Table PointToState × Globals) :=
  match getFunctions M o fuel ci.called state with
  | none => none
  | some (callee_set, state) =>
    let g := { g with call_return := callReturnInsert g.call_return ci callee_set }
    -- `if(ci->getCalledFunction() && ci->getCalledFunction()->isDeclaration()) return;`
    if M.isFunction ci.called && M.isDeclaration ci.called then some (state, bbresult, g)
    else
      let g := { g with instresult := g.instresult.insert ci.id (PointToState.bot, PointToState.bot) }
      let w := (o.enum callee_set).foldl (calleeStep M ci state) (bbresult, g)
      -- `*state = (*instresult)[ci].second;`
      some ((w.2.instresult.get PointToState.bot ci.id).2, w.1, w.2)

/-- One turn of the loop of `handleReturnInst` over `call_return` (`PointTo.h`
500-591). -/
def returnStep (M : Module) (callee : Value) (retval : Option Value) (state : PointToState)
    (g : Globals) (cr : CallInst × FunctionSet) : Globals :=
  if callee ∈ cr.2 then
    let ci := cr.1
    let tmp_state := renameReturn M ci callee retval state
    -- `PointToState caller_callinst_out = (*instresult)[ci].second;`
    let instresult := g.instresult.touch PointToState.bot ci.id
    let old_out := (instresult.get PointToState.bot ci.id).2
    let caller_callinst_out := merge old_out tmp_state
    if old_out ≠ caller_callinst_out then
      { g with
        instresult := instresult.setSecond PointToState.bot ci.id caller_callinst_out
        func_set := insert ci.fn g.func_set }
    else { g with instresult := instresult }
  else g

/-- The method `handleReturnInst` (`PointTo.h` 494-592); the local state is not
changed, only the tables are. -/
def handleReturnInst (M : Module) (callee : Value) (retval : Option Value) (state : PointToState)
    (g : Globals) : Globals :=
  g.call_return.foldl (returnStep M callee retval state) g

/-- The method `compDFVal(Instruction *, PointToState *)` (`PointTo.h` 122-168). -/
def compDFVal (M : Module) (o : Order) (fuel : Nat) (inst : Instruction) (state : PointToState)
    (bbresult : Table PointToState) (g : Globals) :
    Option (PointToState × Table PointToState × Globals) :=
  match inst with
  | .memcpy dst src => some (handleMemCpyInst M dst src state, bbresult, g)
  | .intrinsic => some (state, bbresult, g)
  | .phi id incoming => some (handlePHINode M id incoming state, bbresult, g)
  | .store value addr => some (handleStoreInst M value addr state, bbresult, g)
  | .load id addr => some (handleLoadInst M id addr state, bbresult, g)
  | .gep id base => some (handleGetElementPtrInst id base state, bbresult, g)
  | .call ci => handleCallInst M o fuel ci state bbresult g
  | .ret fn retval => some (state, bbresult, handleReturnInst M fn retval state g)
  | .other => some (state, bbresult, g)

/-! ## The generic engine (`Dataflow.h`) -/

/-- The class `DataflowVisitor<T>`.  A visitor may hold the table of the engine
(`PointToVisitor::bbresult` does), so the table goes through it together with
the rest `G` of what the visitor owns. -/
structure DataflowVisitor (T G : Type) where
  /-- The method `compDFVal(Instruction *inst, T *state)`. -/
  compDFVal : Instruction → T → Table T → G → Option (T × Table T × G)
  /-- The method `merge(T *dest, const T &src)`, giving the new `*dest`. -/
  merge : T → T → T
  /-- The value `T()`, which `(*result)[bb]` stores for a block without entry. -/
  dflt : T

section Engine

variable {T G : Type}

/-- The method `compDFVal(BasicBlock *block, T *state, bool isforward)` with
`isforward == true` (`Dataflow.h` 64-76), on the instructions that are left. -/
def compDFValBlock (V : DataflowVisitor T G) :
    List Instruction → T → Table T → G → Option (T × Table T × G)
  | [], state, result, g => some (state, result, g)
  | inst :: rest, state, result, g =>
    match V.compDFVal inst state result g with
    | none => none
    | some (state, result, g) => compDFValBlock V rest state result g

/-- The loop that initialises the table and the worklist (`Dataflow.h` 132-139). -/
def initBlocks (initval : T) (blocks : List Value) (result : Table T) :
    Table T × Finset Value :=
  blocks.foldl (fun w bb => (w.1.insert bb (initval, initval), insert bb w.2)) (result, ∅)

/-- The loop over the predecessors (`Dataflow.h` 153-159). -/
def mergePreds (V : DataflowVisitor T G) (preds : List Value) (bb_instate : T)
    (result : Table T) : T × Table T :=
  preds.foldl (fun w pred_node =>
    let result := w.2.touch V.dflt pred_node
    (V.merge w.1 (result.get V.dflt pred_node).2, result)) (bb_instate, result)

/-- The loop `while(!worklist.empty())` of `compForwardDataflow` (`Dataflow.h`
142-190), with a bound on the number of turns.  The worklist is a
`std::set<BasicBlock *>`, so `*worklist.begin()` is the block at the least
address: the order of the code is `Order.asc`, for whatever addresses the blocks
have; the loop is written for any order. -/
def forwardLoop [DecidableEq T] (M : Module) (o : Order) (V : DataflowVisitor T G) :
    Nat → Finset Value → Table T → G → Option (Table T × G)
  | 0, worklist, result, g =>
    match o.enum worklist with
    | [] => some (result, g)
    | _ :: _ => none
  | n + 1, worklist, result, g =>
    match o.enum worklist with
    | [] => some (result, g)
    | bb :: _ =>
      let worklist := worklist.erase bb
      -- `T bb_instate = (*result)[bb].first;`
      let result := result.touch V.dflt bb
      let w := mergePreds V (M.preds bb) (result.get V.dflt bb).1 result
      let bb_instate := w.1
      -- `(*result)[bb].first = bb_instate; T old_bb_outstate = (*result)[bb].second;`
      let result := w.2.setFirst V.dflt bb bb_instate
      let old_bb_outstate := (result.get V.dflt bb).2
      match compDFValBlock V (M.insts bb) bb_instate result g with
      | none => none
      | some (tmp_state, result, g) =>
        if old_bb_outstate = tmp_state then forwardLoop M o V n worklist result g
        else
          forwardLoop M o V n (worklist ∪ (M.succs bb).toFinset)
            (result.setSecond V.dflt bb tmp_state) g

/-- The function `compForwardDataflow` (`Dataflow.h` 122-193). -/
def compForwardDataflow [DecidableEq T] (M : Module) (o : Order) (V : DataflowVisitor T G)
    (fuel : Nat) (fn : Value) (result : Table T) (g : G) (initval : T) : Option (Table T × G) :=
  let w := initBlocks initval (M.blocks fn) result
  forwardLoop M o V fuel w.2 w.1 g

end Engine

/-! ## The module pass -/

/-- The object `pt_visitor` of `runOnModule`. -/
def PointToVisitor (M : Module) (o : Order) (fuel : Nat) : DataflowVisitor PointToState Globals where
  compDFVal := compDFVal M o fuel
  merge := merge
  dflt := PointToState.bot

/-- The loop `while(!pass_func_set.empty())` of `runOnModule` (`PointTo.h`
664-677), with a bound on the number of turns. -/
def moduleLoop (M : Module) (o : Order) (fuel : Nat) :
    Nat → FunctionSet → Table PointToState → Globals → Option (Table PointToState × Globals)
  | 0, pass_func_set, result, g =>
    match o.enum pass_func_set with
    | [] => some (result, g)
    | _ :: _ => none
  | n + 1, pass_func_set, result, g =>
    match o.enum pass_func_set with
    | [] => some (result, g)
    | f :: _ =>
      match compForwardDataflow M o (PointToVisitor M o fuel) fuel f result g PointToState.bot with
      | none => none
      | some (result, g) =>
        moduleLoop M o fuel n (pass_func_set.erase f ∪ g.func_set) result { g with func_set := ∅ }

/-- The functions put into `pass_func_set` at the start (`PointTo.h` 655-662). -/
def initialFunctions (M : Module) : FunctionSet :=
  (M.functions.filter (fun f => !M.isIntrinsic f)).toFinset

/-- The method `PointToPass::runOnModule` (`PointTo.h` 645-681): the table of
the blocks and the tables of the visitor when the loop has ended, `none` when a
loop needs more than `fuel` turns. -/
def runOnModule (M : Module) (o : Order) (fuel : Nat) :
    Option (Table PointToState × Globals) :=
  moduleLoop M o fuel fuel (initialFunctions M) Table.empty Globals.init

/-! ## Notions used by the claims -/

/-- The instructions on which the transfer is monotone: the memory copy, the
load whose address is no field computation, the call, the return and the
instructions without a transfer of their own. -/
def monotoneKind (M : Module) : Instruction → Bool
  | .memcpy _ _ => true
  | .intrinsic => true
  | .load _ addr => (M.gepOf addr).isNone
  | .call _ => true
  | .ret _ _ => true
  | .other => true
  | _ => false

/-- The transfer of the instruction is not monotone at `A ⊑ B`: it returns on
both states, with the tables empty, and the state obtained from `A` is not
below the state obtained from `B`. -/
def notMonotoneAt (M : Module) (inst : Instruction) (A B : PointToState) : Prop :=
  A.le B ∧ ∃ rA rB,
    compDFVal M Order.asc 0 inst A Table.empty Globals.init = some rA ∧
    compDFVal M Order.asc 0 inst B Table.empty Globals.init = some rB ∧ ¬ rA.1.le rB.1

/-- Every block has the result `(⊥, ⊥)`, stored or by default. -/
def Table.AllBot (t : Table PointToState) : Prop :=
  ∀ b, t.get PointToState.bot b = (PointToState.bot, PointToState.bot)

/-- The substitution that replaces `x` by `y`. -/
def subst (x y v : Value) : Value := if v = x then y else v

/-- The substitutions of a list of pairs, applied one after the other. -/
def substAll (l : List (Value × Value)) (v : Value) : Value :=
  l.foldl (fun v e => subst e.1 e.2 v) v

/-- The map with every member of every set renamed by `σ`. -/
def PointToMap.renameMembersBy (σ : Value → Value) (m : PointToMap) : PointToMap :=
  m.mapSets (fun s => s.image σ)

/-- The map with every key renamed by `σ`; keys that become the same key have
their sets united. -/
def PointToMap.renameKeysBy (σ : Value → Value) (m : PointToMap) : PointToMap :=
  ⟨m.keys.image σ, fun k => (m.keys.filter (fun k' => σ k' = k)).biUnion m.sets, fun v hv => by
    have hempty : m.keys.filter (fun k' => σ k' = v) = ∅ := by
      apply Finset.filter_eq_empty_iff.2
      intro k' hk' he
      exact hv (Finset.mem_image.2 ⟨k', hk', he⟩)
    show (m.keys.filter (fun k' => σ k' = v)).biUnion m.sets = ∅
    rw [hempty, Finset.biUnion_empty]⟩

/-- The value occurs in the map, as a key or as a member of a set. -/
def PointToMap.mentions (m : PointToMap) (v : Value) : Prop :=
  v ∈ m.keys ∨ ∃ k ∈ m.keys, v ∈ m.sets k

instance (m : PointToMap) (v : Value) : Decidable (m.mentions v) :=
  inferInstanceAs (Decidable (v ∈ m.keys ∨ ∃ k ∈ m.keys, v ∈ m.sets k))

/-- The value occurs in the state, in `pt` or in `field_pt`. -/
def PointToState.mentions (S : PointToState) (v : Value) : Prop :=
  S.pt.mentions v ∨ S.field_pt.mentions v

instance (S : PointToState) (v : Value) : Decidable (S.mentions v) :=
  inferInstanceAs (Decidable (S.pt.mentions v ∨ S.field_pt.mentions v))

/-- The overwrite set of a store of `v` in state `S`: the `pt` set of `v` if it
is not empty, and `v` itself otherwise. -/
def overwriteSet (S : PointToState) (v : Value) : ValueSet :=
  if S.pt.sets v = ∅ then {v} else S.pt.sets v

/-- What one incoming value `v` of a phi adds to the set of the phi, read in the
state `S` before the transfer: nothing for a null constant, `v` for a function,
`v` for a value without `pt` entry, and the `pt` set of `v` otherwise. -/
def phiIncoming (M : Module) (S : PointToState) (v : Value) : ValueSet :=
  if M.isNull v then ∅
  else if M.isFunction v then {v}
  else if v ∈ S.pt.keys then S.pt.sets v
  else {v}

/-- What one incoming value `v` adds to the set of the phi `phi`: as
`phiIncoming`, but nothing when `v` is the phi itself. -/
def phiContribution (M : Module) (phi : Value) (S : PointToState) (v : Value) : ValueSet :=
  if M.isNull v then ∅
  else if M.isFunction v then {v}
  else if v = phi then ∅
  else if v ∈ S.pt.keys then S.pt.sets v
  else {v}

/-- The instructions that `compDFVal` has a case for: the memory copy, the phi,
the store, the load, the field-address computation, the call and the return. -/
def Instruction.isModelled : Instruction → Bool
  | .memcpy _ _ => true
  | .phi _ _ => true
  | .store _ _ => true
  | .load _ _ => true
  | .gep _ _ => true
  | .call _ => true
  | .ret _ _ => true
  | .intrinsic => false
  | .other => false

/-- One step of a `pt` chain, as `getFunctions` follows it: from a value that is
no function to a member of its `pt` set. -/
def ptEdge (M : Module) (S : PointToState) (x y : Value) : Prop :=
  M.isFunction x = false ∧ y ∈ S.pt.sets x

/-- The `pt` chains that start at `v` contain no cycle: no value on such a chain
is reached from itself. -/
def ptAcyclicFrom (M : Module) (S : PointToState) (v : Value) : Prop :=
  ∀ x, Relation.ReflTransGen (ptEdge M S) v x → ¬ Relation.TransGen (ptEdge M S) x x

/-- The value `y` is one step after `x` on a `pt` chain that starts at `v`. -/
def chainStep (M : Module) (S : PointToState) (v y x : Value) : Prop :=
  Relation.ReflTransGen (ptEdge M S) v x ∧ ptEdge M S x y


/-! ## Notions used by the claims on the engine -/

section EngineNotions

variable {T G : Type}

/-- One turn of the loop of `compForwardDataflow` (`Dataflow.h` 142-190), on the
block `bb` that `*worklist.begin()` gives: the worklist, the table and the rest
of the visitor after the turn. -/
def forwardStep [DecidableEq T] (M : Module) (V : DataflowVisitor T G) (bb : Value)
    (worklist : Finset Value) (result : Table T) (g : G) :
    Option (Finset Value × Table T × G) :=
  let worklist := worklist.erase bb
  let result := result.touch V.dflt bb
  let w := mergePreds V (M.preds bb) (result.get V.dflt bb).1 result
  let bb_instate := w.1
  let result := w.2.setFirst V.dflt bb bb_instate
  let old_bb_outstate := (result.get V.dflt bb).2
  match compDFValBlock V (M.insts bb) bb_instate result g with
  | none => none
  | some (tmp_state, result, g) =>
    if old_bb_outstate = tmp_state then some (worklist, result, g)
    else some (worklist ∪ (M.succs bb).toFinset, result.setSecond V.dflt bb tmp_state, g)

/-- The visitor computes the pure function `f` of the instruction and the state:
`compDFVal` returns, and leaves the table and what the visitor owns as they
are. -/
def DataflowVisitor.IsPure (V : DataflowVisitor T G) (f : Instruction → T → T) : Prop :=
  ∀ inst s result g, V.compDFVal inst s result g = some (f inst s, result, g)

/-- The merge of the visitor is a join: associative, commutative and
idempotent.  The order of the lattice is `a ⊑ b` when `merge b a = b`. -/
structure DataflowVisitor.IsJoin (V : DataflowVisitor T G) : Prop where
  assoc : ∀ a b c, V.merge (V.merge a b) c = V.merge a (V.merge b c)
  comm : ∀ a b, V.merge a b = V.merge b a
  idem : ∀ a, V.merge a a = a

/-- The transfer of a block: the pure function `f` over its instructions, first
to last. -/
def blockTransfer (f : Instruction → T → T) (insts : List Instruction) (s : T) : T :=
  insts.foldl (fun s inst => f inst s) s

/-- The in state that a turn of the loop computes for the block `bb`: the stored
one merged with the out states of the predecessors. -/
def blockIn (M : Module) (V : DataflowVisitor T G) (result : Table T) (bb : Value) : T :=
  (M.preds bb).foldl (fun s p => V.merge s (result.get V.dflt p).2) (result.get V.dflt bb).1

end EngineNotions

/-- In every entry, the in summary of the second table is above the one of the
first. -/
def Table.inLe (t t' : Table PointToState) : Prop :=
  ∀ b, (t.get PointToState.bot b).1.le (t'.get PointToState.bot b).1

/-- In every entry, the out summary of the second table is above the one of the
first. -/
def Table.outLe (t t' : Table PointToState) : Prop :=
  ∀ c, (t.get PointToState.bot c).2.le (t'.get PointToState.bot c).2

/-- The callee set recorded for every call in the first table of call edges is
a subset of the one recorded in the second. -/
def callReturnLe (cr cr' : CallReturn) : Prop :=
  ∀ ci, callReturnGet cr ci ⊆ callReturnGet cr' ci

/-- The tables after a step are above the tables before it: the in summary of
every block, the out summary of every call site and the callee set of every
call. -/
def TablesGrow (bbresult : Table PointToState) (g : Globals)
    (bbresult' : Table PointToState) (g' : Globals) : Prop :=
  bbresult.inLe bbresult' ∧ g.instresult.outLe g'.instresult ∧
    callReturnLe g.call_return g'.call_return

section EnginePost

variable {T G : Type}

/-- The post-condition of the engine at the block `b`, for a visitor that
computes `f`: the out state of `b` is the transfer of its in state, and merging
the out state of a predecessor into the in state of `b` leaves it unchanged. -/
def blockStable (M : Module) (V : DataflowVisitor T G) (f : Instruction → T → T)
    (result : Table T) (b : Value) : Prop :=
  (result.get V.dflt b).2 = blockTransfer f (M.insts b) (result.get V.dflt b).1 ∧
    ∀ p ∈ M.preds b, V.merge (result.get V.dflt b).1 (result.get V.dflt p).2
      = (result.get V.dflt b).1

/-- The room left above the in states of the blocks of `B`, for a rank that is
at most `H`. -/
def inSlack (V : DataflowVisitor T G) (rank : T → Nat) (H : Nat) (B : Finset Value)
    (result : Table T) : Nat :=
  B.sum (fun b => H - rank (result.get V.dflt b).1)

/-- The number of blocks of `B` whose out state is not the transfer of their in
state. -/
def staleBlocks [DecidableEq T] (M : Module) (V : DataflowVisitor T G)
    (f : Instruction → T → T) (B : Finset Value) (result : Table T) : Nat :=
  (B.filter (fun b =>
    (result.get V.dflt b).2 ≠ blockTransfer f (M.insts b) (result.get V.dflt b).1)).card

end EnginePost

/-- A `pt` chain from `x` runs into a cycle: some value is reached from `x` and
from itself. -/
def ptReachesCycle (M : Module) (S : PointToState) (x : Value) : Prop :=
  ∃ y, Relation.ReflTransGen (ptEdge M S) x y ∧ Relation.TransGen (ptEdge M S) y y

/-- Merging the renamed state of the call `ci` changes the in summary that the
table `t` has for the entry block of the callee `c`, a function with a body. -/
def callChanges (M : Module) (ci : CallInst) (state : PointToState)
    (t : Table PointToState) (c : Value) : Prop :=
  M.isDeclaration c = false ∧
    (t.get PointToState.bot (M.entry c)).1
      ≠ merge (t.get PointToState.bot (M.entry c)).1 (renameCall M ci c state)

instance (M : Module) (ci : CallInst) (state : PointToState) (t : Table PointToState)
    (c : Value) : Decidable (callChanges M ci state t c) :=
  inferInstanceAs (Decidable (_ ∧ _))

/-- The function `F` is in the callee set of the entry `cr` of the table of call
edges, and merging the renamed state of the return changes the out summary that
the table `t` has for the call of the entry. -/
def returnChanges (M : Module) (F : Value) (retval : Option Value) (S : PointToState)
    (t : Table PointToState) (cr : CallInst × FunctionSet) : Prop :=
  F ∈ cr.2 ∧
    (t.get PointToState.bot cr.1.id).2
      ≠ merge (t.get PointToState.bot cr.1.id).2 (renameReturn M cr.1 F retval S)

instance (M : Module) (F : Value) (retval : Option Value) (S : PointToState)
    (t : Table PointToState) (cr : CallInst × FunctionSet) :
    Decidable (returnChanges M F retval S t cr) :=
  inferInstanceAs (Decidable (_ ∧ _))
/-! ## Concrete modules and states -/

/-- A module without functions, casts and field computations: every identity is
a plain value. -/
def plainModule : Module where
  isFunction _ := false
  isNull _ := false
  isPointerTy _ := true
  bitcastOf _ := none
  gepOf _ := none
  isIntrinsic _ := false
  arg _ _ := 0
  blocks _ := []
  insts _ := []
  preds _ := []
  succs _ := []
  functions := []

/-- The state in which value `1` points to `3`. -/
def stateOneToThree : PointToState := ⟨PointToMap.empty.assign 1 {3}, PointToMap.empty⟩

/-- The state in which value `1` points to `3` or `4`. -/
def stateOneToThreeFour : PointToState := ⟨PointToMap.empty.assign 1 {3, 4}, PointToMap.empty⟩

/-- A module in which value `50` is a field-address computation over the base
`51`. -/
def fieldModule : Module where
  isFunction _ := false
  isNull _ := false
  isPointerTy _ := true
  bitcastOf _ := none
  gepOf v := if v = 50 then some 51 else none
  isIntrinsic _ := false
  arg _ _ := 0
  blocks _ := []
  insts _ := []
  preds _ := []
  succs _ := []
  functions := []

/-- The state in which the base `51` points to `60` or `61`, the loaded value
`52` to `99`, and the fields of `60` and `61` hold `70` and `71`. -/
def fieldState : PointToState :=
  ⟨(PointToMap.empty.assign 51 {60, 61}).assign 52 {99},
    (PointToMap.empty.assign 60 {70}).assign 61 {71}⟩

/-- The call `%42 = call %41()` through the function pointer `%41`, on line 7
of function `2`. -/
def callThroughPointer : CallInst := ⟨42, 41, [], 7, 2⟩

/-- A module with the functions `3` and `4`, both with a body (blocks `103` and
`104`), and the caller `2`. -/
def twoCalleeModule : Module where
  isFunction v := v == 2 || v == 3 || v == 4
  isNull _ := false
  isPointerTy _ := true
  bitcastOf _ := none
  gepOf _ := none
  isIntrinsic _ := false
  arg f i := 10 * f + i
  blocks f := if f = 2 then [102] else if f = 3 then [103] else if f = 4 then [104] else []
  insts b := if b = 102 then [.call callThroughPointer, .ret 2 none]
    else if b = 103 then [.ret 3 none] else if b = 104 then [.ret 4 none] else []
  preds _ := []
  succs _ := []
  functions := [2, 3, 4]

/-- The call `call @1(%11)` on line 5 of the caller `2`. -/
def callStore : CallInst := ⟨30, 1, [11], 5, 2⟩

/-- The module of the scenario "store through a parameter": the function `1`
with the pointer parameter `20` and the body `store @10, %20; ret void` (block
`101`), and the caller `2` with the body `%11 = alloca; call @1(%11); ret void`
(block `102`).  The global `10` is `g`, the local `11` is `x`. -/
def storeModule : Module where
  isFunction v := v == 1 || v == 2
  isNull _ := false
  isPointerTy v := v == 1 || v == 2 || v == 10 || v == 11 || v == 20
  bitcastOf _ := none
  gepOf _ := none
  isIntrinsic _ := false
  arg f i := if f = 1 then 20 + i else 0
  blocks f := if f = 1 then [101] else if f = 2 then [102] else []
  insts b := if b = 101 then [.store 10 20, .ret 1 none]
    else if b = 102 then [.other, .call callStore, .ret 2 none] else []
  preds _ := []
  succs _ := []
  functions := [1, 2]

/-- The `pt` set of `x` in the out summary of the call site `ci`, in the tables
that `runOnModule` ends with. -/
def outSummaryPt (w : Table PointToState × Globals) (ci x : Value) : ValueSet :=
  (w.2.instresult.get PointToState.bot ci).2.pt.sets x

/-- The call `call %41()` on line 7 of function `2`. -/
def callSwapped : CallInst := ⟨42, 41, [], 7, 2⟩

/-- A module with one function `2` with a body and two declarations `3` and
`4`.  The loop block `202` swaps two function pointers and calls one of them:
`%40 = phi [@3, %201], [%41, %202]`, `%41 = phi [@4, %201], [%40, %202]`,
`call %41()`, then a branch to `202` or to the exit block `203`. -/
def swapLoopModule : Module where
  isFunction v := v == 2 || v == 3 || v == 4
  isNull _ := false
  isPointerTy _ := true
  bitcastOf _ := none
  gepOf _ := none
  isIntrinsic _ := false
  arg _ _ := 0
  blocks f := if f = 2 then [201, 202, 203] else []
  insts b := if b = 201 then [.other]
    else if b = 202 then [.phi 40 [3, 41], .phi 41 [4, 40], .call callSwapped, .other]
    else if b = 203 then [.ret 2 none] else []
  preds b := if b = 202 then [201, 202] else if b = 203 then [202] else []
  succs b := if b = 201 then [202] else if b = 202 then [202, 203] else []
  functions := [2, 3, 4]

/-- The call `call @1(@5)` on line 9 of the caller `2`: a function is passed as
the argument. -/
def callCallback : CallInst := ⟨31, 1, [5], 9, 2⟩

/-- A module in which `1` (with the parameters `20`, `21`, ...) and `5` are
functions. -/
def callbackModule : Module where
  isFunction v := v == 1 || v == 5
  isNull _ := false
  isPointerTy _ := true
  bitcastOf _ := none
  gepOf _ := none
  isIntrinsic _ := false
  arg _ i := 20 + i
  blocks f := if f = 1 then [101] else []
  insts _ := []
  preds _ := []
  succs _ := []
  functions := [1, 5]

/-- A state of the caller of the scenario: `x` (`11`) points to `g` (`10`), `12`
points to `x`, and the field of `x` holds `13`. -/
def roundTripState : PointToState :=
  ⟨(PointToMap.empty.assign 11 {10}).assign 12 {11}, PointToMap.empty.assign 11 {13}⟩

/-- The state in which the field of `51` holds `7` and `51` has no `pt` set. -/
def fieldOnlyState : PointToState := ⟨PointToMap.empty, PointToMap.empty.assign 51 {7}⟩

/-- The state in which the field of `51` holds `7` and `51` points to `60`. -/
def fieldResolvedState : PointToState :=
  ⟨PointToMap.empty.assign 51 {60}, PointToMap.empty.assign 51 {7}⟩

/-- The state in which the parameter `20` of function `1` points to `3`. -/
def stateParamToThree : PointToState := ⟨PointToMap.empty.assign 20 {3}, PointToMap.empty⟩

/-- The call `call @1(%11, %20)` on line 12 of function `1` itself: the second
argument is the first parameter of the callee. -/
def callOwnParam : CallInst := ⟨32, 1, [11, 20], 12, 1⟩

/-- The state in which the base `51` points to `60` or `61` and the fields of
`60` and `62` hold `70` and `5`. -/
def storeFieldState : PointToState :=
  ⟨PointToMap.empty.assign 51 {60, 61}, (PointToMap.empty.assign 60 {70}).assign 62 {5}⟩

/-- The state in which the base `51` has no `pt` set, its field holds `7` and
the value `52` points to `99`. -/
def fieldUnresolvedState : PointToState :=
  ⟨PointToMap.empty.assign 52 {99}, PointToMap.empty.assign 51 {7}⟩

/-- A module in which `80` is a pointer cast of `12` and `81` a pointer cast of
`11`. -/
def castModule : Module where
  isFunction _ := false
  isNull _ := false
  isPointerTy _ := true
  bitcastOf v := if v = 80 then some 12 else if v = 81 then some 11 else none
  gepOf _ := none
  isIntrinsic _ := false
  arg _ _ := 0
  blocks _ := []
  insts _ := []
  preds _ := []
  succs _ := []
  functions := []

/-- The state in which the function pointer `41` points to the declaration `5`
and `7` points to `8`. -/
def declPointerState : PointToState :=
  ⟨(PointToMap.empty.assign 41 {5}).assign 7 {8}, PointToMap.empty⟩

/-- The direct call `call @5()` on line 8 of the caller `2`. -/
def callDeclaration : CallInst := ⟨43, 5, [], 8, 2⟩

/-- The state with the chains `41 → 43 → 4`, `41 → 3` and `43 → 3`: the value
`41` points to `43` and to the function `3`, and `43` points to the functions
`4` and `3`. -/
def chainState : PointToState :=
  ⟨(PointToMap.empty.assign 41 {43, 3}).assign 43 {4, 3}, PointToMap.empty⟩

/-- The length of the longest chain that starts at a value, in `chainState`. -/
def chainRank (x : Value) : Nat := if x = 41 then 2 else if x = 43 then 1 else 0


/-- The call `call @1(%11, %11)` on line 16 of the caller `2`: the same pointer
is passed at both positions. -/
def callTwice : CallInst := ⟨37, 1, [11, 11], 16, 2⟩

/-- The state in which `x` (`11`) points to `g` (`10`). -/
def stateXToG : PointToState := ⟨PointToMap.empty.assign 11 {10}, PointToMap.empty⟩

/-- The call `call @1(@5, @5)` on line 17 of the caller `2`: the function `5` is
passed at both positions. -/
def callCallbackTwice : CallInst := ⟨38, 1, [5, 5], 17, 2⟩

/-- The call `call @1(%20)` on line 15 of function `1` itself: the argument is
the first parameter of the callee. -/
def callRecursive : CallInst := ⟨34, 1, [20], 15, 1⟩

/-- The call `%33 = call @1(%11)` on line 14 of the caller `2`. -/
def callPlain : CallInst := ⟨33, 1, [11], 14, 2⟩

/-- The state at the return of `return p`: the returned value `25` points to the
parameter `20`. -/
def stateRetToParam : PointToState := ⟨PointToMap.empty.assign 25 {20}, PointToMap.empty⟩

/-- The tables in which the one recorded call edge is from `ci` to the function
`1`. -/
def edgeToOne (ci : CallInst) : Globals := { Globals.init with call_return := [(ci, {1})] }

/-- The state in which the value `25` points to `3`. -/
def stateTwentyFiveToThree : PointToState := ⟨PointToMap.empty.assign 25 {3}, PointToMap.empty⟩

/-- A pure visitor over the lattice of the two truth values, with the
disjunction as merge: the state tells whether a phi has been met; a phi sets it,
the other instructions leave it as it is. -/
def seenPhi : DataflowVisitor Bool Unit where
  compDFVal inst s result g :=
    some ((match inst with
      | .phi _ _ => true
      | _ => s), result, g)
  merge a b := a || b
  dflt := false

/-- The function computed by `seenPhi`. -/
def seenPhiTransfer (inst : Instruction) (s : Bool) : Bool :=
  match inst with
  | .phi _ _ => true
  | _ => s

/-- The height of a truth value in the lattice `false ⊑ true`. -/
def boolRank (b : Bool) : Nat := if b then 1 else 0

/-- A module with one function `2` whose blocks are `201` (entry), `202`, `203`
(exit) and `204`, with the edges `201 → 202`, `201 → 204`, `204 → 202` and
`202 → 203`.  The block `204` stores `9` to the address `7`, the block `202`
stores `7` to the address `8`. -/
def diamondModule : Module where
  isFunction v := v == 2
  isNull _ := false
  isPointerTy _ := true
  bitcastOf _ := none
  gepOf _ := none
  isIntrinsic _ := false
  arg _ _ := 0
  blocks f := if f = 2 then [201, 202, 203, 204] else []
  insts b := if b = 201 then [.other]
    else if b = 202 then [.store 7 8]
    else if b = 203 then [.ret 2 none]
    else if b = 204 then [.store 9 7] else []
  preds b := if b = 202 then [201, 204] else if b = 203 then [202]
    else if b = 204 then [201] else []
  succs b := if b = 201 then [202, 204] else if b = 202 then [203]
    else if b = 204 then [202] else []
  functions := [2]

/-- The call `call @1(%11, %12)` on line 18 of the caller `2`: two distinct
pointers are passed. -/
def callPair : CallInst := ⟨39, 1, [11, 12], 18, 2⟩

/-- The call `call @1(@5, @1)` on line 19 of the caller `2`: two distinct
functions are passed. -/
def callCallbackPair : CallInst := ⟨40, 1, [5, 1], 19, 2⟩

/-- The state in which the value `41` points to `43`, and `43` has no `pt`
entry. -/
def stateChainToUnbound : PointToState := ⟨PointToMap.empty.assign 41 {43}, PointToMap.empty⟩

/-- The state in which the value `41` points to `43` and to the function `3`,
and `43` points to itself and to the function `4`. -/
def stateChainToSelf : PointToState :=
  ⟨(PointToMap.empty.assign 41 {43, 3}).assign 43 {43, 4}, PointToMap.empty⟩

/-- The local state and the tables after the call `call @1(%11)` of the scenario
"store through a parameter" has been handled with empty tables, in the state in
which `11` points to `10`. -/
def afterCallStore : PointToState × Table PointToState × Globals :=
  (handleCallInst storeModule Order.asc 1 callStore stateXToG Table.empty Globals.init).getD
    (PointToState.bot, Table.empty, Globals.init)

/-- The call `%45 = call @1(%12)` on line 14 of the caller `2`, the line of
`callPlain`. -/
def callPlainSameLine : CallInst := ⟨45, 1, [12], 14, 2⟩

/-- The tables after the callee `1` has been recorded for `callPlain` and then
for `callPlainSameLine`, which is on the same line. -/
def edgesSameLine : Globals :=
  { Globals.init with
    call_return := callReturnInsert (callReturnInsert [] callPlain {1}) callPlainSameLine {1} }

/-- The call `%35 = call @1(%21, %20)` on line 20 of the function `1` itself: the
arguments are the two parameters of the callee, swapped. -/
def callSwappedParams : CallInst := ⟨35, 1, [21, 20], 20, 1⟩

/-! ## Lemmas on `merge` -/

namespace PointToMap

theorem foldr_mergeStep_keys (src d : PointToMap) (t : Multiset Value) :
    (t.foldr (mergeStep src) d).keys = d.keys ∪ t.toFinset := by
  induction t using Multiset.induction_on with
  | empty => simp
  | cons a t ih =>
    rw [Multiset.foldr_cons]
    simp only [mergeStep, keys_insertAll, ih, Multiset.toFinset_cons]
    ext x
    simp only [Finset.mem_insert, Finset.mem_union]
    tauto

theorem foldr_mergeStep_sets (src d : PointToMap) (t : Multiset Value) (k : Value) :
    (t.foldr (mergeStep src) d).sets k = d.sets k ∪ (if k ∈ t then src.sets k else ∅) := by
  induction t using Multiset.induction_on with
  | empty => simp
  | cons a t ih =>
    rw [Multiset.foldr_cons]
    simp only [mergeStep, sets_insertAll]
    by_cases hka : k = a
    · subst hka
      rw [ih]
      by_cases hkt : k ∈ t <;> simp [hkt]
    · rw [ih]
      simp [hka]

theorem merge_keys (d s : PointToMap) : (d.merge s).keys = d.keys ∪ s.keys := by
  unfold merge
  rw [foldr_mergeStep_keys]
  simp

theorem merge_sets (d s : PointToMap) (k : Value) :
    (d.merge s).sets k = d.sets k ∪ s.sets k := by
  unfold merge
  rw [foldr_mergeStep_sets]
  by_cases h : k ∈ s.keys
  · simp [h]
  · simp [h, s.absent k h]

theorem merge_self (m : PointToMap) : m.merge m = m :=
  ext (by rw [merge_keys, Finset.union_self]) (fun k => by rw [merge_sets, Finset.union_self])

theorem merge_comm (a b : PointToMap) : a.merge b = b.merge a :=
  ext (by rw [merge_keys, merge_keys, Finset.union_comm])
    (fun k => by rw [merge_sets, merge_sets, Finset.union_comm])

theorem merge_empty_left (a : PointToMap) : empty.merge a = a :=
  ext (by rw [merge_keys]; simp) (fun k => by rw [merge_sets]; simp)

theorem merge_empty_right (a : PointToMap) : a.merge empty = a :=
  ext (by rw [merge_keys]; simp) (fun k => by rw [merge_sets]; simp)

theorem le_merge_left (a b : PointToMap) : a.le (a.merge b) :=
  ⟨by rw [merge_keys]; exact Finset.subset_union_left,
    fun k => by rw [merge_sets]; exact Finset.subset_union_left⟩

theorem le_merge_right (a b : PointToMap) : b.le (a.merge b) :=
  ⟨by rw [merge_keys]; exact Finset.subset_union_right,
    fun k => by rw [merge_sets]; exact Finset.subset_union_right⟩

theorem merge_le {a b c : PointToMap} (ha : a.le c) (hb : b.le c) : (a.merge b).le c :=
  ⟨by rw [merge_keys]; exact Finset.union_subset ha.1 hb.1,
    fun k => by rw [merge_sets]; exact Finset.union_subset (ha.2 k) (hb.2 k)⟩

theorem le_refl (a : PointToMap) : a.le a := ⟨Finset.Subset.refl _, fun _ => Finset.Subset.refl _⟩

end PointToMap

theorem PointToState.eq_of_maps {a b : PointToState} (h1 : a.pt = b.pt)
    (h2 : a.field_pt = b.field_pt) : a = b := by
  cases a
  cases b
  simp only at h1 h2
  rw [h1, h2]

/-! ## Lemmas on the load through several candidate bases -/

theorem foldr_loadStep_field_sets (li : Value) (st : PointToState) (t : Multiset Value)
    (k : Value) : (t.foldr (loadStep li) st).field_pt.sets k = st.field_pt.sets k := by
  induction t using Multiset.induction_on with
  | empty => simp
  | cons a t ih =>
    rw [Multiset.foldr_cons]
    simp only [loadStep, PointToMap.sets_touch]
    exact ih

theorem foldr_loadStep_pt_sets (li : Value) (st : PointToState) (t : Multiset Value)
    (k : Value) :
    (t.foldr (loadStep li) st).pt.sets k =
      if k = li then st.pt.sets li ∪ t.toFinset.biUnion (fun c => st.field_pt.sets c)
      else st.pt.sets k := by
  induction t using Multiset.induction_on with
  | empty => by_cases h : k = li <;> simp [h]
  | cons a t ih =>
    rw [Multiset.foldr_cons]
    simp only [loadStep, PointToMap.sets_insertAll, PointToMap.sets_touch]
    by_cases h : k = li
    · subst h
      have := ih
      simp only [if_true] at this ⊢
      rw [this, foldr_loadStep_field_sets, Multiset.toFinset_cons, Finset.biUnion_insert]
      ext x
      simp only [Finset.mem_union]
      tauto
    · simp only [h, if_false]
      simpa [h] using ih

/-! ## Lemmas on the transfer functions -/


theorem calleeStep_instresult (M : Module) (ci : CallInst) (state : PointToState)
    (w : Table PointToState × Globals) (callee : Value) :
    (calleeStep M ci state w callee).2.instresult = w.2.instresult := by
  unfold calleeStep
  split
  · rfl
  · simp only
    split <;> rfl

theorem foldl_calleeStep_instresult (M : Module) (ci : CallInst) (state : PointToState)
    (l : List Value) (w : Table PointToState × Globals) :
    (l.foldl (calleeStep M ci state) w).2.instresult = w.2.instresult := by
  induction l generalizing w with
  | nil => rfl
  | cons c l ih => rw [List.foldl_cons, ih, calleeStep_instresult]

theorem getFunctions_of_isFunction (M : Module) (o : Order) (fuel : Nat) (v : Value)
    (state : PointToState) (h : M.isFunction v = true) :
    getFunctions M o fuel v state = some ({v}, state) := by
  simp [getFunctions, h]

theorem handleCallInst_state (M : Module) (o : Order) (fuel : Nat) (ci : CallInst)
    (state : PointToState) (bbresult : Table PointToState) (g : Globals)
    (r : PointToState × Table PointToState × Globals)
    (h : handleCallInst M o fuel ci state bbresult g = some r) :
    r.1 = if (M.isFunction ci.called && M.isDeclaration ci.called) = true then state
      else ((g.instresult.insert ci.id (PointToState.bot, PointToState.bot)).get
        PointToState.bot ci.id).2 := by
  unfold handleCallInst at h
  cases hg : getFunctions M o fuel ci.called state with
  | none => rw [hg] at h; simp at h
  | some p =>
    obtain ⟨callee_set, st⟩ := p
    rw [hg] at h
    simp only at h
    by_cases hd : (M.isFunction ci.called && M.isDeclaration ci.called) = true
    · rw [if_pos hd] at h
      rw [if_pos hd]
      simp only [Bool.and_eq_true] at hd
      rw [getFunctions_of_isFunction M o fuel _ _ hd.1] at hg
      simp only [Option.some.injEq, Prod.mk.injEq] at hg h
      rw [← h]
      exact hg.2.symm
    · rw [if_neg hd] at h
      rw [if_neg hd]
      simp only [Option.some.injEq] at h
      rw [← h]
      simp only
      rw [foldl_calleeStep_instresult]

theorem PointToMap.le_of_touch_assign {a b : PointToMap} (h : a.le b) (k d : Value)
    (sa sb : ValueSet) (hs : sa ⊆ sb) : ((a.touch k).assign d sa).le ((b.touch k).assign d sb) := by
  constructor
  · simp only [PointToMap.keys_assign, PointToMap.keys_touch]
    exact Finset.insert_subset_insert _ (Finset.insert_subset_insert _ h.1)
  · intro x
    simp only [PointToMap.sets_assign, PointToMap.sets_touch]
    by_cases hx : x = d
    · simpa [hx] using hs
    · simpa [hx] using h.2 x

theorem handleMemCpyInst_mono (M : Module) (dst src : Value) {A B : PointToState}
    (h : A.le B) : (handleMemCpyInst M dst src A).le (handleMemCpyInst M dst src B) := by
  unfold handleMemCpyInst
  cases M.bitcastOf dst with
  | none => exact h
  | some d =>
    cases M.bitcastOf src with
    | none => exact h
    | some s =>
      exact ⟨PointToMap.le_of_touch_assign h.1 s d _ _ (h.1.2 s),
        PointToMap.le_of_touch_assign h.2 s d _ _ (h.2.2 s)⟩

theorem handleLoadInst_mono (M : Module) (li addr : Value) (hgep : M.gepOf addr = none)
    {A B : PointToState} (h : A.le B) :
    (handleLoadInst M li addr A).le (handleLoadInst M li addr B) := by
  simp only [handleLoadInst, hgep]
  refine ⟨⟨?_, ?_⟩, h.2⟩
  · simp only [PointToMap.keys_insertAll, PointToMap.keys_touch, PointToMap.keys_assign]
    exact Finset.insert_subset_insert _
      (Finset.insert_subset_insert _ (Finset.insert_subset_insert _ h.1.1))
  · intro x
    simp only [PointToMap.sets_insertAll, PointToMap.sets_touch, PointToMap.sets_assign]
    by_cases hx : x = li
    · by_cases ha : addr = li
      · simp [hx, ha]
      · simpa [hx, ha] using h.1.2 addr
    · simpa [hx] using h.1.2 x

/-! ## Lemmas on the resolution of callees and on the call -/

theorem Order.enum_eq_nil (o : Order) (s : Finset Value) : o.enum s = [] ↔ s = ∅ := by
  constructor
  · intro h
    ext x
    rw [← o.mem_enum s x, h]
    simp
  · intro h
    rw [List.eq_nil_iff_forall_not_mem]
    intro x hx
    rw [o.mem_enum, h] at hx
    simp at hx

theorem Order.head_mem (o : Order) (s : Finset Value) (v : Value) (rest : List Value)
    (h : o.enum s = v :: rest) : v ∈ s := by
  rw [← o.mem_enum s v, h]
  exact List.mem_cons_self _ _

theorem Table.get_setFirst_same {T : Type} (t : Table T) (d : T) (k : Value) (v : T) :
    (t.setFirst d k v).get d k = (v, (t.get d k).2) := by
  simp [Table.setFirst, Table.get]

theorem Table.get_setFirst_other {T : Type} (t : Table T) (d : T) (k b : Value) (v : T)
    (h : b ≠ k) : (t.setFirst d k v).get d b = t.get d b := by
  simp [Table.setFirst, Table.get, h]

theorem Table.get_touch {T : Type} (t : Table T) (d : T) (k b : Value) :
    (t.touch d k).get d b = t.get d b := by
  unfold Table.touch Table.insert Table.get
  by_cases h : b = k
  · subst h
    cases ht : t b <;> simp [ht]
  · simp [h]

theorem calleeStep_call_return (M : Module) (ci : CallInst) (state : PointToState)
    (w : Table PointToState × Globals) (callee : Value) :
    (calleeStep M ci state w callee).2.call_return = w.2.call_return := by
  unfold calleeStep
  split
  · rfl
  · simp only
    split <;> rfl

theorem foldl_calleeStep_call_return (M : Module) (ci : CallInst) (state : PointToState)
    (l : List Value) (w : Table PointToState × Globals) :
    (l.foldl (calleeStep M ci state) w).2.call_return = w.2.call_return := by
  induction l generalizing w with
  | nil => rfl
  | cons c l ih => rw [List.foldl_cons, ih, calleeStep_call_return]

theorem calleeStep_get_other (M : Module) (ci : CallInst) (state : PointToState)
    (w : Table PointToState × Globals) (callee b : Value)
    (h : M.isDeclaration callee = false → b ≠ M.entry callee) :
    (calleeStep M ci state w callee).1.get PointToState.bot b = w.1.get PointToState.bot b := by
  unfold calleeStep
  cases hd : M.isDeclaration callee with
  | true => simp
  | false =>
    have hb := h hd
    simp only [Bool.false_eq_true, if_false]
    split <;> simp only [Table.get_setFirst_other _ _ _ _ _ hb, Table.get_touch]

theorem calleeStep_get_entry (M : Module) (ci : CallInst) (state : PointToState)
    (w : Table PointToState × Globals) (callee : Value) (hd : M.isDeclaration callee = false) :
    ((calleeStep M ci state w callee).1.get PointToState.bot (M.entry callee)).1 =
      merge (w.1.get PointToState.bot (M.entry callee)).1 (renameCall M ci callee state) := by
  unfold calleeStep
  simp only [hd, Bool.false_eq_true, if_false]
  split <;> simp only [Table.get_setFirst_same, Table.get_touch]

theorem getFunctionsLoop_self_reference (M : Module) (o : Order) (q : Value)
    (hq : M.isFunction q = false) :
    ∀ (n : Nat) (worklist func : Finset Value) (state : PointToState),
      q ∈ worklist → q ∈ state.pt.sets q →
      getFunctionsLoop M o n worklist func state = none := by
  intro n
  induction n with
  | zero =>
    intro worklist func state hmem _
    cases he : o.enum worklist with
    | nil =>
      rw [(o.enum_eq_nil worklist).1 he] at hmem
      simp at hmem
    | cons vi rest => simp only [getFunctionsLoop, he]
  | succ n ih =>
    intro worklist func state hmem hself
    cases he : o.enum worklist with
    | nil =>
      rw [(o.enum_eq_nil worklist).1 he] at hmem
      simp at hmem
    | cons vi rest =>
      simp only [getFunctionsLoop, he]
      by_cases hf : M.isFunction vi = true
      · rw [if_pos hf]
        have hne : q ≠ vi := fun e => by rw [e, hf] at hq; exact Bool.noConfusion hq
        exact ih _ _ _ (Finset.mem_erase.2 ⟨hne, hmem⟩) hself
      · rw [if_neg hf]
        apply ih
        · by_cases e : q = vi
          · apply Finset.mem_union_right
            subst e
            simpa using hself
          · exact Finset.mem_union_left _ (Finset.mem_erase.2 ⟨e, hmem⟩)
        · simpa using hself

theorem getFunctions_self_reference (M : Module) (o : Order) (fuel : Nat) (q : Value)
    (state : PointToState) (hq : M.isFunction q = false) (hself : q ∈ state.pt.sets q) :
    getFunctions M o fuel q state = none := by
  have hkey : q ∈ state.pt.keys := by
    by_contra hk
    rw [state.pt.absent _ hk] at hself
    simp at hself
  unfold getFunctions
  simp only [hq, Bool.false_eq_true, if_false]
  rw [(state.pt.count_eq_true q).2 hkey, if_pos rfl]
  exact getFunctionsLoop_self_reference M o q hq fuel _ _ state hself hself

theorem handleCallInst_eq_none (M : Module) (o : Order) (fuel : Nat) (ci : CallInst)
    (state : PointToState) (bbresult : Table PointToState) (g : Globals)
    (h : getFunctions M o fuel ci.called state = none) :
    handleCallInst M o fuel ci state bbresult g = none := by
  simp only [handleCallInst, h]

/-! ## Lemmas on the run over the module with the swapped function pointers -/

theorem Table.allBot_empty : (Table.empty : Table PointToState).AllBot := fun _ => rfl

theorem Table.allBot_touch {t : Table PointToState} (h : t.AllBot) (k : Value) :
    (t.touch PointToState.bot k).AllBot := fun b => by
  rw [Table.get_touch]
  exact h b

theorem Table.allBot_insert {t : Table PointToState} (h : t.AllBot) (k : Value) :
    (t.insert k (PointToState.bot, PointToState.bot)).AllBot :=
  Table.allBot_touch h k

theorem Table.allBot_setFirst {t : Table PointToState} (h : t.AllBot) (k : Value) :
    (t.setFirst PointToState.bot k PointToState.bot).AllBot := fun b => by
  by_cases hb : b = k
  · subst hb
    rw [Table.get_setFirst_same, h b]
  · rw [Table.get_setFirst_other _ _ _ _ _ hb]
    exact h b

theorem merge_self_state (S : PointToState) : merge S S = S :=
  PointToState.eq_of_maps (PointToMap.merge_self S.pt) (PointToMap.merge_self S.field_pt)

theorem merge_bot_bot : merge PointToState.bot PointToState.bot = PointToState.bot :=
  merge_self_state PointToState.bot

theorem PointToVisitor_compDFVal (M : Module) (o : Order) (fuel : Nat) :
    (PointToVisitor M o fuel).compDFVal = compDFVal M o fuel := rfl

theorem PointToVisitor_merge (M : Module) (o : Order) (fuel : Nat) :
    (PointToVisitor M o fuel).merge = merge := rfl

theorem PointToVisitor_dflt (M : Module) (o : Order) (fuel : Nat) :
    (PointToVisitor M o fuel).dflt = PointToState.bot := rfl

theorem mergePreds_allBot (o : Order) (fuel : Nat) (preds : List Value)
    (t : Table PointToState) (h : t.AllBot) :
    (mergePreds (PointToVisitor swapLoopModule o fuel) preds PointToState.bot t).1 =
        PointToState.bot ∧
      (mergePreds (PointToVisitor swapLoopModule o fuel) preds PointToState.bot t).2.AllBot := by
  unfold mergePreds
  induction preds generalizing t with
  | nil => exact ⟨rfl, h⟩
  | cons p rest ih =>
    rw [List.foldl_cons]
    have ht := Table.allBot_touch h p
    have hm : (PointToVisitor swapLoopModule o fuel).merge PointToState.bot
        (((t.touch (PointToVisitor swapLoopModule o fuel).dflt p).get
          (PointToVisitor swapLoopModule o fuel).dflt p).2) = PointToState.bot := by
      show merge PointToState.bot ((t.touch PointToState.bot p).get PointToState.bot p).2 = _
      rw [ht p]
      exact merge_bot_bot
    simp only [hm]
    exact ih _ ht

theorem swapLoop_block_diverges (o : Order) (fuel : Nat) (result : Table PointToState)
    (g : Globals) :
    compDFValBlock (PointToVisitor swapLoopModule o fuel) (swapLoopModule.insts 202)
      PointToState.bot result g = none := by
  have hins : swapLoopModule.insts 202 =
      [.phi 40 [3, 41], .phi 41 [4, 40], .call callSwapped, .other] := rfl
  rw [hins]
  simp only [compDFValBlock, PointToVisitor_compDFVal, compDFVal]
  rw [handleCallInst_eq_none _ _ _ _ _ _ _
    (getFunctions_self_reference swapLoopModule o fuel 41 _ rfl (by decide))]

theorem swapLoop_forwardLoop_diverges (o : Order) (fuel : Nat) :
    ∀ (n : Nat) (worklist : Finset Value) (result : Table PointToState) (g : Globals),
      202 ∈ worklist → worklist ⊆ {201, 202, 203} → result.AllBot → g.call_return = [] →
      forwardLoop swapLoopModule o (PointToVisitor swapLoopModule o fuel) n worklist result g
        = none := by
  intro n
  induction n with
  | zero =>
    intro worklist result g hmem _ _ _
    cases he : o.enum worklist with
    | nil =>
      rw [(o.enum_eq_nil worklist).1 he] at hmem
      simp at hmem
    | cons bb rest => simp only [forwardLoop, he]
  | succ n ih =>
    intro worklist result g hmem hsub hbot hcr
    cases he : o.enum worklist with
    | nil =>
      rw [(o.enum_eq_nil worklist).1 he] at hmem
      simp at hmem
    | cons bb rest =>
      have hbb : bb ∈ worklist := o.head_mem worklist bb rest he
      have hcases : bb = 201 ∨ bb = 202 ∨ bb = 203 := by
        simpa using hsub hbb
      have hdflt : (PointToVisitor swapLoopModule o fuel).dflt = PointToState.bot := rfl
      have ht := Table.allBot_touch hbot bb
      have hstart : ((result.touch PointToState.bot bb).get PointToState.bot bb).1 =
          PointToState.bot := by rw [ht bb]
      obtain ⟨hin, hres⟩ := mergePreds_allBot o fuel (swapLoopModule.preds bb) _ ht
      have hres2 := Table.allBot_setFirst hres bb
      simp only [forwardLoop, he, hdflt, hstart, hin]
      rcases hcases with e | e | e
      · subst e
        have hins : swapLoopModule.insts 201 = [.other] := rfl
        simp only [hins, compDFValBlock, PointToVisitor_compDFVal, compDFVal]
        rw [hres2 201, if_pos rfl]
        refine ih _ _ _ (Finset.mem_erase.2 ⟨by decide, hmem⟩)
          ((Finset.erase_subset _ _).trans hsub) hres2 hcr
      · subst e
        rw [swapLoop_block_diverges]
      · subst e
        have hins : swapLoopModule.insts 203 = [.ret 2 none] := rfl
        have hret : handleReturnInst swapLoopModule 2 none PointToState.bot g = g := by
          simp only [handleReturnInst, hcr, List.foldl_nil]
        simp only [hins, compDFValBlock, PointToVisitor_compDFVal, compDFVal, hret]
        rw [hres2 203, if_pos rfl]
        refine ih _ _ _ (Finset.mem_erase.2 ⟨by decide, hmem⟩)
          ((Finset.erase_subset _ _).trans hsub) hres2 hcr

theorem forwardLoop_empty_worklist {T G : Type} [DecidableEq T] (M : Module) (o : Order)
    (V : DataflowVisitor T G) (n : Nat) (result : Table T) (g : G) :
    forwardLoop M o V n ∅ result g = some (result, g) := by
  have he : o.enum ∅ = [] := (o.enum_eq_nil ∅).2 rfl
  cases n <;> simp only [forwardLoop, he]

theorem swapLoop_moduleLoop_diverges (o : Order) (fuel : Nat) :
    ∀ (n : Nat) (pending : Finset Value) (result : Table PointToState) (g : Globals),
      2 ∈ pending → pending ⊆ {2, 3, 4} → result.AllBot → g.call_return = [] →
      g.func_set = ∅ → moduleLoop swapLoopModule o fuel n pending result g = none := by
  intro n
  induction n with
  | zero =>
    intro pending result g hmem _ _ _ _
    cases he : o.enum pending with
    | nil =>
      rw [(o.enum_eq_nil pending).1 he] at hmem
      simp at hmem
    | cons f rest => simp only [moduleLoop, he]
  | succ n ih =>
    intro pending result g hmem hsub hbot hcr hfs
    cases he : o.enum pending with
    | nil =>
      rw [(o.enum_eq_nil pending).1 he] at hmem
      simp at hmem
    | cons f rest =>
      have hf : f ∈ pending := o.head_mem pending f rest he
      have hcases : f = 2 ∨ f = 3 ∨ f = 4 := by
        simpa using hsub hf
      simp only [moduleLoop, he]
      have hdecl : ∀ f', f' = 3 ∨ f' = 4 →
          compForwardDataflow swapLoopModule o (PointToVisitor swapLoopModule o fuel) fuel f'
            result g PointToState.bot = some (result, g) := by
        intro f' hf'
        have hblocks : swapLoopModule.blocks f' = [] := by
          rcases hf' with e | e <;> subst e <;> rfl
        simp only [compForwardDataflow, hblocks, initBlocks, List.foldl_nil]
        exact forwardLoop_empty_worklist _ _ _ _ _ _
      have hnext : ∀ f', f' ≠ 2 → f' ∈ pending →
          moduleLoop swapLoopModule o fuel n (pending.erase f' ∪ g.func_set) result
            { g with func_set := ∅ } = none := by
        intro f' hne _
        refine ih _ _ _ (Finset.mem_union_left _ (Finset.mem_erase.2 ⟨hne.symm, hmem⟩)) ?_ hbot hcr
          rfl
        rw [hfs, Finset.union_empty]
        exact (Finset.erase_subset _ _).trans hsub
      rcases hcases with e | e | e
      · subst e
        have : compForwardDataflow swapLoopModule o (PointToVisitor swapLoopModule o fuel) fuel 2
            result g PointToState.bot = none := by
          have hblocks : swapLoopModule.blocks 2 = [201, 202, 203] := rfl
          simp only [compForwardDataflow, hblocks, initBlocks, List.foldl_cons, List.foldl_nil]
          refine swapLoop_forwardLoop_diverges o fuel fuel _ _ g (by simp) (by decide)
            (Table.allBot_insert (Table.allBot_insert (Table.allBot_insert hbot _) _) _) hcr
        rw [this]
      · rw [hdecl f (Or.inl e)]
        exact hnext f (by rw [e]; decide) hf
      · rw [hdecl f (Or.inr e)]
        exact hnext f (by rw [e]; decide) hf


/-! ## Lemmas on the renaming at calls and returns -/

namespace PointToMap

theorem mem_keys_of_mem_sets (m : PointToMap) {k z : Value} (h : z ∈ m.sets k) : k ∈ m.keys := by
  by_contra hk
  rw [m.absent k hk] at h
  simp at h

theorem image_subst (x y : Value) (s : Finset Value) :
    s.image (subst x y) = if x ∈ s then insert y (s.erase x) else s := by
  ext z
  simp only [Finset.mem_image, subst]
  constructor
  · rintro ⟨v, hv, rfl⟩
    by_cases hvx : v = x
    · subst hvx
      simp [hv]
    · simp only [hvx, if_false]
      split
      · exact Finset.mem_insert_of_mem (Finset.mem_erase.2 ⟨hvx, hv⟩)
      · exact hv
  · intro hz
    by_cases hx : x ∈ s
    · rw [if_pos hx] at hz
      rcases Finset.mem_insert.1 hz with e | e
      · exact ⟨x, hx, by simp [e]⟩
      · have := Finset.mem_erase.1 e
        exact ⟨z, this.2, by simp [this.1]⟩
    · rw [if_neg hx] at hz
      refine ⟨z, hz, ?_⟩
      have : z ≠ x := fun e => hx (e ▸ hz)
      simp [this]

theorem keys_renameMembersBy (σ : Value → Value) (m : PointToMap) :
    (m.renameMembersBy σ).keys = m.keys := rfl

theorem mem_sets_renameMembersBy (σ : Value → Value) (m : PointToMap) (k z : Value) :
    z ∈ (m.renameMembersBy σ).sets k ↔ ∃ z' ∈ m.sets k, σ z' = z := by
  simp only [renameMembersBy, sets_mapSets]
  by_cases hk : k ∈ m.keys
  · simp [hk]
  · simp [hk, m.absent k hk]

theorem mem_keys_renameKeysBy (σ : Value → Value) (m : PointToMap) (k : Value) :
    k ∈ (m.renameKeysBy σ).keys ↔ ∃ k' ∈ m.keys, σ k' = k := by
  simp [renameKeysBy]

theorem mem_sets_renameKeysBy (σ : Value → Value) (m : PointToMap) (k z : Value) :
    z ∈ (m.renameKeysBy σ).sets k ↔ ∃ k', σ k' = k ∧ z ∈ m.sets k' := by
  simp only [renameKeysBy, Finset.mem_biUnion, Finset.mem_filter]
  constructor
  · rintro ⟨k', ⟨_, he⟩, hz⟩
    exact ⟨k', he, hz⟩
  · rintro ⟨k', he, hz⟩
    exact ⟨k', ⟨m.mem_keys_of_mem_sets hz, he⟩, hz⟩

theorem renameMembers_eq (M : Module) (x y : Value) (m : PointToMap)
    (hx : M.isFunction x = false) : renameMembers M x y m = m.renameMembersBy (subst x y) := by
  apply ext
  · rfl
  · intro k
    simp only [renameMembers, renameMembersBy, sets_mapSets, hx, and_true, image_subst]

theorem moveKey_eq (x y : Value) (m : PointToMap) :
    moveKey x y m = m.renameKeysBy (subst x y) := by
  unfold moveKey
  by_cases hx : x ∈ m.keys
  · rw [(m.count_eq_true x).2 hx, if_pos rfl]
    apply ext
    · simp only [keys_insertAll, keys_erase, renameKeysBy, image_subst, hx, if_true]
    · intro k
      ext z
      rw [mem_sets_renameKeysBy]
      simp only [sets_insertAll, sets_erase, subst]
      constructor
      · intro hz
        by_cases hky : k = y
        · subst hky
          rw [if_pos rfl] at hz
          rcases Finset.mem_union.1 hz with h | h
          · by_cases hkx : k = x
            · simp [hkx] at h
            · rw [if_neg hkx] at h
              exact ⟨k, by simp [hkx], h⟩
          · exact ⟨x, by simp, h⟩
        · rw [if_neg hky] at hz
          by_cases hkx : k = x
          · simp [hkx] at hz
          · rw [if_neg hkx] at hz
            exact ⟨k, by simp [hkx], hz⟩
      · rintro ⟨k', he, hz⟩
        by_cases hk'x : k' = x
        · subst hk'x
          simp only [if_true] at he
          subst he
          rw [if_pos rfl]
          exact Finset.mem_union_right _ hz
        · simp only [hk'x, if_false] at he
          subst he
          by_cases hky : k' = y
          · rw [if_pos hky, ← hky, if_neg hk'x]
            exact Finset.mem_union_left _ hz
          · rw [if_neg hky, if_neg hk'x]
            exact hz
  · have hc : m.count x = false := by
      simp [count, hx]
    rw [hc]
    simp only [Bool.false_eq_true, if_false]
    apply ext
    · simp only [renameKeysBy, image_subst, hx, if_false]
    · intro k
      ext z
      rw [mem_sets_renameKeysBy]
      constructor
      · intro hz
        have hkx : k ≠ x := fun e => hx (e ▸ m.mem_keys_of_mem_sets hz)
        exact ⟨k, by simp [subst, hkx], hz⟩
      · rintro ⟨k', he, hz⟩
        have hk'x : k' ≠ x := fun e => hx (e ▸ m.mem_keys_of_mem_sets hz)
        simp only [subst, hk'x, if_false] at he
        rw [← he]
        exact hz

theorem renameMembersBy_comp (σ τ : Value → Value) (m : PointToMap) :
    (m.renameMembersBy σ).renameMembersBy τ = m.renameMembersBy (fun v => τ (σ v)) := by
  apply ext
  · rfl
  · intro k
    ext z
    simp only [mem_sets_renameMembersBy]
    constructor
    · rintro ⟨z', ⟨z'', hz'', rfl⟩, rfl⟩
      exact ⟨z'', hz'', rfl⟩
    · rintro ⟨z'', hz'', rfl⟩
      exact ⟨σ z'', ⟨z'', hz'', rfl⟩, rfl⟩

theorem renameKeysBy_comp (σ τ : Value → Value) (m : PointToMap) :
    (m.renameKeysBy σ).renameKeysBy τ = m.renameKeysBy (fun v => τ (σ v)) := by
  apply ext
  · ext k
    simp only [mem_keys_renameKeysBy]
    constructor
    · rintro ⟨k', ⟨k'', hk'', rfl⟩, rfl⟩
      exact ⟨k'', hk'', rfl⟩
    · rintro ⟨k'', hk'', rfl⟩
      exact ⟨σ k'', ⟨k'', hk'', rfl⟩, rfl⟩
  · intro k
    ext z
    simp only [mem_sets_renameKeysBy]
    constructor
    · rintro ⟨k', rfl, k'', rfl, hz⟩
      exact ⟨k'', rfl, hz⟩
    · rintro ⟨k'', rfl, hz⟩
      exact ⟨σ k'', rfl, k'', rfl, hz⟩

theorem renameKeysBy_renameMembersBy (σ τ : Value → Value) (m : PointToMap) :
    (m.renameKeysBy τ).renameMembersBy σ = (m.renameMembersBy σ).renameKeysBy τ := by
  apply ext
  · rfl
  · intro k
    ext z
    simp only [mem_sets_renameMembersBy, mem_sets_renameKeysBy]
    constructor
    · rintro ⟨z', ⟨k', he, hz'⟩, rfl⟩
      exact ⟨k', he, z', hz', rfl⟩
    · rintro ⟨k', he, z', hz', rfl⟩
      exact ⟨z', ⟨k', he, hz'⟩, rfl⟩

theorem renameMembersBy_of_fixed (σ : Value → Value) (m : PointToMap)
    (h : ∀ k ∈ m.keys, ∀ z ∈ m.sets k, σ z = z) : m.renameMembersBy σ = m := by
  apply ext
  · rfl
  · intro k
    ext z
    rw [mem_sets_renameMembersBy]
    constructor
    · rintro ⟨z', hz', rfl⟩
      rw [h k (m.mem_keys_of_mem_sets hz') z' hz']
      exact hz'
    · intro hz
      exact ⟨z, hz, h k (m.mem_keys_of_mem_sets hz) z hz⟩

theorem renameKeysBy_of_fixed (σ : Value → Value) (m : PointToMap)
    (h : ∀ k ∈ m.keys, σ k = k) : m.renameKeysBy σ = m := by
  apply ext
  · ext k
    rw [mem_keys_renameKeysBy]
    constructor
    · rintro ⟨k', hk', rfl⟩
      rw [h k' hk']
      exact hk'
    · intro hk
      exact ⟨k, hk, h k hk⟩
  · intro k
    ext z
    rw [mem_sets_renameKeysBy]
    constructor
    · rintro ⟨k', rfl, hz⟩
      rw [h k' (m.mem_keys_of_mem_sets hz)]
      exact hz
    · intro hz
      exact ⟨k, h k (m.mem_keys_of_mem_sets hz), hz⟩

end PointToMap

theorem substAll_cons (e : Value × Value) (l : List (Value × Value)) (v : Value) :
    substAll (e :: l) v = substAll l (subst e.1 e.2 v) := rfl

theorem substAll_of_not_key (l : List (Value × Value)) (v : Value)
    (h : ∀ e ∈ l, e.1 ≠ v) : substAll l v = v := by
  induction l with
  | nil => rfl
  | cons e l ih =>
    have hne : v ≠ e.1 := fun he => h e (List.mem_cons_self _ _) he.symm
    rw [substAll_cons]
    simp only [subst, hne, if_false]
    exact ih (fun e' he' => h e' (List.mem_cons_of_mem _ he'))

theorem substAll_of_key (l : List (Value × Value)) (v : Value)
    (hsep : ∀ e ∈ l, ∀ e' ∈ l, e'.1 ≠ e.2) (hkey : ∃ e ∈ l, e.1 = v) :
    ∃ e ∈ l, e.1 = v ∧ substAll l v = e.2 := by
  induction l with
  | nil =>
    obtain ⟨e, he, _⟩ := hkey
    simp at he
  | cons e l ih =>
    rw [substAll_cons]
    by_cases hv : v = e.1
    · refine ⟨e, List.mem_cons_self _ _, hv.symm, ?_⟩
      simp only [subst, hv, if_true]
      exact substAll_of_not_key l e.2 (fun e' he' =>
        hsep e (List.mem_cons_self _ _) e' (List.mem_cons_of_mem _ he'))
    · simp only [subst, hv, if_false]
      have hkey' : ∃ e' ∈ l, e'.1 = v := by
        obtain ⟨e', he', hev⟩ := hkey
        rcases List.mem_cons.1 he' with h | h
        · exact absurd (h ▸ hev).symm hv
        · exact ⟨e', h, hev⟩
      obtain ⟨e', he', h1, h2⟩ := ih (fun a ha b hb =>
        hsep a (List.mem_cons_of_mem _ ha) b (List.mem_cons_of_mem _ hb)) hkey'
      exact ⟨e', List.mem_cons_of_mem _ he', h1, h2⟩

theorem mem_mapInsert {l : List (Value × Value)} {k v : Value} {e : Value × Value}
    (h : e ∈ mapInsert l k v) : e ∈ l ∨ e = (k, v) := by
  induction l with
  | nil =>
    simp only [mapInsert, List.mem_singleton] at h
    exact Or.inr h
  | cons c l ih =>
    obtain ⟨k', v'⟩ := c
    simp only [mapInsert] at h
    split at h
    · rcases List.mem_cons.1 h with h1 | h1
      · exact Or.inr h1
      · exact Or.inl h1
    · split at h
      · exact Or.inl h
      · rcases List.mem_cons.1 h with h1 | h1
        · exact Or.inl (h1 ▸ List.mem_cons_self _ _)
        · rcases ih h1 with h2 | h2
          · exact Or.inl (List.mem_cons_of_mem _ h2)
          · exact Or.inr h2

theorem mem_mapInsert_of_mem {l : List (Value × Value)} (k v : Value) {e : Value × Value}
    (h : e ∈ l) : e ∈ mapInsert l k v := by
  induction l with
  | nil => simp at h
  | cons c l ih =>
    obtain ⟨k', v'⟩ := c
    simp only [mapInsert]
    split
    · exact List.mem_cons_of_mem _ h
    · split
      · exact h
      · rcases List.mem_cons.1 h with h1 | h1
        · exact h1 ▸ List.mem_cons_self _ _
        · exact List.mem_cons_of_mem _ (ih h1)

theorem key_mem_mapInsert (l : List (Value × Value)) (k v : Value) :
    ∃ e ∈ mapInsert l k v, e.1 = k := by
  induction l with
  | nil => exact ⟨(k, v), by simp [mapInsert], rfl⟩
  | cons c l ih =>
    obtain ⟨k', v'⟩ := c
    simp only [mapInsert]
    split
    · exact ⟨(k, v), List.mem_cons_self _ _, rfl⟩
    · split
      · rename_i h
        exact ⟨(k', v'), List.mem_cons_self _ _, h.symm⟩
      · obtain ⟨e, he, hk⟩ := ih
        exact ⟨e, List.mem_cons_of_mem _ he, hk⟩

theorem mem_argMapFrom (M : Module) (callee : Value) :
    ∀ (args : List Value) (i : Nat) (acc : List (Value × Value)) (e : Value × Value),
      e ∈ argMapFrom M callee i args acc →
      e ∈ acc ∨ ∃ j, j < args.length ∧ args[j]? = some e.1 ∧ M.isPointerTy e.1 = true ∧
        e.2 = M.arg callee (i + j) := by
  intro args
  induction args with
  | nil =>
    intro i acc e h
    exact Or.inl h
  | cons a rest ih =>
    intro i acc e h
    simp only [argMapFrom] at h
    rcases ih (i + 1) _ e h with h1 | ⟨j, hj, hget, hptr, harg⟩
    · by_cases hp : M.isPointerTy a = true
      · rw [if_pos hp] at h1
        rcases mem_mapInsert h1 with h2 | h2
        · exact Or.inl h2
        · refine Or.inr ⟨0, by simp, ?_, ?_, ?_⟩
          · simp [h2]
          · simpa [h2] using hp
          · simp [h2]
      · rw [if_neg hp] at h1
        exact Or.inl h1
    · refine Or.inr ⟨j + 1, by simpa using hj, by simpa using hget, hptr, ?_⟩
      rw [harg]
      congr 1
      omega

theorem mem_argMapFrom_of_mem (M : Module) (callee : Value) :
    ∀ (args : List Value) (i : Nat) (acc : List (Value × Value)) (e : Value × Value),
      e ∈ acc → e ∈ argMapFrom M callee i args acc := by
  intro args
  induction args with
  | nil =>
    intro i acc e h
    exact h
  | cons a rest ih =>
    intro i acc e h
    simp only [argMapFrom]
    apply ih
    split
    · exact mem_mapInsert_of_mem _ _ h
    · exact h

theorem key_argMapFrom (M : Module) (callee : Value) :
    ∀ (args : List Value) (i : Nat) (acc : List (Value × Value)) (a : Value),
      a ∈ args → M.isPointerTy a = true → ∃ e ∈ argMapFrom M callee i args acc, e.1 = a := by
  intro args
  induction args with
  | nil =>
    intro i acc a h
    simp at h
  | cons b rest ih =>
    intro i acc a h hp
    simp only [argMapFrom]
    rcases List.mem_cons.1 h with h1 | h1
    · subst h1
      rw [if_pos hp]
      obtain ⟨e, he, hk⟩ := key_mem_mapInsert acc a (M.arg callee i)
      exact ⟨e, mem_argMapFrom_of_mem M callee rest (i + 1) _ e he, hk⟩
    · exact ih (i + 1) _ a h1 hp

theorem mem_reverseArgMapFrom (M : Module) (callee : Value) :
    ∀ (args : List Value) (i : Nat) (acc : List (Value × Value)) (e : Value × Value),
      e ∈ reverseArgMapFrom M callee i args acc →
      e ∈ acc ∨ ∃ j, j < args.length ∧ args[j]? = some e.2 ∧ M.isPointerTy e.2 = true ∧
        e.1 = M.arg callee (i + j) := by
  intro args
  induction args with
  | nil =>
    intro i acc e h
    exact Or.inl h
  | cons a rest ih =>
    intro i acc e h
    simp only [reverseArgMapFrom] at h
    rcases ih (i + 1) _ e h with h1 | ⟨j, hj, hget, hptr, harg⟩
    · by_cases hp : M.isPointerTy a = true
      · rw [if_pos hp] at h1
        rcases mem_mapInsert h1 with h2 | h2
        · exact Or.inl h2
        · refine Or.inr ⟨0, by simp, ?_, ?_, ?_⟩
          · simp [h2]
          · simpa [h2] using hp
          · simp [h2]
      · rw [if_neg hp] at h1
        exact Or.inl h1
    · refine Or.inr ⟨j + 1, by simpa using hj, by simpa using hget, hptr, ?_⟩
      rw [harg]
      congr 1
      omega

theorem mem_reverseArgMapFrom_of_mem (M : Module) (callee : Value) :
    ∀ (args : List Value) (i : Nat) (acc : List (Value × Value)) (e : Value × Value),
      e ∈ acc → e ∈ reverseArgMapFrom M callee i args acc := by
  intro args
  induction args with
  | nil =>
    intro i acc e h
    exact h
  | cons a rest ih =>
    intro i acc e h
    simp only [reverseArgMapFrom]
    apply ih
    split
    · exact mem_mapInsert_of_mem _ _ h
    · exact h

theorem key_reverseArgMapFrom (M : Module) (callee : Value) :
    ∀ (args : List Value) (i : Nat) (acc : List (Value × Value)) (j : Nat) (a : Value),
      args[j]? = some a → M.isPointerTy a = true →
      ∃ e ∈ reverseArgMapFrom M callee i args acc, e.1 = M.arg callee (i + j) := by
  intro args
  induction args with
  | nil =>
    intro i acc j a h
    simp at h
  | cons b rest ih =>
    intro i acc j a h hp
    simp only [reverseArgMapFrom]
    cases j with
    | zero =>
      simp only [List.getElem?_cons_zero, Option.some.injEq] at h
      subst h
      rw [if_pos hp]
      obtain ⟨e, he, hk⟩ := key_mem_mapInsert acc (M.arg callee i) b
      exact ⟨e, mem_reverseArgMapFrom_of_mem M callee rest (i + 1) _ e he, by simpa using hk⟩
    | succ j =>
      simp only [List.getElem?_cons_succ] at h
      obtain ⟨e, he, hk⟩ := ih (i + 1) (if M.isPointerTy b = true
        then mapInsert acc (M.arg callee i) b else acc) j a h hp
      refine ⟨e, he, ?_⟩
      rw [hk]
      congr 1
      omega

theorem foldl_renameMembers (M : Module) (l : List (Value × Value))
    (hl : ∀ e ∈ l, M.isFunction e.1 = false) (S : PointToState) :
    l.foldl (fun st e => (⟨renameMembers M e.1 e.2 st.pt, renameMembers M e.1 e.2 st.field_pt⟩ :
      PointToState)) S =
      ⟨S.pt.renameMembersBy (substAll l), S.field_pt.renameMembersBy (substAll l)⟩ := by
  induction l generalizing S with
  | nil =>
    simp only [List.foldl_nil]
    apply PointToState.eq_of_maps
    · exact (PointToMap.renameMembersBy_of_fixed _ _ (fun _ _ _ _ => rfl)).symm
    · exact (PointToMap.renameMembersBy_of_fixed _ _ (fun _ _ _ _ => rfl)).symm
  | cons e l ih =>
    rw [List.foldl_cons, ih (fun e' he' => hl e' (List.mem_cons_of_mem _ he'))]
    have he := hl e (List.mem_cons_self _ _)
    simp only [PointToMap.renameMembers_eq M _ _ _ he, PointToMap.renameMembersBy_comp]
    rfl

theorem foldl_moveKey (l : List (Value × Value)) (S : PointToState) :
    l.foldl (fun st e => (⟨moveKey e.1 e.2 st.pt, moveKey e.1 e.2 st.field_pt⟩ : PointToState)) S =
      ⟨S.pt.renameKeysBy (substAll l), S.field_pt.renameKeysBy (substAll l)⟩ := by
  induction l generalizing S with
  | nil =>
    simp only [List.foldl_nil]
    apply PointToState.eq_of_maps
    · exact (PointToMap.renameKeysBy_of_fixed _ _ (fun _ _ => rfl)).symm
    · exact (PointToMap.renameKeysBy_of_fixed _ _ (fun _ _ => rfl)).symm
  | cons e l ih =>
    rw [List.foldl_cons, ih]
    simp only [PointToMap.moveKey_eq, PointToMap.renameKeysBy_comp]
    rfl

theorem foldl_insertFunctions (M : Module) (l : List (Value × Value))
    (hl : ∀ e ∈ l, M.isFunction e.1 = false) (S : PointToState) :
    l.foldl (fun st e => if M.isFunction e.1 = true
      then ({ st with pt := st.pt.insertAll e.2 {e.1} } : PointToState) else st) S = S := by
  induction l generalizing S with
  | nil => rfl
  | cons e l ih =>
    rw [List.foldl_cons, hl e (List.mem_cons_self _ _)]
    simp only [Bool.false_eq_true, if_false]
    exact ih (fun e' he' => hl e' (List.mem_cons_of_mem _ he')) S

theorem renameCall_eq (M : Module) (ci : CallInst) (callee : Value) (S : PointToState)
    (hl : ∀ e ∈ argMapFrom M callee 0 ci.args [], M.isFunction e.1 = false) :
    renameCall M ci callee S =
      ⟨(S.pt.renameMembersBy (substAll (argMapFrom M callee 0 ci.args []))).renameKeysBy
          (substAll (argMapFrom M callee 0 ci.args [])),
        (S.field_pt.renameMembersBy (substAll (argMapFrom M callee 0 ci.args []))).renameKeysBy
          (substAll (argMapFrom M callee 0 ci.args []))⟩ := by
  unfold renameCall
  simp only [foldl_insertFunctions M _ hl, foldl_moveKey, foldl_renameMembers M _ hl]

theorem renameReturn_eq (M : Module) (ci : CallInst) (callee : Value) (retval : Option Value)
    (S : PointToState) (hret : ∀ rv, retval = some rv → M.isPointerTy rv = false)
    (hl : ∀ e ∈ reverseArgMapFrom M callee 0 ci.args [], M.isFunction e.1 = false) :
    renameReturn M ci callee retval S =
      ⟨(S.pt.renameMembersBy (substAll (reverseArgMapFrom M callee 0 ci.args []))).renameKeysBy
          (substAll (reverseArgMapFrom M callee 0 ci.args [])),
        (S.field_pt.renameMembersBy
          (substAll (reverseArgMapFrom M callee 0 ci.args []))).renameKeysBy
          (substAll (reverseArgMapFrom M callee 0 ci.args []))⟩ := by
  have h0 : renameRetval M ci retval S = S := by
    unfold renameRetval
    cases retval with
    | none => rfl
    | some rv => simp [hret rv rfl]
  unfold renameReturn
  simp only [h0, foldl_moveKey, foldl_renameMembers M _ hl]

theorem substAll_round_trip (M : Module) (callee : Value) (args : List Value)
    (hinj : ∀ i j, i < args.length → j < args.length → M.arg callee i = M.arg callee j → i = j)
    (hargs : ∀ a ∈ args, M.isPointerTy a = true → ∀ i, i < args.length → a ≠ M.arg callee i)
    (v : Value)
    (hv : ∀ j a, args[j]? = some a → M.isPointerTy a = true → v ≠ M.arg callee j) :
    substAll (reverseArgMapFrom M callee 0 args []) (substAll (argMapFrom M callee 0 args []) v)
      = v := by
  have memA : ∀ e ∈ argMapFrom M callee 0 args [], ∃ j, j < args.length ∧
      args[j]? = some e.1 ∧ M.isPointerTy e.1 = true ∧ e.2 = M.arg callee j := by
    intro e he
    rcases mem_argMapFrom M callee args 0 [] e he with h | ⟨j, h1, h2, h3, h4⟩
    · simp at h
    · exact ⟨j, h1, h2, h3, by simpa using h4⟩
  have memR : ∀ e ∈ reverseArgMapFrom M callee 0 args [], ∃ j, j < args.length ∧
      args[j]? = some e.2 ∧ M.isPointerTy e.2 = true ∧ e.1 = M.arg callee j := by
    intro e he
    rcases mem_reverseArgMapFrom M callee args 0 [] e he with h | ⟨j, h1, h2, h3, h4⟩
    · simp at h
    · exact ⟨j, h1, h2, h3, by simpa using h4⟩
  have sepA : ∀ e ∈ argMapFrom M callee 0 args [], ∀ e' ∈ argMapFrom M callee 0 args [],
      e'.1 ≠ e.2 := by
    intro e he e' he'
    obtain ⟨j, hj, _, _, h4⟩ := memA e he
    obtain ⟨j', _, h2', h3', _⟩ := memA e' he'
    rw [h4]
    exact hargs e'.1 (List.getElem?_mem h2') h3' j hj
  have sepR : ∀ e ∈ reverseArgMapFrom M callee 0 args [],
      ∀ e' ∈ reverseArgMapFrom M callee 0 args [], e'.1 ≠ e.2 := by
    intro e he e' he'
    obtain ⟨j, _, h2, h3, _⟩ := memR e he
    obtain ⟨j', hj', _, _, h4'⟩ := memR e' he'
    rw [h4']
    exact (hargs e.2 (List.getElem?_mem h2) h3 j' hj').symm
  by_cases hkey : ∃ e ∈ argMapFrom M callee 0 args [], e.1 = v
  · obtain ⟨e, he, hev, hsub⟩ := substAll_of_key _ v sepA hkey
    obtain ⟨j, hj, h2, h3, h4⟩ := memA e he
    rw [hsub]
    obtain ⟨e', he', hk'⟩ := key_reverseArgMapFrom M callee args 0 [] j e.1 h2 h3
    have hk'' : e'.1 = e.2 := by
      rw [hk', h4]
      simp
    obtain ⟨e'', he'', hev'', hsub''⟩ := substAll_of_key _ e.2 sepR ⟨e', he', hk''⟩
    obtain ⟨j'', hj'', h2'', _, h4''⟩ := memR e'' he''
    rw [hsub'']
    have hjj : j'' = j := hinj j'' j hj'' hj (by rw [← h4'', hev'', h4])
    rw [hjj, h2] at h2''
    rw [← hev]
    exact (Option.some.inj h2'').symm
  · have h1 : substAll (argMapFrom M callee 0 args []) v = v :=
      substAll_of_not_key _ v (fun e he hev => hkey ⟨e, he, hev⟩)
    rw [h1]
    apply substAll_of_not_key
    intro e he hev
    obtain ⟨j, _, h2, h3, h4⟩ := memR e he
    exact hv j e.2 h2 h3 (hev.symm.trans h4)

/-! ## Lemmas on the store, the phi and the other transfers -/

theorem foldr_storeStep_sets (ow : ValueSet) (fp : PointToMap) (t : Multiset Value) (k : Value) :
    (t.foldr (storeStep ow) fp).sets k = if k ∈ t then ow else fp.sets k := by
  induction t using Multiset.induction_on with
  | empty => simp
  | cons a t ih =>
    rw [Multiset.foldr_cons]
    simp only [storeStep, PointToMap.sets_assign, Multiset.mem_cons]
    by_cases hka : k = a
    · simp [hka]
    · simp only [hka, if_false, false_or]
      exact ih

theorem foldr_storeStep_keys (ow : ValueSet) (fp : PointToMap) (t : Multiset Value) :
    (t.foldr (storeStep ow) fp).keys = fp.keys ∪ t.toFinset := by
  induction t using Multiset.induction_on with
  | empty => simp
  | cons a t ih =>
    rw [Multiset.foldr_cons]
    simp only [storeStep, PointToMap.keys_assign, ih, Multiset.toFinset_cons]
    ext x
    simp only [Finset.mem_insert, Finset.mem_union]
    tauto

theorem store_base_sets (S : PointToState) (v base : Value) :
    ((if (S.pt.touch v).sets v = ∅ then (S.pt.touch v).erase v else S.pt.touch v).touch base).sets
      base = S.pt.sets base := by
  by_cases hv : S.pt.sets v = ∅
  · simp only [PointToMap.sets_touch, hv, if_true, PointToMap.sets_erase]
    by_cases hb : base = v
    · rw [if_pos hb, hb, hv]
    · rw [if_neg hb]
  · simp only [PointToMap.sets_touch, hv, if_false]

theorem foldl_phiStep_field_pt (M : Module) (phi : Value) (incoming : List Value)
    (st : PointToState) : (incoming.foldl (phiStep M phi) st).field_pt = st.field_pt := by
  induction incoming generalizing st with
  | nil => rfl
  | cons v rest ih =>
    rw [List.foldl_cons, ih]
    unfold phiStep
    split
    · rfl
    · split
      · rfl
      · split <;> rfl

theorem phiStep_eq (M : Module) (phi : Value) (st : PointToState) (v : Value) :
    phiStep M phi st v = if M.isNull v = true then st
      else ⟨st.pt.insertAll phi (if M.isFunction v = true then {v}
        else if v ∈ st.pt.keys then st.pt.sets v else {v}), st.field_pt⟩ := by
  unfold phiStep
  cases hnull : M.isNull v with
  | true => simp
  | false =>
    cases hfun : M.isFunction v with
    | true => simp
    | false =>
      by_cases hk : v ∈ st.pt.keys
      · simp [PointToMap.count, hk]
      · simp [PointToMap.count, hk]

theorem foldl_phiStep_sets (M : Module) (phi : Value) (S : PointToState) :
    ∀ (incoming : List Value) (st : PointToState),
      st.pt.keys = insert phi S.pt.keys → (∀ k, k ≠ phi → st.pt.sets k = S.pt.sets k) →
      (incoming.foldl (phiStep M phi) st).pt.sets phi =
        st.pt.sets phi ∪ incoming.toFinset.biUnion (phiContribution M phi S) := by
  intro incoming
  induction incoming with
  | nil =>
    intro st _ _
    simp
  | cons v rest ih =>
    intro st hkeys hsets
    rw [List.foldl_cons, List.toFinset_cons, Finset.biUnion_insert]
    have hstep : (phiStep M phi st v).pt.keys = insert phi S.pt.keys ∧
        (∀ k, k ≠ phi → (phiStep M phi st v).pt.sets k = S.pt.sets k) ∧
        (phiStep M phi st v).pt.sets phi = st.pt.sets phi ∪ phiContribution M phi S v := by
      rw [phiStep_eq]
      unfold phiContribution
      by_cases hnull : M.isNull v = true
      · rw [if_pos hnull, if_pos hnull, Finset.union_empty]
        exact ⟨hkeys, hsets, rfl⟩
      · rw [if_neg hnull, if_neg hnull]
        refine ⟨?_, fun k hk => ?_, ?_⟩
        · simp only [PointToMap.keys_insertAll, hkeys, Finset.insert_idem]
        · simp only [PointToMap.sets_insertAll, if_neg hk]
          exact hsets k hk
        · simp only [PointToMap.sets_insertAll, if_true]
          by_cases hfun : M.isFunction v = true
          · rw [if_pos hfun, if_pos hfun]
          · rw [if_neg hfun, if_neg hfun]
            by_cases hvp : v = phi
            · have hk : v ∈ st.pt.keys := by
                rw [hkeys, hvp]
                exact Finset.mem_insert_self _ _
              rw [if_pos hk, if_pos hvp, hvp, Finset.union_self, Finset.union_empty]
            · rw [if_neg hvp]
              by_cases hvS : v ∈ S.pt.keys
              · have hk : v ∈ st.pt.keys := by
                  rw [hkeys]
                  exact Finset.mem_insert_of_mem hvS
                rw [if_pos hk, if_pos hvS, hsets v hvp]
              · have hk : v ∉ st.pt.keys := by
                  rw [hkeys]
                  intro h
                  rcases Finset.mem_insert.1 h with e | e
                  · exact hvp e
                  · exact hvS e
                rw [if_neg hk, if_neg hvS]
    rw [ih _ hstep.1 hstep.2.1, hstep.2.2, Finset.union_assoc]

/-! ## Lemmas on the resolution of callees along acyclic chains -/

theorem ptEdge_mem_keys {M : Module} {S : PointToState} {x y : Value} (h : ptEdge M S x y) :
    x ∈ S.pt.keys :=
  S.pt.mem_keys_of_mem_sets h.2

theorem chainStep_acc (M : Module) (S : PointToState) (v : Value)
    (hac : ptAcyclicFrom M S v) :
    ∀ (n : Nat) (x : Value) (D : Finset Value),
      (∀ y, y ∈ D ↔ y ∈ S.pt.keys ∧ Relation.TransGen (ptEdge M S) x y) → D.card < n →
      Acc (chainStep M S v) x := by
  intro n
  induction n with
  | zero =>
    intro x D _ hx
    exact absurd hx (Nat.not_lt_zero _)
  | succ n ih =>
    intro x D hD hx
    constructor
    intro y hy
    obtain ⟨hreach, hedge⟩ := hy
    by_cases hyk : y ∈ S.pt.keys
    · classical
      refine ih y (S.pt.keys.filter (fun z => Relation.TransGen (ptEdge M S) y z))
        (fun z => by simp only [Finset.mem_filter]) ?_
      refine lt_of_lt_of_le (Finset.card_lt_card ?_) (Nat.lt_succ_iff.1 hx)
      rw [Finset.ssubset_iff_of_subset]
      · refine ⟨y, (hD y).2 ⟨hyk, Relation.TransGen.single hedge⟩, ?_⟩
        simp only [Finset.mem_filter, not_and]
        intro _
        exact hac y (hreach.tail hedge)
      · intro z hz
        simp only [Finset.mem_filter] at hz
        exact (hD z).2 ⟨hz.1, Relation.TransGen.head hedge hz.2⟩
    · constructor
      intro z hz
      exact absurd (ptEdge_mem_keys hz.2) hyk

theorem chainStep_wellFounded (M : Module) (S : PointToState) (v : Value)
    (hac : ptAcyclicFrom M S v) : WellFounded (chainStep M S v) := by
  classical
  exact ⟨fun x => chainStep_acc M S v hac _ x
    (S.pt.keys.filter (fun z => Relation.TransGen (ptEdge M S) x z))
    (fun z => by simp only [Finset.mem_filter]) (Nat.lt_succ_self _)⟩

theorem val_union_of_disjoint (A B : Finset Value) (h : Disjoint A B) :
    (A ∪ B).val = A.val + B.val := by
  rw [← Finset.disjUnion_eq_union A B h]
  rfl

theorem val_erase_add_singleton (A : Finset Value) (x : Value) (h : x ∈ A) :
    (A.erase x).val + {x} = A.val := by
  rw [Finset.erase_val, add_comm, Multiset.singleton_add, Multiset.cons_erase (Finset.mem_val.2 h)]

theorem reach_of_isFunction {M : Module} {S : PointToState} {x f : Value}
    (hx : M.isFunction x = true) (h : Relation.ReflTransGen (ptEdge M S) x f) : f = x := by
  rcases Relation.ReflTransGen.cases_head h with e | ⟨y, hedge, _⟩
  · exact e.symm
  · rw [hedge.1] at hx
    exact Bool.noConfusion hx

theorem getFunctionsLoop_resolves (M : Module) (o : Order) (S : PointToState) (v : Value)
    (hwf : WellFounded (chainStep M S v)) :
    ∀ (W : Multiset Value) (worklist : Finset Value), worklist.val = W →
      (∀ x ∈ worklist, Relation.ReflTransGen (ptEdge M S) v x) →
      ∀ (func : Finset Value) (st : PointToState), st.pt.sets = S.pt.sets →
      ∃ n, ∀ fuel, n ≤ fuel → ∃ r, getFunctionsLoop M o fuel worklist func st = some r ∧
        ∀ f, f ∈ r.1 ↔ f ∈ func ∨
          (M.isFunction f = true ∧ ∃ x ∈ worklist, Relation.ReflTransGen (ptEdge M S) x f) := by
  intro W
  induction W using (WellFounded.cutExpand hwf).induction with
  | _ W ih =>
    intro worklist hW hreach func st hst
    cases he : o.enum worklist with
    | nil =>
      have hempty : worklist = ∅ := (o.enum_eq_nil worklist).1 he
      refine ⟨0, fun fuel _ => ⟨(func, st), ?_, fun f => ?_⟩⟩
      · cases fuel <;> simp only [getFunctionsLoop, he]
      · simp [hempty]
    | cons vi rest =>
      have hvi : vi ∈ worklist := o.head_mem worklist vi rest he
      by_cases hfun : M.isFunction vi = true
      · have hcut : Relation.CutExpand (chainStep M S v) (worklist.erase vi).val W := by
          refine ⟨0, vi, fun a ha => absurd ha (Multiset.not_mem_zero a), ?_⟩
          rw [← hW, add_zero, val_erase_add_singleton _ _ hvi]
        obtain ⟨n, hn⟩ := ih _ hcut (worklist.erase vi) rfl
          (fun x hx => hreach x (Finset.mem_of_mem_erase hx)) (insert vi func) st hst
        refine ⟨n + 1, fun fuel hfuel => ?_⟩
        obtain ⟨k, rfl⟩ : ∃ k, fuel = k + 1 := ⟨fuel - 1, by omega⟩
        obtain ⟨r, hr, hiff⟩ := hn k (by omega)
        refine ⟨r, ?_, fun f => ?_⟩
        · simp only [getFunctionsLoop, he, hfun, if_true]
          exact hr
        · rw [hiff f]
          constructor
          · rintro (h | ⟨hf, x, hx, hxf⟩)
            · rcases Finset.mem_insert.1 h with e | e
              · exact Or.inr ⟨e ▸ hfun, vi, hvi, e ▸ Relation.ReflTransGen.refl⟩
              · exact Or.inl e
            · exact Or.inr ⟨hf, x, Finset.mem_of_mem_erase hx, hxf⟩
          · rintro (h | ⟨hf, x, hx, hxf⟩)
            · exact Or.inl (Finset.mem_insert_of_mem h)
            · by_cases hxv : x = vi
              · subst hxv
                exact Or.inl (by rw [reach_of_isFunction hfun hxf]; exact Finset.mem_insert_self _ _)
              · exact Or.inr ⟨hf, x, Finset.mem_erase.2 ⟨hxv, hx⟩, hxf⟩
      · have hfun' : M.isFunction vi = false := by
          cases h : M.isFunction vi with
          | true => exact absurd h hfun
          | false => rfl
        have hsets : (st.pt.touch vi).sets vi = S.pt.sets vi := by
          rw [PointToMap.sets_touch, hst]
        have hcut : Relation.CutExpand (chainStep M S v)
            (worklist.erase vi ∪ S.pt.sets vi).val W := by
          refine ⟨(S.pt.sets vi \ worklist.erase vi).val, vi, fun a ha => ?_, ?_⟩
          · exact ⟨hreach vi hvi, hfun', (Finset.mem_sdiff.1 (Finset.mem_val.1 ha)).1⟩
          · rw [← hW, ← Finset.union_sdiff_self_eq_union,
              val_union_of_disjoint _ _ Finset.disjoint_sdiff, add_right_comm,
              val_erase_add_singleton _ _ hvi]
        obtain ⟨n, hn⟩ := ih _ hcut (worklist.erase vi ∪ S.pt.sets vi) rfl
          (fun x hx => by
            rcases Finset.mem_union.1 hx with h | h
            · exact hreach x (Finset.mem_of_mem_erase h)
            · exact (hreach vi hvi).tail ⟨hfun', h⟩)
          func ⟨st.pt.touch vi, st.field_pt⟩ (by
            funext k
            rw [PointToMap.sets_touch, hst])
        refine ⟨n + 1, fun fuel hfuel => ?_⟩
        obtain ⟨k, rfl⟩ : ∃ k, fuel = k + 1 := ⟨fuel - 1, by omega⟩
        obtain ⟨r, hr, hiff⟩ := hn k (by omega)
        refine ⟨r, ?_, fun f => ?_⟩
        · simp only [getFunctionsLoop, he, hfun, if_false, hsets]
          exact hr
        · rw [hiff f]
          constructor
          · rintro (h | ⟨hf, x, hx, hxf⟩)
            · exact Or.inl h
            · rcases Finset.mem_union.1 hx with h | h
              · exact Or.inr ⟨hf, x, Finset.mem_of_mem_erase h, hxf⟩
              · exact Or.inr ⟨hf, vi, hvi, Relation.ReflTransGen.head ⟨hfun', h⟩ hxf⟩
          · rintro (h | ⟨hf, x, hx, hxf⟩)
            · exact Or.inl h
            · by_cases hxv : x = vi
              · subst hxv
                rcases Relation.ReflTransGen.cases_head hxf with e | ⟨y, hedge, hyf⟩
                · rw [e, hf] at hfun'
                  exact Bool.noConfusion hfun'
                · exact Or.inr ⟨hf, y, Finset.mem_union_right _ hedge.2, hyf⟩
              · exact Or.inr ⟨hf, x, Finset.mem_union_left _ (Finset.mem_erase.2 ⟨hxv, hx⟩), hxf⟩

theorem ptAcyclicFrom_of_rank (M : Module) (S : PointToState) (v : Value) (rank : Value → Nat)
    (h : ∀ x y, ptEdge M S x y → rank y < rank x) : ptAcyclicFrom M S v := by
  have hlt : ∀ x y, Relation.TransGen (ptEdge M S) x y → rank y < rank x := by
    intro x y hxy
    induction hxy with
    | single hedge => exact h _ _ hedge
    | tail _ hedge ih => exact lt_trans (h _ _ hedge) ih
  intro x _ hxx
  exact lt_irrefl _ (hlt x x hxx)

theorem chainState_acyclic : ptAcyclicFrom twoCalleeModule chainState 41 := by
  apply ptAcyclicFrom_of_rank twoCalleeModule chainState 41 chainRank
  intro x y hedge
  have hx : x ∈ chainState.pt.keys := ptEdge_mem_keys hedge
  have hkeys : chainState.pt.keys = {43, 41} := by decide
  rw [hkeys] at hx
  have hy := hedge.2
  rcases Finset.mem_insert.1 hx with e | e
  · subst e
    have hs : chainState.pt.sets 43 = {4, 3} := by decide
    rw [hs] at hy
    rcases Finset.mem_insert.1 hy with e | e
    · subst e
      decide
    · rw [Finset.mem_singleton.1 e]
      decide
  · rw [Finset.mem_singleton.1 e] at hy ⊢
    have hs : chainState.pt.sets 41 = {43, 3} := by decide
    rw [hs] at hy
    rcases Finset.mem_insert.1 hy with e | e
    · subst e
      decide
    · rw [Finset.mem_singleton.1 e]
      decide


/-! ## The tables of a call -/

theorem handleCallInst_instresult (M : Module) (o : Order) (fuel : Nat) (ci : CallInst)
    (state : PointToState) (bbresult : Table PointToState) (g : Globals)
    (r : PointToState × Table PointToState × Globals)
    (h : handleCallInst M o fuel ci state bbresult g = some r)
    (hd : (M.isFunction ci.called && M.isDeclaration ci.called) = false) :
    r.2.2.instresult = g.instresult.insert ci.id (PointToState.bot, PointToState.bot) := by
  unfold handleCallInst at h
  cases hg : getFunctions M o fuel ci.called state with
  | none => rw [hg] at h; simp at h
  | some p =>
    obtain ⟨callee_set, st⟩ := p
    rw [hg] at h
    simp only [hd, Bool.false_eq_true, if_false, Option.some.injEq] at h
    rw [← h]
    simp only
    rw [foldl_calleeStep_instresult]

theorem Table.get_setSecond_same {T : Type} (t : Table T) (d : T) (k : Value) (v : T) :
    (t.setSecond d k v).get d k = ((t.get d k).1, v) := by
  simp [Table.setSecond, Table.get]

theorem Table.get_setSecond_other {T : Type} (t : Table T) (d : T) (k b : Value) (v : T)
    (h : b ≠ k) : (t.setSecond d k v).get d b = t.get d b := by
  simp [Table.setSecond, Table.get, h]

theorem map_le_trans {a b c : PointToMap} (h1 : a.le b) (h2 : b.le c) : a.le c :=
  ⟨h1.1.trans h2.1, fun k => (h1.2 k).trans (h2.2 k)⟩

theorem state_le_refl (a : PointToState) : a.le a :=
  ⟨PointToMap.le_refl _, PointToMap.le_refl _⟩

theorem state_le_trans {a b c : PointToState} (h1 : a.le b) (h2 : b.le c) : a.le c :=
  ⟨map_le_trans h1.1 h2.1, map_le_trans h1.2 h2.2⟩

theorem state_le_merge_left (a b : PointToState) : a.le (merge a b) :=
  ⟨PointToMap.le_merge_left _ _, PointToMap.le_merge_left _ _⟩

theorem state_le_merge_right (a b : PointToState) : b.le (merge a b) :=
  ⟨PointToMap.le_merge_right _ _, PointToMap.le_merge_right _ _⟩

theorem returnStep_call_return (M : Module) (F : Value) (retval : Option Value)
    (S : PointToState) (g : Globals) (cr : CallInst × FunctionSet) :
    (returnStep M F retval S g cr).call_return = g.call_return := by
  unfold returnStep
  split
  · simp only
    split <;> rfl
  · rfl

theorem returnStep_get (M : Module) (F : Value) (retval : Option Value)
    (S : PointToState) (g : Globals) (cr : CallInst × FunctionSet) (k : Value) :
    (returnStep M F retval S g cr).instresult.get PointToState.bot k
      = if F ∈ cr.2 ∧ k = cr.1.id then
          ((g.instresult.get PointToState.bot k).1,
            merge (g.instresult.get PointToState.bot k).2 (renameReturn M cr.1 F retval S))
        else g.instresult.get PointToState.bot k := by
  unfold returnStep
  by_cases hF : F ∈ cr.2
  · simp only [hF, if_true, true_and, Table.get_touch]
    by_cases hne : (g.instresult.get PointToState.bot cr.1.id).2
        ≠ merge (g.instresult.get PointToState.bot cr.1.id).2 (renameReturn M cr.1 F retval S)
    · rw [if_pos hne]
      simp only
      by_cases hk : k = cr.1.id
      · subst hk
        rw [if_pos rfl, Table.get_setSecond_same, Table.get_touch]
      · rw [if_neg hk, Table.get_setSecond_other _ _ _ _ _ hk, Table.get_touch]
    · rw [if_neg hne]
      simp only [ne_eq, not_not] at hne
      simp only [Table.get_touch]
      by_cases hk : k = cr.1.id
      · subst hk
        rw [if_pos rfl, ← hne]
      · rw [if_neg hk]
  · rw [if_neg hF, if_neg (fun h => hF h.1)]

theorem returnStep_out_le (M : Module) (F : Value) (retval : Option Value)
    (S : PointToState) (g : Globals) (cr : CallInst × FunctionSet) (k : Value) :
    (g.instresult.get PointToState.bot k).2.le
      ((returnStep M F retval S g cr).instresult.get PointToState.bot k).2 := by
  rw [returnStep_get]
  split
  · exact state_le_merge_left _ _
  · exact state_le_refl _

theorem foldl_returnStep_out_le (M : Module) (F : Value) (retval : Option Value)
    (S : PointToState) (l : List (CallInst × FunctionSet)) (g : Globals) (k : Value) :
    (g.instresult.get PointToState.bot k).2.le
      ((l.foldl (returnStep M F retval S) g).instresult.get PointToState.bot k).2 := by
  induction l generalizing g with
  | nil => exact state_le_refl _
  | cons e l ih =>
    rw [List.foldl_cons]
    exact state_le_trans (returnStep_out_le M F retval S g e k) (ih _)

theorem foldl_returnStep_merged (M : Module) (F : Value) (retval : Option Value)
    (S : PointToState) (ci : CallInst) (fs : FunctionSet) (hF : F ∈ fs)
    (l : List (CallInst × FunctionSet)) (hmem : (ci, fs) ∈ l) (g : Globals) :
    (renameReturn M ci F retval S).le
      ((l.foldl (returnStep M F retval S) g).instresult.get PointToState.bot ci.id).2 := by
  induction l generalizing g with
  | nil => simp at hmem
  | cons e l ih =>
    rw [List.foldl_cons]
    rcases List.mem_cons.1 hmem with h | h
    · subst h
      refine state_le_trans ?_ (foldl_returnStep_out_le M F retval S l _ ci.id)
      rw [returnStep_get, if_pos ⟨hF, rfl⟩]
      exact state_le_merge_right _ _
    · exact ih h _

theorem handleReturnInst_merged (M : Module) (F : Value) (retval : Option Value)
    (S : PointToState) (g : Globals) (ci : CallInst) (fs : FunctionSet)
    (hmem : (ci, fs) ∈ g.call_return) (hF : F ∈ fs) :
    (renameReturn M ci F retval S).le
      ((handleReturnInst M F retval S g).instresult.get PointToState.bot ci.id).2 :=
  foldl_returnStep_merged M F retval S ci fs hF g.call_return hmem g

/-! ## Lemmas on the renaming at a return -/

theorem substAll_eq_or (l : List (Value × Value)) (v : Value) :
    substAll l v = v ∨ ∃ e ∈ l, substAll l v = e.2 := by
  induction l generalizing v with
  | nil => exact Or.inl rfl
  | cons e l ih =>
    rw [substAll_cons]
    rcases ih (subst e.1 e.2 v) with h | ⟨e', he', h⟩
    · rw [h]
      by_cases hv : v = e.1
      · exact Or.inr ⟨e, List.mem_cons_self _ _, by simp [subst, hv]⟩
      · exact Or.inl (by simp [subst, hv])
    · exact Or.inr ⟨e', List.mem_cons_of_mem _ he', h⟩

theorem renameRetval_field_pt (M : Module) (ci : CallInst) (retval : Option Value)
    (S : PointToState) : (renameRetval M ci retval S).field_pt = S.field_pt := by
  unfold renameRetval
  cases retval with
  | none => rfl
  | some rv =>
    simp only
    split <;> rfl

theorem renameRetval_of_pointer (M : Module) (ci : CallInst) (rv : Value)
    (S : PointToState) (h : M.isPointerTy rv = true) :
    (renameRetval M ci (some rv) S).pt
      = ((S.pt.touch rv).erase rv).insertAll ci.id (S.pt.sets rv) := by
  simp [renameRetval, h]

theorem renameRetval_of_not_pointer (M : Module) (ci : CallInst) (retval : Option Value)
    (S : PointToState) (hret : ∀ rv, retval = some rv → M.isPointerTy rv = false) :
    renameRetval M ci retval S = S := by
  unfold renameRetval
  cases retval with
  | none => rfl
  | some rv => simp [hret rv rfl]

theorem renameReturn_eq_retval (M : Module) (ci : CallInst) (callee : Value)
    (retval : Option Value) (S : PointToState)
    (hl : ∀ e ∈ reverseArgMapFrom M callee 0 ci.args [], M.isFunction e.1 = false) :
    renameReturn M ci callee retval S =
      ⟨((renameRetval M ci retval S).pt.renameMembersBy
          (substAll (reverseArgMapFrom M callee 0 ci.args []))).renameKeysBy
          (substAll (reverseArgMapFrom M callee 0 ci.args [])),
        (S.field_pt.renameMembersBy
          (substAll (reverseArgMapFrom M callee 0 ci.args []))).renameKeysBy
          (substAll (reverseArgMapFrom M callee 0 ci.args []))⟩ := by
  unfold renameReturn
  simp only [foldl_moveKey, foldl_renameMembers M _ hl, renameRetval_field_pt]

theorem reverseArgMap_entry (M : Module) (callee : Value) (args : List Value)
    (e : Value × Value) (he : e ∈ reverseArgMapFrom M callee 0 args []) :
    ∃ j, j < args.length ∧ args[j]? = some e.2 ∧ M.isPointerTy e.2 = true ∧
      e.1 = M.arg callee j := by
  rcases mem_reverseArgMapFrom M callee args 0 [] e he with h | ⟨j, h1, h2, h3, h4⟩
  · simp at h
  · exact ⟨j, h1, h2, h3, by simpa using h4⟩

theorem reverseArgMap_not_function (M : Module) (callee : Value) (args : List Value)
    (hparam : ∀ i, i < args.length → M.isFunction (M.arg callee i) = false) :
    ∀ e ∈ reverseArgMapFrom M callee 0 args [], M.isFunction e.1 = false := by
  intro e he
  obtain ⟨j, hj, _, _, h4⟩ := reverseArgMap_entry M callee args e he
  rw [h4]
  exact hparam j hj

theorem reverseArgMap_sep (M : Module) (callee : Value) (args : List Value)
    (hargs : ∀ a ∈ args, M.isPointerTy a = true → ∀ i, i < args.length → a ≠ M.arg callee i) :
    ∀ e ∈ reverseArgMapFrom M callee 0 args [],
      ∀ e' ∈ reverseArgMapFrom M callee 0 args [], e'.1 ≠ e.2 := by
  intro e he e' he'
  obtain ⟨j, _, h2, h3, _⟩ := reverseArgMap_entry M callee args e he
  obtain ⟨j', hj', _, _, h4'⟩ := reverseArgMap_entry M callee args e' he'
  rw [h4']
  exact (hargs e.2 (List.getElem?_mem h2) h3 j' hj').symm

theorem substAll_reverse_param (M : Module) (callee : Value) (args : List Value)
    (hinj : ∀ i j, i < args.length → j < args.length → M.arg callee i = M.arg callee j → i = j)
    (hargs : ∀ a ∈ args, M.isPointerTy a = true → ∀ i, i < args.length → a ≠ M.arg callee i)
    (j : Nat) (a : Value) (hget : args[j]? = some a) (hp : M.isPointerTy a = true) :
    substAll (reverseArgMapFrom M callee 0 args []) (M.arg callee j) = a := by
  obtain ⟨e, he, hk⟩ := key_reverseArgMapFrom M callee args 0 [] j a hget hp
  have hk' : e.1 = M.arg callee j := by simpa using hk
  obtain ⟨e', he', hev', hsub⟩ := substAll_of_key _ (M.arg callee j)
    (reverseArgMap_sep M callee args hargs) ⟨e, he, hk'⟩
  obtain ⟨j', hj', h2', _, h4'⟩ := reverseArgMap_entry M callee args e' he'
  have hj : j < args.length := by
    by_contra hlt
    rw [List.getElem?_eq_none (by omega)] at hget
    simp at hget
  have hjj : j' = j := hinj j' j hj' hj (by rw [← h4', hev'])
  rw [hsub]
  rw [hjj, hget] at h2'
  exact (Option.some.inj h2').symm

theorem substAll_reverse_ne_param (M : Module) (callee : Value) (args : List Value)
    (hargs : ∀ a ∈ args, M.isPointerTy a = true → ∀ i, i < args.length → a ≠ M.arg callee i)
    (j : Nat) (a : Value) (hget : args[j]? = some a) (hp : M.isPointerTy a = true) (v : Value) :
    substAll (reverseArgMapFrom M callee 0 args []) v ≠ M.arg callee j := by
  have hj : j < args.length := by
    by_contra hlt
    rw [List.getElem?_eq_none (by omega)] at hget
    simp at hget
  have harg : ∀ e ∈ reverseArgMapFrom M callee 0 args [], e.2 ≠ M.arg callee j := by
    intro e he
    obtain ⟨j', _, h2, h3, _⟩ := reverseArgMap_entry M callee args e he
    exact hargs e.2 (List.getElem?_mem h2) h3 j hj
  by_cases hkey : ∃ e ∈ reverseArgMapFrom M callee 0 args [], e.1 = v
  · obtain ⟨e, he, _, hsub⟩ := substAll_of_key _ v (reverseArgMap_sep M callee args hargs) hkey
    rw [hsub]
    exact harg e he
  · rw [substAll_of_not_key _ v (fun e he hev => hkey ⟨e, he, hev⟩)]
    intro hv
    obtain ⟨e, he, hk⟩ := key_reverseArgMapFrom M callee args 0 [] j a hget hp
    exact hkey ⟨e, he, by rw [hv]; simpa using hk⟩

theorem substAll_reverse_mem_args (M : Module) (callee : Value) (args : List Value)
    (v : Value) :
    substAll (reverseArgMapFrom M callee 0 args []) v = v
      ∨ substAll (reverseArgMapFrom M callee 0 args []) v ∈ args := by
  rcases substAll_eq_or (reverseArgMapFrom M callee 0 args []) v with h | ⟨e, he, h⟩
  · exact Or.inl h
  · obtain ⟨j, _, h2, _, _⟩ := reverseArgMap_entry M callee args e he
    exact Or.inr (h ▸ List.getElem?_mem h2)

/-! ## Lemmas on the engine -/

section EngineLemmas

variable {T G : Type}

theorem forwardLoop_succ [DecidableEq T] (M : Module) (o : Order) (V : DataflowVisitor T G)
    (n : Nat) (worklist : Finset Value) (result : Table T) (g : G) :
    forwardLoop M o V (n + 1) worklist result g =
      match o.enum worklist with
      | [] => some (result, g)
      | bb :: _ =>
        match forwardStep M V bb worklist result g with
        | none => none
        | some (worklist, result, g) => forwardLoop M o V n worklist result g := by
  rw [forwardLoop]
  cases o.enum worklist with
  | nil => rfl
  | cons bb rest =>
    simp only [forwardStep]
    cases compDFValBlock V (M.insts bb)
      (mergePreds V (M.preds bb) ((result.touch V.dflt bb).get V.dflt bb).1
        (result.touch V.dflt bb)).1
      ((mergePreds V (M.preds bb) ((result.touch V.dflt bb).get V.dflt bb).1
        (result.touch V.dflt bb)).2.setFirst V.dflt bb
        (mergePreds V (M.preds bb) ((result.touch V.dflt bb).get V.dflt bb).1
          (result.touch V.dflt bb)).1) g with
    | none => rfl
    | some r =>
      obtain ⟨tmp, res, g'⟩ := r
      simp only
      split <;> rfl

theorem mergePreds_get (V : DataflowVisitor T G) (preds : List Value) (s : T) (t : Table T)
    (b : Value) : (mergePreds V preds s t).2.get V.dflt b = t.get V.dflt b := by
  unfold mergePreds
  induction preds generalizing s t with
  | nil => rfl
  | cons p rest ih =>
    rw [List.foldl_cons, ih, Table.get_touch]

theorem mergePreds_fst (V : DataflowVisitor T G) (preds : List Value) (s : T) (t : Table T) :
    (mergePreds V preds s t).1 = preds.foldl (fun s p => V.merge s (t.get V.dflt p).2) s := by
  unfold mergePreds
  induction preds generalizing s t with
  | nil => rfl
  | cons p rest ih =>
    rw [List.foldl_cons, List.foldl_cons, ih]
    simp only [Table.get_touch]

theorem initBlocks_worklist (initval : T) (blocks : List Value) (result : Table T) :
    (initBlocks initval blocks result).2 = blocks.toFinset := by
  unfold initBlocks
  have h : ∀ (l : List Value) (w : Table T × Finset Value),
      (l.foldl (fun w bb => (w.1.insert bb (initval, initval), insert bb w.2)) w).2
        = w.2 ∪ l.toFinset := by
    intro l
    induction l with
    | nil => intro w; simp
    | cons b l ih =>
      intro w
      rw [List.foldl_cons, ih]
      ext x
      simp only [Finset.mem_union, Finset.mem_insert, List.toFinset_cons]
      tauto
  rw [h]
  simp

theorem compDFValBlock_pure (V : DataflowVisitor T G) (f : Instruction → T → T)
    (hpure : V.IsPure f) (insts : List Instruction) (s : T) (result : Table T) (g : G) :
    compDFValBlock V insts s result g = some (blockTransfer f insts s, result, g) := by
  induction insts generalizing s with
  | nil => rfl
  | cons i rest ih =>
    rw [compDFValBlock, hpure i s result g]
    simp only
    rw [ih]
    rfl

/-- A turn of the loop for a pure visitor: the entry of the block gets the
merged in state and its transfer, the other entries are read as before; the
successors join the worklist when the out state changed. -/
theorem forwardStep_pure [DecidableEq T] (M : Module) (V : DataflowVisitor T G)
    (f : Instruction → T → T) (hpure : V.IsPure f) (bb : Value) (worklist : Finset Value)
    (result : Table T) (g : G) :
    ∃ result', forwardStep M V bb worklist result g =
        some (if (result.get V.dflt bb).2 = blockTransfer f (M.insts bb) (blockIn M V result bb)
            then worklist.erase bb else worklist.erase bb ∪ (M.succs bb).toFinset,
          result', g)
      ∧ ∀ b, result'.get V.dflt b =
          if b = bb then (blockIn M V result bb,
            blockTransfer f (M.insts bb) (blockIn M V result bb))
          else result.get V.dflt b := by
  have hin : (mergePreds V (M.preds bb) ((result.touch V.dflt bb).get V.dflt bb).1
      (result.touch V.dflt bb)).1 = blockIn M V result bb := by
    rw [mergePreds_fst]
    simp only [Table.get_touch]
    rfl
  have hold : (((mergePreds V (M.preds bb) ((result.touch V.dflt bb).get V.dflt bb).1
      (result.touch V.dflt bb)).2.setFirst V.dflt bb (blockIn M V result bb)).get V.dflt bb).2
      = (result.get V.dflt bb).2 := by
    rw [Table.get_setFirst_same, mergePreds_get, Table.get_touch]
  unfold forwardStep
  simp only [hin, compDFValBlock_pure V f hpure, hold]
  by_cases hc : (result.get V.dflt bb).2
      = blockTransfer f (M.insts bb) (blockIn M V result bb)
  · rw [if_pos hc, if_pos hc]
    refine ⟨_, rfl, fun b => ?_⟩
    by_cases hb : b = bb
    · subst hb
      rw [if_pos rfl, Table.get_setFirst_same, mergePreds_get, Table.get_touch, hc]
    · rw [if_neg hb, Table.get_setFirst_other _ _ _ _ _ hb, mergePreds_get, Table.get_touch]
  · rw [if_neg hc, if_neg hc]
    refine ⟨_, rfl, fun b => ?_⟩
    by_cases hb : b = bb
    · subst hb
      rw [if_pos rfl, Table.get_setSecond_same, Table.get_setFirst_same]
    · rw [if_neg hb, Table.get_setSecond_other _ _ _ _ _ hb,
        Table.get_setFirst_other _ _ _ _ _ hb, mergePreds_get, Table.get_touch]

theorem foldl_merge_keeps (V : DataflowVisitor T G) (hj : V.IsJoin) (out : Value → T)
    (x : T) (l : List Value) (s : T) (h : V.merge s x = s) :
    V.merge (l.foldl (fun s p => V.merge s (out p)) s) x
      = l.foldl (fun s p => V.merge s (out p)) s := by
  induction l generalizing s with
  | nil => exact h
  | cons q l ih =>
    rw [List.foldl_cons]
    apply ih
    rw [hj.assoc, hj.comm (out q) x, ← hj.assoc, h]

theorem foldl_merge_absorbs (V : DataflowVisitor T G) (hj : V.IsJoin) (out : Value → T)
    (l : List Value) (s : T) (p : Value) (hp : p ∈ l) :
    V.merge (l.foldl (fun s p => V.merge s (out p)) s) (out p)
      = l.foldl (fun s p => V.merge s (out p)) s := by
  induction l generalizing s with
  | nil => simp at hp
  | cons q l ih =>
    rw [List.foldl_cons]
    rcases List.mem_cons.1 hp with h | h
    · subst h
      apply foldl_merge_keeps V hj
      rw [hj.assoc, hj.idem]
    · exact ih _ h

theorem foldl_merge_start (V : DataflowVisitor T G) (hj : V.IsJoin) (out : Value → T)
    (l : List Value) (s : T) :
    V.merge (l.foldl (fun s p => V.merge s (out p)) s) s
      = l.foldl (fun s p => V.merge s (out p)) s :=
  foldl_merge_keeps V hj out s l s (hj.idem s)

end EngineLemmas

section EnginePostLemmas

variable {T G : Type}

theorem forwardLoop_stable [DecidableEq T] (M : Module) (o : Order) (V : DataflowVisitor T G)
    (f : Instruction → T → T) (hpure : V.IsPure f) (hj : V.IsJoin) (B : List Value)
    (hcfg : ∀ b ∈ B, ∀ p ∈ M.preds b, b ∈ M.succs p) :
    ∀ (n : Nat) (wl : Finset Value) (result : Table T) (g : G) (r : Table T × G),
      forwardLoop M o V n wl result g = some r →
      (∀ b ∈ B, b ∉ wl → blockStable M V f result b) →
      ∀ b ∈ B, blockStable M V f r.1 b := by
  intro n
  induction n with
  | zero =>
    intro wl result g r h hinv b hb
    unfold forwardLoop at h
    cases he : o.enum wl with
    | nil =>
      rw [he] at h
      simp only [Option.some.injEq] at h
      rw [← h]
      have hw : wl = ∅ := (o.enum_eq_nil wl).1 he
      exact hinv b hb (by rw [hw]; simp)
    | cons bb rest =>
      rw [he] at h
      simp at h
  | succ n ih =>
    intro wl result g r h hinv
    rw [forwardLoop_succ] at h
    cases he : o.enum wl with
    | nil =>
      rw [he] at h
      simp only [Option.some.injEq] at h
      rw [← h]
      have hw : wl = ∅ := (o.enum_eq_nil wl).1 he
      intro b hb
      exact hinv b hb (by rw [hw]; simp)
    | cons bb rest =>
      rw [he] at h
      obtain ⟨result', hstep, hget⟩ := forwardStep_pure M V f hpure bb wl result g
      simp only [hstep] at h
      refine ih _ _ _ _ h ?_
      intro b hb hnot
      -- the block is not in the old worklist, unless it is `bb`
      have hnot1 : b ∉ wl.erase bb := by
        intro hm
        apply hnot
        split
        · exact hm
        · exact Finset.mem_union_left _ hm
      -- the out states of the predecessors of `b` are read as before
      have hK : ∀ p ∈ M.preds b, (result'.get V.dflt p).2 = (result.get V.dflt p).2 := by
        intro p hp
        rw [hget p]
        by_cases hpb : p = bb
        · subst hpb
          rw [if_pos rfl]
          by_cases hc : (result.get V.dflt p).2
              = blockTransfer f (M.insts p) (blockIn M V result p)
          · exact hc.symm
          · exfalso
            apply hnot
            rw [if_neg hc]
            exact Finset.mem_union_right _ (List.mem_toFinset.2 (hcfg b hb p hp))
        · rw [if_neg hpb]
      by_cases hbb : b = bb
      · subst hbb
        constructor
        · rw [hget b, if_pos rfl]
        · intro p hp
          rw [hK p hp, hget b, if_pos rfl]
          exact foldl_merge_absorbs V hj (fun p => (result.get V.dflt p).2) (M.preds b) _ p hp
      · have hold := hinv b hb (fun hm => hnot1 (Finset.mem_erase.2 ⟨hbb, hm⟩))
        constructor
        · rw [hget b, if_neg hbb]
          exact hold.1
        · intro p hp
          rw [hK p hp, hget b, if_neg hbb]
          exact hold.2 p hp

theorem seenPhi_isPure : seenPhi.IsPure seenPhiTransfer := by
  intro inst s result g
  cases inst <;> rfl

theorem seenPhi_isJoin : seenPhi.IsJoin :=
  ⟨fun a b c => Bool.or_assoc a b c, fun a b => Bool.or_comm a b, fun a => Bool.or_self a⟩

end EnginePostLemmas

section EngineTermination

variable {T G : Type}

theorem foldl_merge_rank (V : DataflowVisitor T G) (rank : T → Nat)
    (hrank : ∀ a b, V.merge a b = a ∨ rank a < rank (V.merge a b)) (out : Value → T)
    (l : List Value) (s : T) :
    l.foldl (fun s p => V.merge s (out p)) s = s
      ∨ rank s < rank (l.foldl (fun s p => V.merge s (out p)) s) := by
  induction l generalizing s with
  | nil => exact Or.inl rfl
  | cons q l ih =>
    rw [List.foldl_cons]
    rcases hrank s (out q) with h | h
    · rw [h]
      exact ih s
    · rcases ih (V.merge s (out q)) with h2 | h2
      · rw [h2]
        exact Or.inr h
      · exact Or.inr (h.trans h2)

theorem forwardLoop_of_enum_nil [DecidableEq T] (M : Module) (o : Order)
    (V : DataflowVisitor T G) (n : Nat) (wl : Finset Value) (result : Table T) (g : G)
    (he : o.enum wl = []) : forwardLoop M o V n wl result g = some (result, g) := by
  cases n <;> simp only [forwardLoop, he]

theorem forwardLoop_terminates [DecidableEq T] (M : Module) (o : Order)
    (V : DataflowVisitor T G) (f : Instruction → T → T) (hpure : V.IsPure f)
    (rank : T → Nat) (H : Nat) (hH : ∀ a, rank a ≤ H)
    (hrank : ∀ a b, V.merge a b = a ∨ rank a < rank (V.merge a b))
    (B : Finset Value) (hsucc : ∀ b ∈ B, ∀ s ∈ M.succs b, s ∈ B) (g : G) :
    ∀ (x : ℕ × ℕ × ℕ) (wl : Finset Value) (result : Table T), wl ⊆ B →
      (inSlack V rank H B result, staleBlocks M V f B result, wl.card) = x →
      ∃ N, ∀ fuel, N ≤ fuel → ∃ r, forwardLoop M o V fuel wl result g = some r := by
  have wf : WellFounded (Prod.Lex (fun a b : ℕ => a < b)
      (Prod.Lex (fun a b : ℕ => a < b) (fun a b : ℕ => a < b))) :=
    WellFounded.prod_lex Nat.lt_wfRel.wf (WellFounded.prod_lex Nat.lt_wfRel.wf Nat.lt_wfRel.wf)
  intro x
  induction x using wf.induction with
  | h x ih =>
    intro wl result hsub hx
    cases he : o.enum wl with
    | nil => exact ⟨0, fun fuel _ => ⟨_, forwardLoop_of_enum_nil M o V fuel wl result g he⟩⟩
    | cons bb rest =>
      have hbw : bb ∈ wl := o.head_mem wl bb rest he
      have hbB : bb ∈ B := hsub hbw
      obtain ⟨result', hstep, hget⟩ := forwardStep_pure M V f hpure bb wl result g
      have hsub' : (if (result.get V.dflt bb).2
          = blockTransfer f (M.insts bb) (blockIn M V result bb)
          then wl.erase bb else wl.erase bb ∪ (M.succs bb).toFinset) ⊆ B := by
        split
        · exact (Finset.erase_subset _ _).trans hsub
        · apply Finset.union_subset ((Finset.erase_subset _ _).trans hsub)
          intro s hs
          exact hsucc bb hbB s (List.mem_toFinset.1 hs)
      have hlex : Prod.Lex (fun a b : ℕ => a < b)
          (Prod.Lex (fun a b : ℕ => a < b) (fun a b : ℕ => a < b))
          (inSlack V rank H B result', staleBlocks M V f B result',
            (if (result.get V.dflt bb).2
              = blockTransfer f (M.insts bb) (blockIn M V result bb)
              then wl.erase bb else wl.erase bb ∪ (M.succs bb).toFinset).card) x := by
        rw [← hx]
        rcases foldl_merge_rank V rank hrank (fun p => (result.get V.dflt p).2) (M.preds bb)
          (result.get V.dflt bb).1 with hin | hin
        · -- the in state of the block is unchanged
          have hin' : blockIn M V result bb = (result.get V.dflt bb).1 := hin
          have hfst : ∀ b, (result'.get V.dflt b).1 = (result.get V.dflt b).1 := by
            intro b
            rw [hget b]
            by_cases hb : b = bb
            · subst hb
              rw [if_pos rfl]
              exact hin'
            · rw [if_neg hb]
          have hA : inSlack V rank H B result' = inSlack V rank H B result := by
            unfold inSlack
            exact Finset.sum_congr rfl (fun b _ => by rw [hfst b])
          rw [hA]
          apply Prod.Lex.right
          by_cases hc : (result.get V.dflt bb).2
              = blockTransfer f (M.insts bb) (blockIn M V result bb)
          · have hall : ∀ b, result'.get V.dflt b = result.get V.dflt b := by
              intro b
              rw [hget b]
              by_cases hb : b = bb
              · subst hb
                rw [if_pos rfl, ← hc, hin']
              · rw [if_neg hb]
            have hD : staleBlocks M V f B result' = staleBlocks M V f B result := by
              unfold staleBlocks
              simp only [hall]
            rw [hD, if_pos hc]
            apply Prod.Lex.right
            exact Finset.card_erase_lt_of_mem hbw
          · apply Prod.Lex.left
            unfold staleBlocks
            have hmem : bb ∈ B.filter (fun b => (result.get V.dflt b).2
                ≠ blockTransfer f (M.insts b) (result.get V.dflt b).1) := by
              rw [Finset.mem_filter]
              refine ⟨hbB, ?_⟩
              rw [← hin']
              exact hc
            have hss : B.filter (fun b => (result'.get V.dflt b).2
                ≠ blockTransfer f (M.insts b) (result'.get V.dflt b).1)
                ⊆ (B.filter (fun b => (result.get V.dflt b).2
                ≠ blockTransfer f (M.insts b) (result.get V.dflt b).1)).erase bb := by
              intro b hb
              rw [Finset.mem_filter] at hb
              have hne : b ≠ bb := by
                intro hbb
                subst hbb
                apply hb.2
                rw [hget b, if_pos rfl]
              rw [Finset.mem_erase, Finset.mem_filter]
              refine ⟨hne, hb.1, ?_⟩
              have := hb.2
              rw [hget b, if_neg hne] at this
              exact this
            exact lt_of_le_of_lt (Finset.card_le_card hss) (Finset.card_erase_lt_of_mem hmem)
        · -- the in state of the block went up
          apply Prod.Lex.left
          unfold inSlack
          apply Finset.sum_lt_sum
          · intro b _
            rw [hget b]
            by_cases hb : b = bb
            · subst hb
              rw [if_pos rfl]
              have h1 : rank (result.get V.dflt b).1 < rank (blockIn M V result b) := hin
              show H - rank (blockIn M V result b) ≤ H - rank (result.get V.dflt b).1
              omega
            · rw [if_neg hb]
          · refine ⟨bb, hbB, ?_⟩
            rw [hget bb, if_pos rfl]
            have h1 : rank (result.get V.dflt bb).1 < rank (blockIn M V result bb) := hin
            have h2 := hH (blockIn M V result bb)
            show H - rank (blockIn M V result bb) < H - rank (result.get V.dflt bb).1
            omega
      obtain ⟨N, hN⟩ := ih _ hlex _ result' hsub' rfl
      refine ⟨N + 1, fun fuel hfuel => ?_⟩
      obtain ⟨m, rfl⟩ : ∃ m, fuel = m + 1 := ⟨fuel - 1, by omega⟩
      rw [forwardLoop_succ, he]
      simp only [hstep]
      exact hN m (by omega)

end EngineTermination
section EngineStep

variable {T G : Type}

/-- A turn of the loop, for any visitor: the table given to the transfer of the
block has the merged in state in the entry of the block and is read as before
in the other entries. -/
theorem forwardStep_eq [DecidableEq T] (M : Module) (V : DataflowVisitor T G) (bb : Value)
    (worklist : Finset Value) (result : Table T) (g : G) :
    ∃ t : Table T,
      (∀ b, t.get V.dflt b =
        if b = bb then (blockIn M V result bb, (result.get V.dflt bb).2)
        else result.get V.dflt b)
      ∧ forwardStep M V bb worklist result g =
        match compDFValBlock V (M.insts bb) (blockIn M V result bb) t g with
        | none => none
        | some (tmp_state, res, g) =>
          if (result.get V.dflt bb).2 = tmp_state then some (worklist.erase bb, res, g)
          else some (worklist.erase bb ∪ (M.succs bb).toFinset,
            res.setSecond V.dflt bb tmp_state, g) := by
  have hin : (mergePreds V (M.preds bb) ((result.touch V.dflt bb).get V.dflt bb).1
      (result.touch V.dflt bb)).1 = blockIn M V result bb := by
    rw [mergePreds_fst]
    simp only [Table.get_touch]
    rfl
  have hold : (((mergePreds V (M.preds bb) ((result.touch V.dflt bb).get V.dflt bb).1
      (result.touch V.dflt bb)).2.setFirst V.dflt bb (blockIn M V result bb)).get V.dflt bb).2
      = (result.get V.dflt bb).2 := by
    rw [Table.get_setFirst_same, mergePreds_get, Table.get_touch]
  refine ⟨(mergePreds V (M.preds bb) ((result.touch V.dflt bb).get V.dflt bb).1
      (result.touch V.dflt bb)).2.setFirst V.dflt bb (blockIn M V result bb), fun b => ?_, ?_⟩
  · by_cases hb : b = bb
    · subst hb
      rw [if_pos rfl, Table.get_setFirst_same, mergePreds_get, Table.get_touch]
    · rw [if_neg hb, Table.get_setFirst_other _ _ _ _ _ hb, mergePreds_get, Table.get_touch]
  · unfold forwardStep
    simp only [hin, hold]

end EngineStep

/-! ## Lemmas on the growth of the tables -/

theorem callReturnGet_insert_mono (ci : CallInst) (fs : FunctionSet) (c : CallInst)
    (cr : CallReturn) : callReturnGet cr c ⊆ callReturnGet (callReturnInsert cr ci fs) c := by
  induction cr with
  | nil => simp [callReturnGet]
  | cons e rest ih =>
    obtain ⟨c0, s⟩ := e
    simp only [callReturnInsert]
    split_ifs <;> simp only [callReturnGet] <;> split_ifs <;>
      first
      | exact Finset.Subset.refl _
      | exact Finset.empty_subset _
      | exact ih
      | exact Finset.subset_union_left
      | (exfalso; omega)

theorem tablesGrow_refl (bbresult : Table PointToState) (g : Globals) :
    TablesGrow bbresult g bbresult g :=
  ⟨fun _ => state_le_refl _, fun _ => state_le_refl _, fun _ => Finset.Subset.refl _⟩

theorem tablesGrow_trans {t1 t2 t3 : Table PointToState} {g1 g2 g3 : Globals}
    (h1 : TablesGrow t1 g1 t2 g2) (h2 : TablesGrow t2 g2 t3 g3) : TablesGrow t1 g1 t3 g3 :=
  ⟨fun b => state_le_trans (h1.1 b) (h2.1 b), fun c => state_le_trans (h1.2.1 c) (h2.2.1 c),
    fun ci => (h1.2.2 ci).trans (h2.2.2 ci)⟩

theorem calleeStep_inLe (M : Module) (ci : CallInst) (state : PointToState)
    (w : Table PointToState × Globals) (callee : Value) :
    w.1.inLe (calleeStep M ci state w callee).1 := by
  intro b
  by_cases hb : M.isDeclaration callee = false → b ≠ M.entry callee
  · rw [calleeStep_get_other M ci state w callee b hb]
    exact state_le_refl _
  · simp only [not_forall, not_not, ne_eq, exists_prop] at hb
    obtain ⟨hd, hb⟩ := hb
    rw [hb, calleeStep_get_entry M ci state w callee hd]
    exact state_le_merge_left _ _

theorem foldl_calleeStep_inLe (M : Module) (ci : CallInst) (state : PointToState)
    (l : List Value) (w : Table PointToState × Globals) :
    w.1.inLe (l.foldl (calleeStep M ci state) w).1 := by
  induction l generalizing w with
  | nil => exact fun _ => state_le_refl _
  | cons c l ih =>
    rw [List.foldl_cons]
    exact fun b => state_le_trans (calleeStep_inLe M ci state w c b) (ih _ b)

theorem handleCallInst_grow (M : Module) (o : Order) (fuel : Nat) (ci : CallInst)
    (state : PointToState) (bbresult : Table PointToState) (g : Globals)
    (r : PointToState × Table PointToState × Globals)
    (h : handleCallInst M o fuel ci state bbresult g = some r) :
    TablesGrow bbresult g r.2.1 r.2.2 := by
  unfold handleCallInst at h
  cases hg : getFunctions M o fuel ci.called state with
  | none => rw [hg] at h; simp at h
  | some p =>
    obtain ⟨callee_set, st⟩ := p
    rw [hg] at h
    simp only at h
    by_cases hd : (M.isFunction ci.called && M.isDeclaration ci.called) = true
    · rw [if_pos hd] at h
      simp only [Option.some.injEq] at h
      rw [← h]
      exact ⟨fun _ => state_le_refl _, fun _ => state_le_refl _,
        fun c => callReturnGet_insert_mono ci callee_set c g.call_return⟩
    · rw [if_neg hd] at h
      simp only [Option.some.injEq] at h
      rw [← h]
      refine ⟨?_, ?_, ?_⟩
      · simp only
        exact foldl_calleeStep_inLe M ci st (o.enum callee_set) (bbresult, _)
      · intro c
        simp only
        rw [foldl_calleeStep_instresult]
        have e : (g.instresult.insert ci.id (PointToState.bot, PointToState.bot)).get
            PointToState.bot c = g.instresult.get PointToState.bot c :=
          Table.get_touch g.instresult PointToState.bot ci.id c
        rw [e]
        exact state_le_refl _
      · intro c
        simp only
        rw [foldl_calleeStep_call_return]
        exact callReturnGet_insert_mono ci callee_set c g.call_return

theorem foldl_returnStep_call_return (M : Module) (F : Value) (retval : Option Value)
    (S : PointToState) (l : List (CallInst × FunctionSet)) (g : Globals) :
    (l.foldl (returnStep M F retval S) g).call_return = g.call_return := by
  induction l generalizing g with
  | nil => rfl
  | cons e l ih => rw [List.foldl_cons, ih, returnStep_call_return]

theorem handleReturnInst_grow (M : Module) (F : Value) (retval : Option Value)
    (S : PointToState) (bbresult : Table PointToState) (g : Globals) :
    TablesGrow bbresult g bbresult (handleReturnInst M F retval S g) := by
  refine ⟨fun _ => state_le_refl _, ?_, ?_⟩
  · exact fun c => foldl_returnStep_out_le M F retval S g.call_return g c
  · intro c
    unfold handleReturnInst
    rw [foldl_returnStep_call_return]

theorem compDFVal_grow (M : Module) (o : Order) (fuel : Nat) (inst : Instruction)
    (state : PointToState) (bbresult : Table PointToState) (g : Globals)
    (r : PointToState × Table PointToState × Globals)
    (h : compDFVal M o fuel inst state bbresult g = some r) :
    TablesGrow bbresult g r.2.1 r.2.2 := by
  cases inst with
  | call ci => exact handleCallInst_grow M o fuel ci state bbresult g r h
  | ret fn retval =>
    simp only [compDFVal, Option.some.injEq] at h
    rw [← h]
    exact handleReturnInst_grow M fn retval state bbresult g
  | _ =>
    simp only [compDFVal, Option.some.injEq] at h
    rw [← h]
    exact tablesGrow_refl _ _

theorem compDFValBlock_grow (M : Module) (o : Order) (fuel : Nat) (insts : List Instruction)
    (state : PointToState) (bbresult : Table PointToState) (g : Globals)
    (r : PointToState × Table PointToState × Globals)
    (h : compDFValBlock (PointToVisitor M o fuel) insts state bbresult g = some r) :
    TablesGrow bbresult g r.2.1 r.2.2 := by
  induction insts generalizing state bbresult g with
  | nil =>
    simp only [compDFValBlock, Option.some.injEq] at h
    rw [← h]
    exact tablesGrow_refl _ _
  | cons i rest ih =>
    rw [compDFValBlock, PointToVisitor_compDFVal] at h
    cases hc : compDFVal M o fuel i state bbresult g with
    | none => rw [hc] at h; simp at h
    | some p =>
      obtain ⟨st, res, g'⟩ := p
      rw [hc] at h
      simp only at h
      exact tablesGrow_trans (compDFVal_grow M o fuel i state bbresult g _ hc) (ih _ _ _ h)

theorem state_le_foldl_merge (out : Value → PointToState) (l : List Value) (s : PointToState) :
    s.le (l.foldl (fun s p => merge s (out p)) s) := by
  induction l generalizing s with
  | nil => exact state_le_refl _
  | cons q l ih =>
    rw [List.foldl_cons]
    exact state_le_trans (state_le_merge_left _ _) (ih _)

theorem forwardStep_grow (M : Module) (o : Order) (fuel : Nat) (bb : Value)
    (worklist : Finset Value) (result : Table PointToState) (g : Globals)
    (r : Finset Value × Table PointToState × Globals)
    (h : forwardStep M (PointToVisitor M o fuel) bb worklist result g = some r) :
    TablesGrow result g r.2.1 r.2.2 := by
  obtain ⟨t, ht, hstep⟩ := forwardStep_eq M (PointToVisitor M o fuel) bb worklist result g
  rw [hstep] at h
  simp only [PointToVisitor_dflt] at ht h
  have h0 : result.inLe t := by
    intro b
    rw [ht b]
    by_cases hb : b = bb
    · subst hb
      rw [if_pos rfl]
      exact state_le_foldl_merge _ _ _
    · rw [if_neg hb]
      exact state_le_refl _
  cases hc : compDFValBlock (PointToVisitor M o fuel) (M.insts bb)
      (blockIn M (PointToVisitor M o fuel) result bb) t g with
  | none => rw [hc] at h; simp at h
  | some p =>
    obtain ⟨tmp, res, g'⟩ := p
    rw [hc] at h
    simp only at h
    have hg := compDFValBlock_grow M o fuel _ _ _ _ _ hc
    have h1 : TablesGrow result g res g' :=
      ⟨fun b => state_le_trans (h0 b) (hg.1 b), hg.2.1, hg.2.2⟩
    by_cases hcmp : (result.get PointToState.bot bb).2 = tmp
    · rw [if_pos hcmp] at h
      simp only [Option.some.injEq] at h
      rw [← h]
      exact h1
    · rw [if_neg hcmp] at h
      simp only [Option.some.injEq] at h
      rw [← h]
      refine ⟨fun b => ?_, h1.2.1, h1.2.2⟩
      have e : ((res.setSecond PointToState.bot bb tmp).get PointToState.bot b).1
          = (res.get PointToState.bot b).1 := by
        by_cases hb : b = bb
        · subst hb
          rw [Table.get_setSecond_same]
        · rw [Table.get_setSecond_other _ _ _ _ _ hb]
      show (result.get PointToState.bot b).1.le
        ((res.setSecond PointToState.bot bb tmp).get PointToState.bot b).1
      rw [e]
      exact h1.1 b

section EngineOrder

variable {T G : Type}

theorem join_trans (V : DataflowVisitor T G) (hj : V.IsJoin) {a b c : T}
    (h1 : V.merge a b = a) (h2 : V.merge b c = b) : V.merge a c = a := by
  rw [← h1, hj.assoc, h2]

theorem join_antisymm (V : DataflowVisitor T G) (hj : V.IsJoin) {a b : T}
    (h1 : V.merge a b = a) (h2 : V.merge b a = b) : a = b := by
  rw [← h1, hj.comm, h2]

theorem foldl_merge_le (V : DataflowVisitor T G) (hj : V.IsJoin) (out : Value → T) (m : T)
    (l : List Value) (s : T) (hs : V.merge m s = m) (hl : ∀ p ∈ l, V.merge m (out p) = m) :
    V.merge m (l.foldl (fun s p => V.merge s (out p)) s) = m := by
  induction l generalizing s with
  | nil => exact hs
  | cons q l ih =>
    rw [List.foldl_cons]
    apply ih
    · rw [← hj.assoc, hs]
      exact hl q (List.mem_cons_self _ _)
    · exact fun p hp => hl p (List.mem_cons_of_mem _ hp)

theorem blockTransfer_mono (V : DataflowVisitor T G) (f : Instruction → T → T)
    (hmono : ∀ inst a b, V.merge b a = b → V.merge (f inst b) (f inst a) = f inst b)
    (insts : List Instruction) (a b : T) (h : V.merge b a = b) :
    V.merge (blockTransfer f insts b) (blockTransfer f insts a) = blockTransfer f insts b := by
  unfold blockTransfer
  induction insts generalizing a b with
  | nil => exact h
  | cons i rest ih =>
    rw [List.foldl_cons, List.foldl_cons]
    exact ih _ _ (hmono i a b h)

/-- An invariant of the worklist and of the table, as the table is read, that
every turn of the loop keeps holds when the loop of a pure visitor returns. -/
theorem forwardLoop_invariant [DecidableEq T] (M : Module) (o : Order)
    (V : DataflowVisitor T G) (f : Instruction → T → T) (hpure : V.IsPure f)
    (Inv : Finset Value → Table T → Prop)
    (hstep : ∀ (wl : Finset Value) (result result' : Table T) (bb : Value), bb ∈ wl →
      Inv wl result →
      (∀ b, result'.get V.dflt b =
        if b = bb then (blockIn M V result bb,
          blockTransfer f (M.insts bb) (blockIn M V result bb))
        else result.get V.dflt b) →
      Inv (if (result.get V.dflt bb).2 = blockTransfer f (M.insts bb) (blockIn M V result bb)
        then wl.erase bb else wl.erase bb ∪ (M.succs bb).toFinset) result') :
    ∀ (n : Nat) (wl : Finset Value) (result : Table T) (g : G) (r : Table T × G),
      forwardLoop M o V n wl result g = some r → Inv wl result → Inv ∅ r.1 ∧ r.2 = g := by
  intro n
  induction n with
  | zero =>
    intro wl result g r h hinv
    unfold forwardLoop at h
    cases he : o.enum wl with
    | nil =>
      rw [he] at h
      simp only [Option.some.injEq] at h
      rw [← h]
      have hw : wl = ∅ := (o.enum_eq_nil wl).1 he
      exact ⟨hw ▸ hinv, rfl⟩
    | cons bb rest =>
      rw [he] at h
      simp at h
  | succ n ih =>
    intro wl result g r h hinv
    rw [forwardLoop_succ] at h
    cases he : o.enum wl with
    | nil =>
      rw [he] at h
      simp only [Option.some.injEq] at h
      rw [← h]
      have hw : wl = ∅ := (o.enum_eq_nil wl).1 he
      exact ⟨hw ▸ hinv, rfl⟩
    | cons bb rest =>
      rw [he] at h
      obtain ⟨result', hs, hget⟩ := forwardStep_pure M V f hpure bb wl result g
      simp only [hs] at h
      exact ih _ _ _ _ h (hstep wl result result' bb (o.head_mem wl bb rest he) hinv hget)

/-- The in states only go up, and the entries of the values that are no blocks
of `B` are read as before. -/
theorem forwardLoop_grows [DecidableEq T] (M : Module) (o : Order) (V : DataflowVisitor T G)
    (f : Instruction → T → T) (hpure : V.IsPure f) (hj : V.IsJoin) (B : Finset Value)
    (hsucc : ∀ b ∈ B, ∀ s ∈ M.succs b, s ∈ B) (n : Nat) (wl : Finset Value)
    (result : Table T) (g : G) (r : Table T × G)
    (h : forwardLoop M o V n wl result g = some r) (hwl : wl ⊆ B) :
    (∀ b, V.merge (r.1.get V.dflt b).1 (result.get V.dflt b).1 = (r.1.get V.dflt b).1)
      ∧ (∀ b, b ∉ B → r.1.get V.dflt b = result.get V.dflt b) ∧ r.2 = g := by
  have key := forwardLoop_invariant M o V f hpure
    (fun wl t => wl ⊆ B
      ∧ (∀ b, V.merge (t.get V.dflt b).1 (result.get V.dflt b).1 = (t.get V.dflt b).1)
      ∧ ∀ b, b ∉ B → t.get V.dflt b = result.get V.dflt b)
    (by
      intro wl t t' bb hbb hinv hget
      obtain ⟨hsub, hup, hout⟩ := hinv
      have hbB : bb ∈ B := hsub hbb
      refine ⟨?_, ?_, ?_⟩
      · split
        · exact (Finset.erase_subset _ _).trans hsub
        · apply Finset.union_subset ((Finset.erase_subset _ _).trans hsub)
          intro s hs
          exact hsucc bb hbB s (List.mem_toFinset.1 hs)
      · intro b
        rw [hget b]
        by_cases hb : b = bb
        · subst hb
          rw [if_pos rfl]
          exact join_trans V hj (foldl_merge_start V hj _ _ _) (hup b)
        · rw [if_neg hb]
          exact hup b
      · intro b hb
        have hne : b ≠ bb := fun e => hb (e ▸ hbB)
        rw [hget b, if_neg hne]
        exact hout b hb)
    n wl result g r h ⟨hwl, fun b => hj.idem _, fun _ _ => rfl⟩
  exact ⟨key.1.2.1, key.1.2.2, key.2⟩

/-- The in states stay below every solution `m` of the equations of the
function that is above the in states and the out states at the start. -/
theorem forwardLoop_below [DecidableEq T] (M : Module) (o : Order) (V : DataflowVisitor T G)
    (f : Instruction → T → T) (hpure : V.IsPure f) (hj : V.IsJoin)
    (hmono : ∀ inst a b, V.merge b a = b → V.merge (f inst b) (f inst a) = f inst b)
    (B : Finset Value) (hsucc : ∀ b ∈ B, ∀ s ∈ M.succs b, s ∈ B) (m : Value → T)
    (hm : ∀ b ∈ B, ∀ p ∈ M.preds b, p ∈ B →
      V.merge (m b) (blockTransfer f (M.insts p) (m p)) = m b)
    (n : Nat) (wl : Finset Value) (result : Table T) (g : G) (r : Table T × G)
    (h : forwardLoop M o V n wl result g = some r) (hwl : wl ⊆ B)
    (hin : ∀ b ∈ B, V.merge (m b) (result.get V.dflt b).1 = m b)
    (hout : ∀ b ∈ B, ∀ p ∈ M.preds b, V.merge (m b) (result.get V.dflt p).2 = m b) :
    ∀ b ∈ B, V.merge (m b) (r.1.get V.dflt b).1 = m b := by
  have key := forwardLoop_invariant M o V f hpure
    (fun wl t => wl ⊆ B
      ∧ (∀ b ∈ B, V.merge (m b) (t.get V.dflt b).1 = m b)
      ∧ ∀ b ∈ B, ∀ p ∈ M.preds b, V.merge (m b) (t.get V.dflt p).2 = m b)
    (by
      intro wl t t' bb hbb hinv hget
      obtain ⟨hsub, hi, ho⟩ := hinv
      have hbB : bb ∈ B := hsub hbb
      have hnew : V.merge (m bb) (blockIn M V t bb) = m bb :=
        foldl_merge_le V hj (fun p => (t.get V.dflt p).2) (m bb) (M.preds bb) _ (hi bb hbB)
          (fun p hp => ho bb hbB p hp)
      refine ⟨?_, ?_, ?_⟩
      · split
        · exact (Finset.erase_subset _ _).trans hsub
        · apply Finset.union_subset ((Finset.erase_subset _ _).trans hsub)
          intro s hs
          exact hsucc bb hbB s (List.mem_toFinset.1 hs)
      · intro b hb
        rw [hget b]
        by_cases hbe : b = bb
        · subst hbe
          rw [if_pos rfl]
          exact hnew
        · rw [if_neg hbe]
          exact hi b hb
      · intro b hb p hp
        rw [hget p]
        by_cases hpe : p = bb
        · subst hpe
          rw [if_pos rfl]
          exact join_trans V hj (hm b hb p hp hbB)
            (blockTransfer_mono V f hmono (M.insts p) _ _ hnew)
        · rw [if_neg hpe]
          exact ho b hb p hp)
    n wl result g r h ⟨hwl, hin, hout⟩
  exact key.1.2.1

end EngineOrder

/-! ## Lemmas on the frame of the transfers that define a value -/

theorem keys_iff_or_empty (m m' : PointToMap) (k : Value) (h : m'.sets k = m.sets k) :
    (k ∈ m'.keys ↔ k ∈ m.keys) ∨ m.sets k = ∅ := by
  by_cases h1 : k ∈ m.keys
  · by_cases h2 : k ∈ m'.keys
    · exact Or.inl ⟨fun _ => h1, fun _ => h2⟩
    · exact Or.inr (by rw [← h, m'.absent k h2])
  · exact Or.inr (m.absent k h1)

theorem foldl_phiStep_sets_other (M : Module) (phi : Value) (incoming : List Value)
    (st : PointToState) (k : Value) (hk : k ≠ phi) :
    (incoming.foldl (phiStep M phi) st).pt.sets k = st.pt.sets k := by
  induction incoming generalizing st with
  | nil => rfl
  | cons v rest ih =>
    rw [List.foldl_cons, ih, phiStep_eq]
    split
    · rfl
    · simp only [PointToMap.sets_insertAll, hk, if_false]

theorem handlePHINode_sets_other (M : Module) (phi : Value) (incoming : List Value)
    (S : PointToState) (k : Value) (hk : k ≠ phi) :
    (handlePHINode M phi incoming S).pt.sets k = S.pt.sets k := by
  unfold handlePHINode
  rw [foldl_phiStep_sets_other M phi incoming _ k hk]
  simp only [PointToMap.sets_assign, hk, if_false]

theorem handlePHINode_field_pt (M : Module) (phi : Value) (incoming : List Value)
    (S : PointToState) : (handlePHINode M phi incoming S).field_pt = S.field_pt := by
  unfold handlePHINode
  rw [foldl_phiStep_field_pt]

theorem handleLoadInst_sets_other (M : Module) (li addr : Value) (S : PointToState)
    (k : Value) (hk : k ≠ li) : (handleLoadInst M li addr S).pt.sets k = S.pt.sets k := by
  unfold handleLoadInst
  cases hg : M.gepOf addr with
  | none =>
    simp only [PointToMap.sets_insertAll, PointToMap.sets_touch, PointToMap.sets_assign, hk,
      if_false]
  | some base =>
    simp only
    split
    · rename_i he
      simp only [PointToMap.sets_insertAll, PointToMap.sets_erase, PointToMap.sets_touch,
        PointToMap.sets_assign, hk, if_false]
      by_cases hb : k = base
      · rw [if_pos hb]
        simp only [PointToMap.sets_touch, PointToMap.sets_assign] at he
        subst hb
        rw [if_neg hk] at he
        exact he.symm
      · rw [if_neg hb]
    · rw [foldr_loadStep_pt_sets, if_neg hk]
      simp only [PointToMap.sets_touch, PointToMap.sets_assign, hk, if_false]

theorem handleLoadInst_field_sets (M : Module) (li addr : Value) (S : PointToState)
    (k : Value) : (handleLoadInst M li addr S).field_pt.sets k = S.field_pt.sets k := by
  unfold handleLoadInst
  cases hg : M.gepOf addr with
  | none => rfl
  | some base =>
    simp only
    split
    · simp only [PointToMap.sets_touch]
    · rw [foldr_loadStep_field_sets]

theorem handleGetElementPtrInst_sets_other (gep base : Value) (S : PointToState)
    (k : Value) (hk : k ≠ gep) :
    (handleGetElementPtrInst gep base S).pt.sets k = S.pt.sets k := by
  unfold handleGetElementPtrInst
  simp only
  split
  · rename_i he
    simp only [PointToMap.sets_insertAll, PointToMap.sets_erase, PointToMap.sets_touch,
      PointToMap.sets_assign, hk, if_false]
    by_cases hb : k = base
    · rw [if_pos hb]
      simp only [PointToMap.sets_touch, PointToMap.sets_assign] at he
      subst hb
      rw [if_neg hk] at he
      exact he.symm
    · rw [if_neg hb]
  · simp only [PointToMap.sets_insertAll, PointToMap.sets_touch, PointToMap.sets_assign, hk,
      if_false]

theorem handleGetElementPtrInst_field_pt (gep base : Value) (S : PointToState) :
    (handleGetElementPtrInst gep base S).field_pt = S.field_pt := by
  unfold handleGetElementPtrInst
  simp only
  split <;> rfl

/-! ## Lemmas on the resolution of callees along a chain with a cycle -/

theorem ptReachesCycle_step {M : Module} {S : PointToState} {x : Value}
    (h : ptReachesCycle M S x) : ∃ x1, ptEdge M S x x1 ∧ ptReachesCycle M S x1 := by
  obtain ⟨y, hxy, hyy⟩ := h
  rcases Relation.ReflTransGen.cases_head hxy with e | ⟨x1, hx1, h1y⟩
  · subst e
    rcases Relation.TransGen.head'_iff.1 hyy with ⟨x1, hx1, h1y⟩
    exact ⟨x1, hx1, x, h1y, hyy⟩
  · exact ⟨x1, hx1, y, h1y, hyy⟩

theorem getFunctionsLoop_cycle (M : Module) (o : Order) (S : PointToState) :
    ∀ (n : Nat) (worklist func : Finset Value) (state : PointToState),
      (∀ k, state.pt.sets k = S.pt.sets k) →
      (∃ x ∈ worklist, ptReachesCycle M S x) →
      getFunctionsLoop M o n worklist func state = none := by
  intro n
  induction n with
  | zero =>
    intro worklist func state _ ⟨x, hx, _⟩
    cases he : o.enum worklist with
    | nil =>
      rw [(o.enum_eq_nil worklist).1 he] at hx
      simp at hx
    | cons vi rest => simp only [getFunctionsLoop, he]
  | succ n ih =>
    intro worklist func state hsets ⟨x, hx, hcyc⟩
    cases he : o.enum worklist with
    | nil =>
      rw [(o.enum_eq_nil worklist).1 he] at hx
      simp at hx
    | cons vi rest =>
      obtain ⟨x1, hedge, hcyc1⟩ := ptReachesCycle_step hcyc
      simp only [getFunctionsLoop, he]
      by_cases hf : M.isFunction vi = true
      · rw [if_pos hf]
        have hne : x ≠ vi := fun e => by
          have h1 : M.isFunction x = false := hedge.1
          rw [e, hf] at h1
          exact Bool.noConfusion h1
        exact ih _ _ _ hsets ⟨x, Finset.mem_erase.2 ⟨hne, hx⟩, hcyc⟩
      · rw [if_neg hf]
        apply ih
        · intro k
          simp only [PointToMap.sets_touch]
          exact hsets k
        · by_cases e : x = vi
          · refine ⟨x1, Finset.mem_union_right _ ?_, hcyc1⟩
            simp only [PointToMap.sets_touch]
            rw [← e, hsets x]
            exact hedge.2
          · exact ⟨x, Finset.mem_union_left _ (Finset.mem_erase.2 ⟨e, hx⟩), hcyc⟩

/-! ## Lemmas on the start of a run of the engine -/

theorem Table.insert_apply {T : Type} (t : Table T) (k : Value) (v : T × T) (b : Value) :
    t.insert k v b = if b = k ∧ (t b).isNone = true then some v else t b := by
  unfold Table.insert
  by_cases hb : b = k
  · subst hb
    cases ht : t b <;> simp
  · simp [hb]

theorem initBlocks_table {T : Type} (initval : T) (blocks : List Value) (result : Table T)
    (b : Value) :
    (initBlocks initval blocks result).1 b =
      if b ∈ blocks ∧ (result b).isNone = true then some (initval, initval)
      else result b := by
  unfold initBlocks
  have h : ∀ (l : List Value) (w : Table T × Finset Value),
      (l.foldl (fun w bb => (w.1.insert bb (initval, initval), insert bb w.2)) w).1 b
        = if b ∈ l ∧ (w.1 b).isNone = true then some (initval, initval) else w.1 b := by
    intro l
    induction l with
    | nil => intro w; simp
    | cons a l ih =>
      intro w
      rw [List.foldl_cons, ih]
      simp only [Table.insert_apply, List.mem_cons]
      cases hn : w.1 b with
      | none =>
        by_cases hba : b = a
        · simp [hba]
        · simp [hba]
      | some p => simp
  exact h blocks (result, ∅)

theorem state_bot_le (a : PointToState) : PointToState.bot.le a :=
  ⟨⟨by simp [PointToState.bot], fun k => by simp [PointToState.bot]⟩,
    ⟨by simp [PointToState.bot], fun k => by simp [PointToState.bot]⟩⟩

theorem initBlocks_inLe (initval : PointToState) (blocks : List Value)
    (result : Table PointToState) : result.inLe (initBlocks initval blocks result).1 := by
  intro b
  unfold Table.get
  rw [initBlocks_table]
  cases hn : result b with
  | none => exact state_bot_le _
  | some p =>
    simp only [Option.isNone_some, Bool.false_eq_true, and_false, if_false]
    exact state_le_refl _

theorem forwardLoop_tablesGrow (M : Module) (o : Order) (fuel : Nat) :
    ∀ (n : Nat) (wl : Finset Value) (result : Table PointToState) (g : Globals)
      (r : Table PointToState × Globals),
      forwardLoop M o (PointToVisitor M o fuel) n wl result g = some r →
      TablesGrow result g r.1 r.2 := by
  intro n
  induction n with
  | zero =>
    intro wl result g r h
    unfold forwardLoop at h
    cases he : o.enum wl with
    | nil =>
      rw [he] at h
      simp only [Option.some.injEq] at h
      rw [← h]
      exact tablesGrow_refl _ _
    | cons bb rest =>
      rw [he] at h
      simp at h
  | succ n ih =>
    intro wl result g r h
    rw [forwardLoop_succ] at h
    cases he : o.enum wl with
    | nil =>
      rw [he] at h
      simp only [Option.some.injEq] at h
      rw [← h]
      exact tablesGrow_refl _ _
    | cons bb rest =>
      rw [he] at h
      simp only at h
      cases hs : forwardStep M (PointToVisitor M o fuel) bb wl result g with
      | none => rw [hs] at h; simp at h
      | some p =>
        obtain ⟨wl', res, g'⟩ := p
        rw [hs] at h
        simp only at h
        exact tablesGrow_trans (forwardStep_grow M o fuel bb wl result g _ hs) (ih _ _ _ _ h)

theorem compForwardDataflow_tablesGrow (M : Module) (o : Order) (fuel n : Nat) (fn : Value)
    (result : Table PointToState) (g : Globals) (initval : PointToState)
    (r : Table PointToState × Globals)
    (h : compForwardDataflow M o (PointToVisitor M o fuel) n fn result g initval = some r) :
    TablesGrow result g r.1 r.2 := by
  unfold compForwardDataflow at h
  have h1 := forwardLoop_tablesGrow M o fuel n _ _ g r h
  exact ⟨fun b => state_le_trans (initBlocks_inLe initval (M.blocks fn) result b) (h1.1 b),
    h1.2.1, h1.2.2⟩

theorem calleeStep_deposits (M : Module) (ci : CallInst) (state : PointToState)
    (w : Table PointToState × Globals) (callee : Value) (hd : M.isDeclaration callee = false) :
    (renameCall M ci callee state).le
      ((calleeStep M ci state w callee).1.get PointToState.bot (M.entry callee)).1 := by
  rw [calleeStep_get_entry M ci state w callee hd]
  exact state_le_merge_right _ _

theorem foldl_calleeStep_deposits (M : Module) (ci : CallInst) (state : PointToState)
    (callee : Value) (hd : M.isDeclaration callee = false) (l : List Value)
    (hmem : callee ∈ l) (w : Table PointToState × Globals) :
    (renameCall M ci callee state).le
      ((l.foldl (calleeStep M ci state) w).1.get PointToState.bot (M.entry callee)).1 := by
  induction l generalizing w with
  | nil => simp at hmem
  | cons c l ih =>
    rw [List.foldl_cons]
    rcases List.mem_cons.1 hmem with e | e
    · subst e
      exact state_le_trans (calleeStep_deposits M ci state w callee hd)
        (foldl_calleeStep_inLe M ci state l _ _)
    · exact ih e _

theorem handleCallInst_deposits (M : Module) (o : Order) (fuel : Nat) (ci : CallInst)
    (S : PointToState) (bbresult : Table PointToState) (g : Globals)
    (r : PointToState × Table PointToState × Globals)
    (callee_set : FunctionSet) (S' : PointToState) (callee : Value)
    (hg : getFunctions M o fuel ci.called S = some (callee_set, S'))
    (h : handleCallInst M o fuel ci S bbresult g = some r)
    (hnd : (M.isFunction ci.called && M.isDeclaration ci.called) = false)
    (hmem : callee ∈ callee_set) (hd : M.isDeclaration callee = false) :
    (renameCall M ci callee S').le (r.2.1.get PointToState.bot (M.entry callee)).1 := by
  unfold handleCallInst at h
  rw [hg] at h
  simp only [hnd, Bool.false_eq_true, if_false, Option.some.injEq] at h
  rw [← h]
  simp only
  exact foldl_calleeStep_deposits M ci S' callee hd _ ((o.mem_enum _ _).2 hmem) _

/-! ## Lemmas on the functions flagged by a call and by a return -/

theorem calleeStep_func_set (M : Module) (ci : CallInst) (state : PointToState)
    (w : Table PointToState × Globals) (callee : Value) :
    (calleeStep M ci state w callee).2.func_set =
      if callChanges M ci state w.1 callee then insert callee w.2.func_set
      else w.2.func_set := by
  unfold calleeStep callChanges
  by_cases hd : M.isDeclaration callee = true
  · simp [hd]
  · have hd' : M.isDeclaration callee = false := by simpa using hd
    simp only [hd', Bool.false_eq_true, if_false, Table.get_touch, true_and]
    split <;> rfl

theorem callChanges_calleeStep (M : Module) (ci : CallInst) (state : PointToState)
    (w : Table PointToState × Globals) (c f : Value)
    (h : M.isDeclaration f = false → M.isDeclaration c = false → M.entry f ≠ M.entry c) :
    callChanges M ci state (calleeStep M ci state w c).1 f ↔ callChanges M ci state w.1 f := by
  unfold callChanges
  constructor
  · rintro ⟨hd, hne⟩
    rw [calleeStep_get_other M ci state w c (M.entry f) (h hd)] at hne
    exact ⟨hd, hne⟩
  · rintro ⟨hd, hne⟩
    rw [calleeStep_get_other M ci state w c (M.entry f) (h hd)]
    exact ⟨hd, hne⟩

theorem foldl_calleeStep_func_set (M : Module) (ci : CallInst) (state : PointToState)
    (l : List Value) (hnd : l.Nodup)
    (hent : ∀ c ∈ l, ∀ c' ∈ l, c ≠ c' → M.isDeclaration c = false →
      M.isDeclaration c' = false → M.entry c ≠ M.entry c')
    (w : Table PointToState × Globals) (f : Value) :
    f ∈ (l.foldl (calleeStep M ci state) w).2.func_set ↔
      f ∈ w.2.func_set ∨ (f ∈ l ∧ callChanges M ci state w.1 f) := by
  induction l generalizing w with
  | nil => simp
  | cons c l ih =>
    rw [List.nodup_cons] at hnd
    rw [List.foldl_cons, ih hnd.2 (fun a ha b hb => hent a (List.mem_cons_of_mem _ ha) b
      (List.mem_cons_of_mem _ hb)), calleeStep_func_set]
    have hiff : f ∈ l → (callChanges M ci state (calleeStep M ci state w c).1 f ↔
        callChanges M ci state w.1 f) := by
      intro hf
      apply callChanges_calleeStep
      intro h1 h2
      exact hent f (List.mem_cons_of_mem _ hf) c (List.mem_cons_self _ _)
        (fun e => hnd.1 (e ▸ hf)) h1 h2
    constructor
    · rintro (h | ⟨hf, hc⟩)
      · split at h
        · rcases Finset.mem_insert.1 h with e | e
          · subst e
            rename_i hch
            exact Or.inr ⟨List.mem_cons_self _ _, hch⟩
          · exact Or.inl e
        · exact Or.inl h
      · exact Or.inr ⟨List.mem_cons_of_mem _ hf, (hiff hf).1 hc⟩
    · rintro (h | ⟨hf, hc⟩)
      · left
        split
        · exact Finset.mem_insert_of_mem h
        · exact h
      · rcases List.mem_cons.1 hf with e | e
        · subst e
          left
          rw [if_pos hc]
          exact Finset.mem_insert_self _ _
        · exact Or.inr ⟨e, (hiff e).2 hc⟩

theorem returnStep_func_set (M : Module) (F : Value) (retval : Option Value)
    (S : PointToState) (g : Globals) (cr : CallInst × FunctionSet) :
    (returnStep M F retval S g cr).func_set =
      if returnChanges M F retval S g.instresult cr then insert cr.1.fn g.func_set
      else g.func_set := by
  unfold returnStep returnChanges
  by_cases hF : F ∈ cr.2
  · simp only [hF, if_true, true_and, Table.get_touch]
    split <;> rfl
  · simp [hF]

theorem returnChanges_returnStep (M : Module) (F : Value) (retval : Option Value)
    (S : PointToState) (g : Globals) (cr cr' : CallInst × FunctionSet)
    (h : cr'.1.id ≠ cr.1.id) :
    returnChanges M F retval S (returnStep M F retval S g cr).instresult cr' ↔
      returnChanges M F retval S g.instresult cr' := by
  unfold returnChanges
  rw [returnStep_get, if_neg (fun e => h e.2)]

theorem foldl_returnStep_func_set (M : Module) (F : Value) (retval : Option Value)
    (S : PointToState) (l : List (CallInst × FunctionSet))
    (hnd : (l.map (fun cr => cr.1.id)).Nodup) (g : Globals) (f : Value) :
    f ∈ (l.foldl (returnStep M F retval S) g).func_set ↔
      f ∈ g.func_set ∨ ∃ cr ∈ l, returnChanges M F retval S g.instresult cr ∧ cr.1.fn = f := by
  induction l generalizing g with
  | nil => simp
  | cons c l ih =>
    rw [List.map_cons, List.nodup_cons] at hnd
    rw [List.foldl_cons, ih hnd.2, returnStep_func_set]
    have hiff : ∀ cr ∈ l, (returnChanges M F retval S (returnStep M F retval S g c).instresult cr
        ↔ returnChanges M F retval S g.instresult cr) := by
      intro cr hcr
      apply returnChanges_returnStep
      intro e
      exact hnd.1 (List.mem_map.2 ⟨cr, hcr, e⟩)
    constructor
    · rintro (h | ⟨cr, hcr, hc, hfn⟩)
      · split at h
        · rcases Finset.mem_insert.1 h with e | e
          · rename_i hch
            exact Or.inr ⟨c, List.mem_cons_self _ _, hch, e.symm⟩
          · exact Or.inl e
        · exact Or.inl h
      · exact Or.inr ⟨cr, List.mem_cons_of_mem _ hcr, (hiff cr hcr).1 hc, hfn⟩
    · rintro (h | ⟨cr, hcr, hc, hfn⟩)
      · left
        split
        · exact Finset.mem_insert_of_mem h
        · exact h
      · rcases List.mem_cons.1 hcr with e | e
        · subst e
          left
          rw [if_pos hc, ← hfn]
          exact Finset.mem_insert_self _ _
        · exact Or.inr ⟨cr, e, (hiff cr e).2 hc, hfn⟩

theorem handleCallInst_func_set (M : Module) (o : Order) (fuel : Nat) (ci : CallInst)
    (S : PointToState) (bbresult : Table PointToState) (g : Globals)
    (r : PointToState × Table PointToState × Globals)
    (callee_set : FunctionSet) (S' : PointToState)
    (hg : getFunctions M o fuel ci.called S = some (callee_set, S'))
    (h : handleCallInst M o fuel ci S bbresult g = some r)
    (hent : ∀ c ∈ callee_set, ∀ c' ∈ callee_set, c ≠ c' → M.isDeclaration c = false →
      M.isDeclaration c' = false → M.entry c ≠ M.entry c')
    (f : Value) :
    f ∈ r.2.2.func_set ↔
      f ∈ g.func_set ∨ ((M.isFunction ci.called && M.isDeclaration ci.called) = false
        ∧ f ∈ callee_set ∧ callChanges M ci S' bbresult f) := by
  unfold handleCallInst at h
  rw [hg] at h
  simp only at h
  by_cases hd : (M.isFunction ci.called && M.isDeclaration ci.called) = true
  · rw [if_pos hd] at h
    simp only [Option.some.injEq] at h
    rw [← h]
    simp [hd]
  · rw [if_neg hd] at h
    simp only [Option.some.injEq] at h
    rw [← h]
    simp only
    rw [foldl_calleeStep_func_set M ci S' (o.enum callee_set) (o.nodup callee_set)
      (fun c hc c' hc' => hent c ((o.mem_enum _ _).1 hc) c' ((o.mem_enum _ _).1 hc'))]
    simp only [o.mem_enum]
    have hd' : (M.isFunction ci.called && M.isDeclaration ci.called) = false := by
      simpa using hd
    simp only [hd', true_and]

/-! ## Lemmas on the entries of the table of call edges -/

theorem callReturnGet_mem_entry (c : CallInst) (x : Value) (cr : CallReturn)
    (h : x ∈ callReturnGet cr c) : ∃ e ∈ cr, e.1.line = c.line ∧ x ∈ e.2 := by
  induction cr with
  | nil => simp [callReturnGet] at h
  | cons e0 rest ih =>
    obtain ⟨c0, s0⟩ := e0
    simp only [callReturnGet] at h
    split_ifs at h with h1 h2
    · simp at h
    · obtain ⟨e, he, hl, hx⟩ := ih h
      exact ⟨e, List.mem_cons_of_mem _ he, hl, hx⟩
    · exact ⟨(c0, s0), List.mem_cons_self _ _, by simp only; omega, h⟩

theorem callReturn_own_entry (c : CallInst) (F : Value) (cr : CallReturn)
    (hrec : F ∈ callReturnGet cr c) (hkey : ∀ e ∈ cr, e.1.line = c.line → e.1 = c) :
    ∃ fs, (c, fs) ∈ cr ∧ F ∈ fs := by
  obtain ⟨e, he, hl, hx⟩ := callReturnGet_mem_entry c F cr hrec
  have hc := hkey e he hl
  exact ⟨e.2, by rw [← hc]; exact he, hx⟩

/-! ## The claims -/

/-- C1, as the code has it: on the module of the scenario, when the callee `1`
is extracted before its caller `2` (increasing order), the driver ends with an
out summary of the call in which `pt[x]` is empty: the return of `1` was handled
before the call edge was recorded, and recording the edge with an unchanged
entry state does not put `1` back on the pending set.  When the caller is
extracted first (decreasing order) the out summary has `g` in `pt[x]`. -/
theorem store_through_param_depends_on_order :
    Order.asc.enum (initialFunctions storeModule) = [1, 2] ∧
    (runOnModule storeModule Order.asc 2).map (fun w => outSummaryPt w 30 11) = some ∅ ∧
    Order.desc.enum (initialFunctions storeModule) = [2, 1] ∧
    (runOnModule storeModule Order.desc 3).map (fun w => outSummaryPt w 30 11) = some {10} := by
  decide

/-- C2, as the code has it: on the module of the scenario and in increasing
order of extraction the driver ends with an empty pending set, but running the
local fixpoint once more on the callee `1` changes the out summary of the call
site: `pt[x]` goes from empty to `{g}`. -/
theorem exit_is_no_fixpoint :
    (runOnModule storeModule Order.asc 2).bind (fun w =>
      (compForwardDataflow storeModule Order.asc (PointToVisitor storeModule Order.asc 2) 2 1
        w.1 w.2 PointToState.bot).map
        (fun w' => (outSummaryPt w 30 11, outSummaryPt w' 30 11))) = some (∅, {10}) := by
  decide

/-- C3, as the code has it: on the module whose loop swaps two function
pointers through phi nodes and calls one of them, `runOnModule` does not end
within any number of turns, in any order of extraction: the called value is in
its own `pt` set and `getFunctions` puts it back on its worklist forever. -/
theorem runOnModule_swap_loop_diverges (o : Order) (fuel : Nat) :
    runOnModule swapLoopModule o fuel = none :=
  swapLoop_moduleLoop_diverges o fuel fuel _ _ _ (by decide) (by decide) Table.allBot_empty rfl rfl

/-- C4: `merge` is idempotent: merging a state into itself gives a state that is
structurally equal to it (same keys and same sets in `pt` and in `field_pt`). -/
theorem merge_idempotent (S : PointToState) : merge S S = S :=
  merge_self_state S

/-- C5: `merge` is the join of the lattice: `merge A B` has, in `pt` and in
`field_pt`, exactly the keys of `A` or `B`, each with the union of the two sets
(an absent key stores the empty set); it is above `A` and above `B`, it is below
every state that is above both, and merging with the empty state on either side
gives the other state. -/
theorem merge_is_join (A B : PointToState) :
    ((merge A B).pt.keys = A.pt.keys ∪ B.pt.keys ∧
      ∀ k, (merge A B).pt.sets k = A.pt.sets k ∪ B.pt.sets k) ∧
    ((merge A B).field_pt.keys = A.field_pt.keys ∪ B.field_pt.keys ∧
      ∀ k, (merge A B).field_pt.sets k = A.field_pt.sets k ∪ B.field_pt.sets k) ∧
    A.le (merge A B) ∧ B.le (merge A B) ∧
    (∀ C : PointToState, A.le C → B.le C → (merge A B).le C) ∧
    merge PointToState.bot A = A ∧ merge A PointToState.bot = A :=
  ⟨⟨PointToMap.merge_keys _ _, PointToMap.merge_sets _ _⟩,
    ⟨PointToMap.merge_keys _ _, PointToMap.merge_sets _ _⟩,
    ⟨PointToMap.le_merge_left _ _, PointToMap.le_merge_left _ _⟩,
    ⟨PointToMap.le_merge_right _ _, PointToMap.le_merge_right _ _⟩,
    fun _ hA hB => ⟨PointToMap.merge_le hA.1 hB.1, PointToMap.merge_le hA.2 hB.2⟩,
    PointToState.eq_of_maps (PointToMap.merge_empty_left _) (PointToMap.merge_empty_left _),
    PointToState.eq_of_maps (PointToMap.merge_empty_right _) (PointToMap.merge_empty_right _)⟩

/-- C6: `merge` is commutative: `merge A B` and `merge B A` are structurally
equal. -/
theorem merge_commutative (A B : PointToState) : merge A B = merge B A :=
  PointToState.eq_of_maps (PointToMap.merge_comm _ _) (PointToMap.merge_comm _ _)


/-- C7, as the code has it: the transfer is not monotone on a store, a phi, a
field-address computation and a load through a field address.  From the empty
state the store `*2 = 1`, the phi `5 = phi [1]` and the field address `5` over
`1` give `{1}` (the value `1` has no set and stands for itself), from the larger
state in which `1` points to `3` they give `{3}`.  The load of `52` through the
field address `50` over `51` gives the field `{7}` of `51` when `51` has no
set, and the empty field of `60` when `51` points to `60`. -/
theorem transfer_not_monotone :
    notMonotoneAt plainModule (.store 1 2) PointToState.bot stateOneToThree ∧
    notMonotoneAt plainModule (.phi 5 [1]) PointToState.bot stateOneToThree ∧
    notMonotoneAt plainModule (.gep 5 1) PointToState.bot stateOneToThree ∧
    notMonotoneAt fieldModule (.load 52 50) fieldOnlyState fieldResolvedState :=
  ⟨⟨by decide, _, _, rfl, rfl, by decide⟩, ⟨by decide, _, _, rfl, rfl, by decide⟩,
    ⟨by decide, _, _, rfl, rfl, by decide⟩, ⟨by decide, _, _, rfl, rfl, by decide⟩⟩

/-- C7, amended: for a memory copy, a load whose address is no field
computation, a call, a return and an instruction without a transfer of its
own, and the summary tables held fixed, the transfer is monotone: from `A ⊑ B`
the state obtained from `A` is `⊑` the state obtained from `B`, whenever the
transfer returns on both. -/
theorem transfer_monotone_amended (M : Module) (o : Order) (fuel : Nat) (inst : Instruction)
    (A B : PointToState) (bbresult : Table PointToState) (g : Globals)
    (rA rB : PointToState × Table PointToState × Globals)
    (hkind : monotoneKind M inst = true) (hAB : A.le B)
    (hA : compDFVal M o fuel inst A bbresult g = some rA)
    (hB : compDFVal M o fuel inst B bbresult g = some rB) : rA.1.le rB.1 := by
  cases inst with
  | memcpy dst src =>
    simp only [compDFVal, Option.some.injEq] at hA hB
    rw [← hA, ← hB]
    exact handleMemCpyInst_mono M dst src hAB
  | intrinsic =>
    simp only [compDFVal, Option.some.injEq] at hA hB
    rw [← hA, ← hB]
    exact hAB
  | phi id incoming => simp [monotoneKind] at hkind
  | store value addr => simp [monotoneKind] at hkind
  | load id addr =>
    simp only [monotoneKind, Option.isNone_iff_eq_none] at hkind
    simp only [compDFVal, Option.some.injEq] at hA hB
    rw [← hA, ← hB]
    exact handleLoadInst_mono M id addr hkind hAB
  | gep id base => simp [monotoneKind] at hkind
  | call ci =>
    simp only [compDFVal] at hA hB
    rw [handleCallInst_state M o fuel ci A bbresult g rA hA,
      handleCallInst_state M o fuel ci B bbresult g rB hB]
    split
    · exact hAB
    · exact ⟨PointToMap.le_refl _, PointToMap.le_refl _⟩
  | ret fn retval =>
    simp only [compDFVal, Option.some.injEq] at hA hB
    rw [← hA, ← hB]
    exact hAB
  | other =>
    simp only [compDFVal, Option.some.injEq] at hA hB
    rw [← hA, ← hB]
    exact hAB


/-- C7, amended, at a load of address `1` into `5`, from the state in which `1`
points to `3` and the state in which `1` points to `3` or `4`. -/
theorem transfer_monotone_amended_witness :
    monotoneKind plainModule (.load 5 1) = true ∧ stateOneToThree.le stateOneToThreeFour ∧
    (handleLoadInst plainModule 5 1 stateOneToThree).le
      (handleLoadInst plainModule 5 1 stateOneToThreeFour) :=
  ⟨rfl, by decide,
    transfer_monotone_amended plainModule Order.asc 0 (.load 5 1) stateOneToThree
      stateOneToThreeFour Table.empty Globals.init
      (handleLoadInst plainModule 5 1 stateOneToThree, Table.empty, Globals.init)
      (handleLoadInst plainModule 5 1 stateOneToThreeFour, Table.empty, Globals.init)
      rfl (by decide) rfl rfl⟩

/-- C8, as the code has it: the renaming at the call followed by the renaming
at the return does not give the state back (1) for the call `call @1(@5)`, whose
argument is a function: from the empty state, the function is put into the `pt`
set of the parameter at the call and the return files that set under the
function; (2) for the call `call @1(%11)` and a state that mentions the
parameter `20` of the callee: the return renames it to the argument; (3) for
the call `call @1(%11, %20)`, whose second argument is the first parameter of
the callee: the renamings run one after the other and `11` comes back as `20`. -/
theorem round_trip_fails :
    (renameReturn callbackModule callCallback 1 none
        (renameCall callbackModule callCallback 1 PointToState.bot) ≠ PointToState.bot ∧
      (renameReturn callbackModule callCallback 1 none
        (renameCall callbackModule callCallback 1 PointToState.bot)).pt.sets 5 = {5}) ∧
    (stateParamToThree.mentions (storeModule.arg 1 0) ∧
      renameReturn storeModule callStore 1 none (renameCall storeModule callStore 1 stateParamToThree)
        ≠ stateParamToThree) ∧
    (¬ roundTripState.mentions (callbackModule.arg 1 0) ∧
      ¬ roundTripState.mentions (callbackModule.arg 1 1) ∧
      renameReturn callbackModule callOwnParam 1 none
        (renameCall callbackModule callOwnParam 1 roundTripState) ≠ roundTripState) := by
  decide

/-- C8, amended: when the parameters of the callee are distinct identities and
no functions, no pointer-typed argument of the call is a function or a
parameter of the callee, the return passes no pointer-typed value, and the
state `S` mentions no parameter that stands at the position of a pointer-typed
argument, then the renaming of `handleCallInst` followed by the renaming of
`handleReturnInst` gives back `S`, keys and sets of `pt` and `field_pt`. -/
theorem call_return_round_trip (M : Module) (ci : CallInst) (callee : Value)
    (retval : Option Value) (S : PointToState)
    (hinj : ∀ i j, i < ci.args.length → j < ci.args.length →
      M.arg callee i = M.arg callee j → i = j)
    (hparam : ∀ i, i < ci.args.length → M.isFunction (M.arg callee i) = false)
    (hargs : ∀ a ∈ ci.args, M.isPointerTy a = true →
      M.isFunction a = false ∧ ∀ i, i < ci.args.length → a ≠ M.arg callee i)
    (hS : ∀ j a, ci.args[j]? = some a → M.isPointerTy a = true →
      ¬ S.mentions (M.arg callee j))
    (hret : ∀ rv, retval = some rv → M.isPointerTy rv = false) :
    renameReturn M ci callee retval (renameCall M ci callee S) = S := by
  have hlA : ∀ e ∈ argMapFrom M callee 0 ci.args [], M.isFunction e.1 = false := by
    intro e he
    rcases mem_argMapFrom M callee ci.args 0 [] e he with h | ⟨j, _, h2, h3, _⟩
    · simp at h
    · exact (hargs e.1 (List.getElem?_mem h2) h3).1
  have hlR : ∀ e ∈ reverseArgMapFrom M callee 0 ci.args [], M.isFunction e.1 = false := by
    intro e he
    rcases mem_reverseArgMapFrom M callee ci.args 0 [] e he with h | ⟨j, h1, _, _, h4⟩
    · simp at h
    · rw [h4]
      simpa using hparam j h1
  have hfix : ∀ v, S.mentions v →
      substAll (reverseArgMapFrom M callee 0 ci.args [])
        (substAll (argMapFrom M callee 0 ci.args []) v) = v := by
    intro v hv
    apply substAll_round_trip M callee ci.args hinj (fun a ha hp => (hargs a ha hp).2)
    intro j a hj hp hva
    exact hS j a hj hp (hva ▸ hv)
  rw [renameCall_eq M ci callee S hlA, renameReturn_eq M ci callee retval _ hret hlR]
  apply PointToState.eq_of_maps
  · simp only
    rw [PointToMap.renameKeysBy_renameMembersBy, PointToMap.renameMembersBy_comp,
      PointToMap.renameKeysBy_comp,
      PointToMap.renameMembersBy_of_fixed _ _
        (fun k hk z hz => hfix z (Or.inl (Or.inr ⟨k, hk, hz⟩))),
      PointToMap.renameKeysBy_of_fixed _ _ (fun k hk => hfix k (Or.inl (Or.inl hk)))]
  · simp only
    rw [PointToMap.renameKeysBy_renameMembersBy, PointToMap.renameMembersBy_comp,
      PointToMap.renameKeysBy_comp,
      PointToMap.renameMembersBy_of_fixed _ _
        (fun k hk z hz => hfix z (Or.inr (Or.inr ⟨k, hk, hz⟩))),
      PointToMap.renameKeysBy_of_fixed _ _ (fun k hk => hfix k (Or.inr (Or.inl hk)))]

/-- C8, amended, at the call `call @1(%11)` of the scenario and a state of the
caller in which `x` is a key, a member and the base of a field. -/
theorem call_return_round_trip_witness :
    renameCall storeModule callStore 1 roundTripState ≠ roundTripState ∧
    renameReturn storeModule callStore 1 none (renameCall storeModule callStore 1 roundTripState)
      = roundTripState :=
  ⟨by decide,
    call_return_round_trip storeModule callStore 1 none roundTripState
      (fun i j hi hj _ => by
        have h1 : i < 1 := hi
        have h2 : j < 1 := hj
        omega)
      (fun i _ => by
        show ((20 + i == 1) || (20 + i == 2)) = false
        simp only [Bool.or_eq_false_iff, beq_eq_false_iff_ne, ne_eq]
        exact ⟨by omega, by omega⟩)
      (fun a ha _ => by
        have h1 : a = 11 := by simpa [callStore] using ha
        subst h1
        refine ⟨rfl, fun i _ => ?_⟩
        show (11 : Nat) ≠ 20 + i
        omega)
      (fun j a hj _ => by
        cases j with
        | zero => decide
        | succ j => simp [callStore] at hj)
      (fun rv h => by simp at h)⟩

/-- C10: a load through a field address whose base has a non-empty `pt` set:
the `pt` set of the loaded value after the load is the union of `field_pt[c]`
over all candidates `c` in `pt[base]` of the state before, whatever the loaded
value had before.  (The loaded value is not the base of its own address: an
instruction is no operand of its operand.) -/
theorem load_field_several_bases (M : Module) (S : PointToState) (li addr base : Value)
    (hgep : M.gepOf addr = some base) (hbase : S.pt.sets base ≠ ∅) (hli : li ≠ base) :
    (handleLoadInst M li addr S).pt.sets li =
      (S.pt.sets base).biUnion (fun c => S.field_pt.sets c) := by
  have hbl : ¬ base = li := fun h => hli h.symm
  simp only [handleLoadInst, hgep, PointToMap.sets_touch, PointToMap.sets_assign, hbl, if_false,
    hbase]
  rw [foldr_loadStep_pt_sets]
  simp

/-- C10 at a load into `52` through the field address `50` over the base `51`,
which points to `60` or `61`: the loaded value gets the fields of both. -/
theorem load_field_several_bases_witness :
    fieldModule.gepOf 50 = some 51 ∧ fieldState.pt.sets 51 ≠ ∅ ∧ (52 : Value) ≠ 51 ∧
    (handleLoadInst fieldModule 52 50 fieldState).pt.sets 52 = {70, 71} :=
  ⟨rfl, by decide, by decide,
    (load_field_several_bases fieldModule fieldState 52 50 51 rfl (by decide) (by decide)).trans
      (by decide)⟩

/-- C11, as the code has it: for the phi `5 = phi [1, 5]` in the state in which
`1` points to `3` and `5` has no entry, the claimed union is `{3, 5}` (the
unbound incoming `5` stands for itself), while the transfer gives `{3}`: the
entry of the phi is cleared first, so the phi as its own incoming value has an
entry, and an empty one. -/
theorem phi_own_incoming_adds_nothing :
    (handlePHINode plainModule 5 [1, 5] stateOneToThree).pt.sets 5 = {3} ∧
    ([1, 5] : List Value).toFinset.biUnion (phiIncoming plainModule stateOneToThree) = {3, 5} := by
  decide

/-- C11, amended: the `pt` set of the phi after the transfer is exactly the
union, over its incoming values `v`, of: nothing if `v` is a null constant;
`{v}` if `v` is a function; nothing if `v` is the phi itself; `{v}` if `v` has
no `pt` entry in the state before; the `pt` set of `v` in the state before
otherwise, whatever the phi had before.  In particular, for an incoming value
other than the phi that is no null constant and no function, the set holds the
`pt` set of the value if it has an entry and the value itself if it has none. -/
theorem phi_transfer_amended (M : Module) (phi : Value) (incoming : List Value)
    (S : PointToState) :
    (handlePHINode M phi incoming S).pt.sets phi =
      incoming.toFinset.biUnion (phiContribution M phi S) ∧
    ∀ v ∈ incoming, v ≠ phi → M.isNull v = false → M.isFunction v = false →
      (v ∈ S.pt.keys → S.pt.sets v ⊆ (handlePHINode M phi incoming S).pt.sets phi) ∧
      (v ∉ S.pt.keys → v ∈ (handlePHINode M phi incoming S).pt.sets phi) := by
  have hmain : (handlePHINode M phi incoming S).pt.sets phi =
      incoming.toFinset.biUnion (phiContribution M phi S) := by
    unfold handlePHINode
    rw [foldl_phiStep_sets M phi S incoming _ rfl (fun k hk => by simp [hk])]
    simp
  refine ⟨hmain, fun v hv hvp hnull hfun => ?_⟩
  have hsub : phiContribution M phi S v ⊆ (handlePHINode M phi incoming S).pt.sets phi := by
    rw [hmain]
    exact Finset.subset_biUnion_of_mem (phiContribution M phi S) (List.mem_toFinset.2 hv)
  constructor
  · intro hk
    have : phiContribution M phi S v = S.pt.sets v := by
      simp [phiContribution, hnull, hfun, hvp, hk]
    rw [← this]
    exact hsub
  · intro hk
    have : phiContribution M phi S v = {v} := by
      simp [phiContribution, hnull, hfun, hvp, hk]
    rw [this] at hsub
    exact hsub (Finset.mem_singleton_self v)

/-- C11, amended, at the scenario: the phi `5 = phi [1, 6]`, where `1` points to
`3` and `6` has no entry, gets both `3` and `6`. -/
theorem phi_transfer_amended_witness :
    (handlePHINode plainModule 5 [1, 6] stateOneToThree).pt.sets 5 = {3, 6} :=
  (phi_transfer_amended plainModule 5 [1, 6] stateOneToThree).1.trans (by decide)

/-- C12: a store of `v` to an address `a` that is no field computation: the `pt`
set of `a` after the store is exactly the overwrite set, the `pt` set of `v` in
the state before if that is not empty and `{v}` otherwise, whatever the address
held before. -/
theorem store_plain_address (M : Module) (S : PointToState) (v a : Value)
    (haddr : M.gepOf a = none) :
    (handleStoreInst M v a S).pt.sets a = overwriteSet S v ∧
    a ∈ (handleStoreInst M v a S).pt.keys := by
  simp [handleStoreInst, haddr, overwriteSet]

/-- C12 at the store `*1 = 7` in the state in which `1` points to `3`: the
address `1` then points to `7` only. -/
theorem store_plain_address_witness :
    plainModule.gepOf 1 = none ∧ (handleStoreInst plainModule 7 1 stateOneToThree).pt.sets 1 = {7} :=
  ⟨rfl, (store_plain_address plainModule stateOneToThree 7 1 rfl).1.trans (by decide)⟩

/-- C13: a store of `v` through a field address over `base`.  If the `pt` set of
`base` is empty or absent, `field_pt[base]` after the store is the overwrite
set and the field of every other identity is as before.  Otherwise
`field_pt[c]` is the overwrite set for every candidate `c` in the `pt` set of
`base`, and the field of every identity that is no candidate is as before (same
set, and a key exactly if it was one). -/
theorem store_field_address (M : Module) (S : PointToState) (v a base : Value)
    (haddr : M.gepOf a = some base) :
    (S.pt.sets base = ∅ →
      (handleStoreInst M v a S).field_pt.sets base = overwriteSet S v ∧
      ∀ k, k ≠ base →
        (handleStoreInst M v a S).field_pt.sets k = S.field_pt.sets k ∧
        (k ∈ (handleStoreInst M v a S).field_pt.keys ↔ k ∈ S.field_pt.keys)) ∧
    (S.pt.sets base ≠ ∅ →
      (∀ c ∈ S.pt.sets base, (handleStoreInst M v a S).field_pt.sets c = overwriteSet S v) ∧
      ∀ k, k ∉ S.pt.sets base →
        (handleStoreInst M v a S).field_pt.sets k = S.field_pt.sets k ∧
        (k ∈ (handleStoreInst M v a S).field_pt.keys ↔ k ∈ S.field_pt.keys)) := by
  have hbase := store_base_sets S v base
  constructor
  · intro hempty
    rw [hempty] at hbase
    simp only [handleStoreInst, haddr, hbase, if_true]
    refine ⟨by simp [overwriteSet], fun k hk => ?_⟩
    simp [hk]
  · intro hne
    simp only [handleStoreInst, haddr, hbase, hne, if_false]
    refine ⟨fun c hc => ?_, fun k hk => ?_⟩
    · rw [foldr_storeStep_sets, if_pos (Finset.mem_val.2 hc)]
      simp [overwriteSet]
    · rw [foldr_storeStep_sets, if_neg (fun h => hk (Finset.mem_val.1 h)), foldr_storeStep_keys]
      simp [hk]

/-- C13 at the store of `9` through the field address `50` over `51`, which
points to `60` or `61`: both fields are overwritten with `{9}`, the field of
`62` keeps `{5}`. -/
theorem store_field_address_witness :
    fieldModule.gepOf 50 = some 51 ∧ storeFieldState.pt.sets 51 ≠ ∅ ∧
    (∀ c ∈ storeFieldState.pt.sets 51,
      (handleStoreInst fieldModule 9 50 storeFieldState).field_pt.sets c = {9}) ∧
    (handleStoreInst fieldModule 9 50 storeFieldState).field_pt.sets 62 = {5} :=
  ⟨rfl, by decide,
    fun c hc => (((store_field_address fieldModule storeFieldState 9 50 51 rfl).2
      (by decide)).1 c hc).trans (by decide),
    by decide⟩

/-- C14: a load into `li` whose address `a` is no field computation gives `li`
exactly the `pt` set of `a` in the state before (empty when `a` has no entry);
a load through a field address over a `base` with an empty or absent `pt` set
gives `li` exactly `field_pt[base]` of the state before; what `li` had before
is dropped in both cases.  (The loaded value is not its own address: an
instruction is no operand of itself.) -/
theorem load_remaining_cases (M : Module) (S : PointToState) (li a : Value) :
    (M.gepOf a = none → li ≠ a →
      (handleLoadInst M li a S).pt.sets li = S.pt.sets a ∧
      (a ∉ S.pt.keys → (handleLoadInst M li a S).pt.sets li = ∅)) ∧
    (∀ base, M.gepOf a = some base → S.pt.sets base = ∅ →
      (handleLoadInst M li a S).pt.sets li = S.field_pt.sets base) := by
  constructor
  · intro haddr hne
    have hal : ¬ a = li := fun h => hne h.symm
    have hmain : (handleLoadInst M li a S).pt.sets li = S.pt.sets a := by
      simp [handleLoadInst, haddr, hal]
    exact ⟨hmain, fun hk => by rw [hmain, S.pt.absent a hk]⟩
  · intro base haddr hempty
    by_cases hb : base = li
    · simp [handleLoadInst, haddr, hb]
    · simp [handleLoadInst, haddr, hb, hempty]

/-- C14 at the load of `5` from the plain address `1`, which points to `3`, and
at the load of `52` through the field address `50` over `51`, which has no `pt`
set and whose field holds `7`; `52` pointed to `99` before. -/
theorem load_remaining_cases_witness :
    (handleLoadInst plainModule 5 1 stateOneToThree).pt.sets 5 = {3} ∧
    (handleLoadInst fieldModule 52 50 fieldUnresolvedState).pt.sets 52 = {7} :=
  ⟨(((load_remaining_cases plainModule stateOneToThree 5 1).1 rfl (by decide)).1).trans
      (by decide),
    ((load_remaining_cases fieldModule fieldUnresolvedState 52 50).2 51 rfl (by decide)).trans
      (by decide)⟩

/-- C15: a field-address computation `r` over the base `b`: the `pt` set of `r`
after the transfer is the `pt` set of `b` in the state before if that is not
empty and `{b}` otherwise, whatever `r` had before; no identity other than the
base and its targets appears in it.  (The instruction is not its own base.) -/
theorem gep_is_alias_of_base (S : PointToState) (r b : Value) (hrb : r ≠ b) :
    (handleGetElementPtrInst r b S).pt.sets r =
      (if S.pt.sets b = ∅ then {b} else S.pt.sets b) ∧
    (handleGetElementPtrInst r b S).pt.sets r ⊆ insert b (S.pt.sets b) := by
  have hbr : ¬ b = r := fun h => hrb h.symm
  have hmain : (handleGetElementPtrInst r b S).pt.sets r =
      (if S.pt.sets b = ∅ then {b} else S.pt.sets b) := by
    unfold handleGetElementPtrInst
    by_cases hempty : S.pt.sets b = ∅
    · simp [hempty, hbr, hrb]
    · simp [hempty, hbr]
  refine ⟨hmain, ?_⟩
  rw [hmain]
  split
  · exact Finset.singleton_subset_iff.2 (Finset.mem_insert_self _ _)
  · exact Finset.subset_insert _ _

/-- C15 at the field address `5` over the base `1`, which points to `3`, and
over the base `2`, which has no `pt` set. -/
theorem gep_is_alias_of_base_witness :
    (handleGetElementPtrInst 5 1 stateOneToThree).pt.sets 5 = {3} ∧
    (handleGetElementPtrInst 5 2 stateOneToThree).pt.sets 5 = {2} :=
  ⟨(gep_is_alias_of_base stateOneToThree 5 1 (by decide)).1.trans (by decide),
    (gep_is_alias_of_base stateOneToThree 5 2 (by decide)).1.trans (by decide)⟩

/-- C16: a memory copy whose two operands are pointer casts of `dst` and `src`
makes the `pt` set of `dst` the `pt` set of `src` in the state before and
`field_pt[dst]` the `field_pt[src]` of the state before, also when `dst` is
`src`; when one of the operands is no such cast the state is unchanged. -/
theorem memcpy_copies_both_maps (M : Module) (S : PointToState) (dstOp srcOp : Value) :
    (∀ dst src, M.bitcastOf dstOp = some dst → M.bitcastOf srcOp = some src →
      (handleMemCpyInst M dstOp srcOp S).pt.sets dst = S.pt.sets src ∧
      (handleMemCpyInst M dstOp srcOp S).field_pt.sets dst = S.field_pt.sets src ∧
      dst ∈ (handleMemCpyInst M dstOp srcOp S).pt.keys ∧
      dst ∈ (handleMemCpyInst M dstOp srcOp S).field_pt.keys) ∧
    ((M.bitcastOf dstOp = none ∨ M.bitcastOf srcOp = none) →
      handleMemCpyInst M dstOp srcOp S = S) := by
  constructor
  · intro dst src hd hs
    simp [handleMemCpyInst, hd, hs]
  · intro h
    unfold handleMemCpyInst
    rcases h with h | h
    · rw [h]
    · rw [h]
      cases M.bitcastOf dstOp <;> rfl

/-- C16 at the copy from the cast `81` of `11` to the cast `80` of `12`, and at
a copy whose source `11` is no cast. -/
theorem memcpy_copies_both_maps_witness :
    ((handleMemCpyInst castModule 80 81 roundTripState).pt.sets 12 = {10} ∧
      (handleMemCpyInst castModule 80 81 roundTripState).field_pt.sets 12 = {13}) ∧
    handleMemCpyInst castModule 80 11 roundTripState = roundTripState :=
  ⟨⟨(((memcpy_copies_both_maps castModule roundTripState 80 81).1 12 11 rfl rfl).1).trans
        (by decide),
      (((memcpy_copies_both_maps castModule roundTripState 80 81).1 12 11 rfl rfl).2.1).trans
        (by decide)⟩,
    (memcpy_copies_both_maps castModule roundTripState 80 11).2 (Or.inr rfl)⟩

/-- C17: an instruction that is no memory copy, phi, store, load, field-address
computation, call or return (any other intrinsic, a cast, an allocation, ...)
is handled without any change: the transfer returns the same state, the same
table of the blocks and the same tables of the visitor. -/
theorem unmodelled_is_noop (M : Module) (o : Order) (fuel : Nat) (inst : Instruction)
    (S : PointToState) (bbresult : Table PointToState) (g : Globals)
    (hinst : inst.isModelled = false) :
    compDFVal M o fuel inst S bbresult g = some (S, bbresult, g) := by
  cases inst <;> first | rfl | simp [Instruction.isModelled] at hinst

/-- C17 at an intrinsic other than the memory copy, in the state of the
scenario. -/
theorem unmodelled_is_noop_witness :
    Instruction.intrinsic.isModelled = false ∧
    compDFVal storeModule Order.asc 0 .intrinsic roundTripState Table.empty Globals.init =
      some (roundTripState, Table.empty, Globals.init) :=
  ⟨rfl, unmodelled_is_noop storeModule Order.asc 0 .intrinsic roundTripState Table.empty
    Globals.init rfl⟩


/-- C18: `getFunctions(v, S)` returns the singleton `{v}` when `v` is a
function.  Otherwise, when the `pt` chains that start at `v` contain no cycle,
it terminates in every order of extraction (it returns with every number of
turns from some number on) and returns exactly the functions that are reached
from `v` by one or more `pt` steps through values that are no functions; the
set is empty when `v` has no `pt` entry. -/
theorem getFunctions_resolves (M : Module) (o : Order) (S : PointToState) (v : Value) :
    (M.isFunction v = true → ∀ fuel, getFunctions M o fuel v S = some ({v}, S)) ∧
    (M.isFunction v = false → ptAcyclicFrom M S v →
      ∃ n, ∀ fuel, n ≤ fuel → ∃ r, getFunctions M o fuel v S = some r ∧
        (∀ f, f ∈ r.1 ↔ M.isFunction f = true ∧ Relation.TransGen (ptEdge M S) v f) ∧
        (v ∉ S.pt.keys → r.1 = ∅)) := by
  constructor
  · intro hfun fuel
    exact getFunctions_of_isFunction M o fuel v S hfun
  · intro hfun hac
    have hwl : (if S.pt.count v = true then S.pt.sets v else ∅) = S.pt.sets v := by
      by_cases hk : v ∈ S.pt.keys
      · rw [(S.pt.count_eq_true v).2 hk, if_pos rfl]
      · rw [S.pt.absent v hk]
        split <;> rfl
    obtain ⟨n, hn⟩ := getFunctionsLoop_resolves M o S v (chainStep_wellFounded M S v hac)
      (S.pt.sets v).val (S.pt.sets v) rfl
      (fun x hx => Relation.ReflTransGen.single ⟨hfun, hx⟩) ∅ S rfl
    refine ⟨n, fun fuel hfuel => ?_⟩
    obtain ⟨r, hr, hiff⟩ := hn fuel hfuel
    have hres : ∀ f, f ∈ r.1 ↔
        M.isFunction f = true ∧ Relation.TransGen (ptEdge M S) v f := by
      intro f
      rw [hiff f, Relation.TransGen.head'_iff]
      constructor
      · rintro (h | ⟨hf, x, hx, hxf⟩)
        · simp at h
        · exact ⟨hf, x, ⟨hfun, hx⟩, hxf⟩
      · rintro ⟨hf, x, hedge, hxf⟩
        exact Or.inr ⟨hf, x, hedge.2, hxf⟩
    refine ⟨r, ?_, hres, fun hk => ?_⟩
    · unfold getFunctions
      simp only [hfun, Bool.false_eq_true, if_false, hwl]
      exact hr
    · ext f
      rw [hres f, Relation.TransGen.head'_iff]
      simp only [Finset.not_mem_empty, iff_false, not_and, not_exists]
      intro _ x hedge
      exact absurd (ptEdge_mem_keys hedge) hk

/-- C18 at the value `41` of the state with the chains `41 → 43 → 4`, `41 → 3`
and `43 → 3`, where `3` and `4` are functions: the resolution terminates and
gives `{3, 4}`; four turns are enough in increasing order. -/
theorem getFunctions_resolves_witness :
    twoCalleeModule.isFunction 41 = false ∧
    (∃ n, ∀ fuel, n ≤ fuel → ∃ r,
      getFunctions twoCalleeModule Order.asc fuel 41 chainState = some r ∧
      (∀ f, f ∈ r.1 ↔ twoCalleeModule.isFunction f = true ∧
        Relation.TransGen (ptEdge twoCalleeModule chainState) 41 f) ∧
      (41 ∉ chainState.pt.keys → r.1 = ∅)) ∧
    (∃ r, getFunctions twoCalleeModule Order.asc 4 41 chainState = some r ∧ r.1 = {3, 4}) :=
  ⟨rfl, (getFunctions_resolves twoCalleeModule Order.asc chainState 41).2 rfl chainState_acyclic,
    _, rfl, by decide⟩


/-- C19, as the code has it: in the module in which `5` is a declaration, the
call through the pointer `41`, which points to `5` only, resolves to `{5}`,
skips the declaration in the loop over the callees and then replaces the local
state by the out summary of the call, which is empty: the state in which `7`
points to `8` is lost.  The direct call `call @5()` returns before that and
leaves the state as it is. -/
theorem indirect_call_to_declaration_drops_state :
    callbackModule.isDeclaration 5 = true ∧
    (getFunctions callbackModule Order.asc 1 callThroughPointer.called declPointerState).map
      (fun r => r.1) = some {5} ∧
    (handleCallInst callbackModule Order.asc 1 callThroughPointer declPointerState Table.empty
      Globals.init).map (fun r => r.1) = some PointToState.bot ∧
    declPointerState ≠ PointToState.bot ∧
    (handleCallInst callbackModule Order.asc 1 callDeclaration declPointerState Table.empty
      Globals.init).map (fun r => r.1) = some declPointerState := by
  decide

/-- C20, as the code has it: the direct call `call @1(%11)` to the function `1`,
which has a body, handled in the state of the scenario with empty tables,
leaves the in summary of the call empty: the state is merged into the local
copy `old_instate`, which is dropped.  The state is not below the stored in
summary. -/
theorem call_in_summary_is_not_written :
    storeModule.isDeclaration 1 = false ∧
    (handleCallInst storeModule Order.asc 1 callStore roundTripState Table.empty
      Globals.init).map (fun r => (r.2.2.instresult.get PointToState.bot callStore.id).1) =
      some PointToState.bot ∧
    ¬ roundTripState.le PointToState.bot := by
  decide


/-- C21, as the code has it: the call `call @1(%11, %11)` passes the pointer
`11`, which points to `10`, at both positions.  The map from caller arguments
to parameters keeps one entry for `11`, that of position 0: the state merged
into the in summary of the entry block `101` of the callee has a `pt` entry for
the parameter `20` of position 0 and none for the parameter `21` of position
1.  At the call `call @1(%11, %12)` with two distinct pointers both parameters
get their entry. -/
theorem duplicate_argument_reaches_one_parameter :
    (argMapFrom storeModule 1 0 callTwice.args [] = [(11, 20)]
        ∧ storeModule.isPointerTy 11 = true ∧ 11 ∈ stateXToG.pt.keys
        ∧ storeModule.arg 1 1 = 21
        ∧ ∃ r, handleCallInst storeModule Order.asc 1 callTwice stateXToG Table.empty
              Globals.init = some r
            ∧ (r.2.1.get PointToState.bot 101).1.pt.keys = {20}
            ∧ (r.2.1.get PointToState.bot 101).1.pt.sets 20 = {10}
            ∧ 21 ∉ (r.2.1.get PointToState.bot 101).1.pt.keys)
      ∧ ∃ r, handleCallInst callbackModule Order.asc 1 callPair roundTripState Table.empty
            Globals.init = some r
          ∧ (r.2.1.get PointToState.bot 101).1.pt.keys = {20, 21}
          ∧ (r.2.1.get PointToState.bot 101).1.pt.sets 20 = {10}
          ∧ (r.2.1.get PointToState.bot 101).1.pt.sets 21 = {20} :=
  ⟨⟨by decide, by decide, by decide, by decide, _, rfl, by decide, by decide, by decide⟩,
    _, rfl, by decide, by decide, by decide⟩

/-- C22, as the code has it: the call `call @1(@5, @5)` passes the function `5`
at both positions.  After the call the in summary of the entry block `101` of
the callee has `5` in the `pt` set of the parameter `20` of position 0, and the
parameter `21` of position 1 has no `pt` set.  At the call `call @1(@5, @1)`
with two distinct functions each parameter has its function. -/
theorem duplicate_callback_reaches_one_parameter :
    (callbackModule.isFunction 5 = true ∧ callbackModule.isDeclaration 1 = false
        ∧ callbackModule.arg 1 1 = 21
        ∧ ∃ r, handleCallInst callbackModule Order.asc 1 callCallbackTwice PointToState.bot
              Table.empty Globals.init = some r
            ∧ (r.2.1.get PointToState.bot 101).1.pt.sets 20 = {5}
            ∧ 5 ∉ (r.2.1.get PointToState.bot 101).1.pt.sets 21
            ∧ 21 ∉ (r.2.1.get PointToState.bot 101).1.pt.keys)
      ∧ ∃ r, handleCallInst callbackModule Order.asc 1 callCallbackPair PointToState.bot
            Table.empty Globals.init = some r
          ∧ (r.2.1.get PointToState.bot 101).1.pt.sets 20 = {5}
          ∧ (r.2.1.get PointToState.bot 101).1.pt.sets 21 = {1} :=
  ⟨⟨by decide, by decide, by decide, _, rfl, by decide, by decide, by decide⟩,
    _, rfl, by decide, by decide⟩

/-- C23: a call that is no direct call to a declaration.  A direct call is
handled whatever the bound on the loops is; and whenever the call is handled,
the local state after it is the out summary stored for the call site, which is
the one stored before the call: the state at the call has no part in it, and a
key that the summary does not have is not a key of the local state. -/
theorem call_outgoing_state (M : Module) (o : Order) (fuel : Nat) (ci : CallInst)
    (S : PointToState) (bbresult : Table PointToState) (g : Globals)
    (hd : (M.isFunction ci.called && M.isDeclaration ci.called) = false) :
    (M.isFunction ci.called = true → ∃ r, handleCallInst M o fuel ci S bbresult g = some r)
      ∧ ∀ r, handleCallInst M o fuel ci S bbresult g = some r →
        r.1 = (r.2.2.instresult.get PointToState.bot ci.id).2
          ∧ r.1 = (g.instresult.get PointToState.bot ci.id).2
          ∧ (∀ k, k ∉ (r.2.2.instresult.get PointToState.bot ci.id).2.pt.keys →
              k ∉ r.1.pt.keys)
          ∧ (∀ k, k ∉ (r.2.2.instresult.get PointToState.bot ci.id).2.field_pt.keys →
              k ∉ r.1.field_pt.keys) := by
  constructor
  · intro hf
    unfold handleCallInst
    rw [getFunctions_of_isFunction M o fuel _ _ hf]
    simp only [hd, Bool.false_eq_true, if_false]
    exact ⟨_, rfl⟩
  · intro r h
    have h1 := handleCallInst_state M o fuel ci S bbresult g r h
    have h2 := handleCallInst_instresult M o fuel ci S bbresult g r h hd
    rw [if_neg (by simp [hd])] at h1
    have h3 : r.1 = (r.2.2.instresult.get PointToState.bot ci.id).2 := by rw [h2]; exact h1
    refine ⟨h3, ?_, ?_, ?_⟩
    · rw [h1]
      exact congrArg Prod.snd (Table.get_touch g.instresult PointToState.bot ci.id ci.id)
    · intro k hk
      rw [h3]
      exact hk
    · intro k hk
      rw [h3]
      exact hk

/-- C23 at the call `call @1(%11)` of the scenario, handled with empty tables in
the state in which `11` points to `10`: the local state after the call is the
empty out summary, in which `11` has no set. -/
theorem call_outgoing_state_witness :
    ∃ r, handleCallInst storeModule Order.asc 1 callStore stateXToG Table.empty Globals.init
        = some r
      ∧ r.1 = PointToState.bot ∧ 11 ∈ stateXToG.pt.keys ∧ 11 ∉ r.1.pt.keys :=
  ⟨_, rfl,
    (((call_outgoing_state storeModule Order.asc 1 callStore stateXToG Table.empty Globals.init
      (by decide)).2 _ rfl).2.1).trans (by decide),
    by decide, by decide⟩

/-- C24, as the code has it: (1) at the recursive call `call @1(%20)` inside the
function `1`, the argument is the parameter `20` itself: the state merged into
the out summary at a return of `1` still has the parameter as a key; (2) when
the function returns its parameter `20`, the set of `20` is filed under the call
and the key `20` is erased before the parameters are renamed: the out summary
of `%33 = call @1(%11)` has no set for the argument `11`; (3) the call
`%45 = call @1(%12)` is on the line of `callPlain`, which has been recorded
first: the callee set looked up for it contains `1`, the table has no entry
under it, and a return of `1` leaves its out summary empty, without a set for
its argument `12`. -/
theorem return_keeps_parameter_of_recursive_call :
    (callbackModule.arg 1 0 = 20
        ∧ (renameReturn callbackModule callRecursive 1 none stateParamToThree).mentions 20
        ∧ ((handleReturnInst callbackModule 1 none stateParamToThree
              (edgeToOne callRecursive)).instresult.get PointToState.bot 34).2.pt.keys = {20})
      ∧ (20 ∈ stateParamToThree.pt.keys
        ∧ ((handleReturnInst callbackModule 1 (some 20) stateParamToThree
              (edgeToOne callPlain)).instresult.get PointToState.bot 33).2.pt.keys = {33}
        ∧ 11 ∉ ((handleReturnInst callbackModule 1 (some 20) stateParamToThree
              (edgeToOne callPlain)).instresult.get PointToState.bot 33).2.pt.keys)
      ∧ (1 ∈ callReturnGet edgesSameLine.call_return callPlainSameLine
        ∧ edgesSameLine.call_return = [(callPlain, {1})]
        ∧ 12 ∉ ((handleReturnInst callbackModule 1 none stateParamToThree
              edgesSameLine).instresult.get PointToState.bot 45).2.pt.keys
        ∧ 11 ∈ ((handleReturnInst callbackModule 1 none stateParamToThree
              edgesSameLine).instresult.get PointToState.bot 33).2.pt.keys) := by
  decide

/-- C24, amended: a return of the function `F` in state `S`, a call site `ci`
whose recorded callee set contains `F` and on whose source line no other call
has been recorded, the parameters of `F` distinct values that are no functions,
no pointer-typed argument of the call a parameter of `F`, and the returned
value, when pointer-typed, no parameter of `F`.  For every
position `i` with a pointer-typed argument `a`: the renaming `τ` of the return
sends the parameter of position `i` to `a` and fixes every value that is no
parameter of a pointer-typed position; if the parameter has a `pt` entry in `S`
then `a` has one in the out summary afterwards, with the renamed members of
the set of the parameter, and the same for `field_pt`; and the state merged into
the summary does not mention the parameter. -/
theorem return_flow_of_parameters (M : Module) (F : Value) (retval : Option Value)
    (S : PointToState) (g : Globals) (ci : CallInst)
    (hrec : F ∈ callReturnGet g.call_return ci)
    (hkey : ∀ e ∈ g.call_return, e.1.line = ci.line → e.1 = ci)
    (hinj : ∀ i j, i < ci.args.length → j < ci.args.length → M.arg F i = M.arg F j → i = j)
    (hparam : ∀ i, i < ci.args.length → M.isFunction (M.arg F i) = false)
    (hargs : ∀ a ∈ ci.args, M.isPointerTy a = true →
      ∀ i, i < ci.args.length → a ≠ M.arg F i)
    (hret : ∀ rv, retval = some rv → M.isPointerTy rv = true →
      ∀ i, i < ci.args.length → rv ≠ M.arg F i)
    (i : Nat) (a : Value) (hget : ci.args[i]? = some a) (hp : M.isPointerTy a = true) :
    substAll (reverseArgMapFrom M F 0 ci.args []) (M.arg F i) = a
      ∧ (∀ v, (∀ j b, ci.args[j]? = some b → M.isPointerTy b = true → v ≠ M.arg F j) →
          substAll (reverseArgMapFrom M F 0 ci.args []) v = v)
      ∧ (M.arg F i ∈ S.pt.keys →
          a ∈ ((handleReturnInst M F retval S g).instresult.get PointToState.bot ci.id).2.pt.keys
          ∧ (S.pt.sets (M.arg F i)).image (substAll (reverseArgMapFrom M F 0 ci.args []))
            ⊆ ((handleReturnInst M F retval S g).instresult.get
                PointToState.bot ci.id).2.pt.sets a)
      ∧ (M.arg F i ∈ S.field_pt.keys →
          a ∈ ((handleReturnInst M F retval S g).instresult.get
                PointToState.bot ci.id).2.field_pt.keys
          ∧ (S.field_pt.sets (M.arg F i)).image (substAll (reverseArgMapFrom M F 0 ci.args []))
            ⊆ ((handleReturnInst M F retval S g).instresult.get
                PointToState.bot ci.id).2.field_pt.sets a)
      ∧ ¬ (renameReturn M ci F retval S).mentions (M.arg F i) := by
  obtain ⟨fs, hmem, hF⟩ := callReturn_own_entry ci F g.call_return hrec hkey
  have hi : i < ci.args.length := by
    by_contra hlt
    rw [List.getElem?_eq_none (by omega)] at hget
    simp at hget
  have hτ := substAll_reverse_param M F ci.args hinj hargs i a hget hp
  have hne := substAll_reverse_ne_param M F ci.args hargs i a hget hp
  have hle := handleReturnInst_merged M F retval S g ci fs hmem hF
  have heq := renameReturn_eq_retval M ci F retval S
    (reverseArgMap_not_function M F ci.args hparam)
  -- the state before the renaming of the parameters has the entries of the parameter
  have hkeys0 : M.arg F i ∈ S.pt.keys → M.arg F i ∈ (renameRetval M ci retval S).pt.keys := by
    intro hk
    cases retval with
    | none => exact hk
    | some rv =>
      by_cases hrv : M.isPointerTy rv = true
      · have hne' := hret rv rfl hrv i hi
        rw [renameRetval_of_pointer M ci rv S hrv]
        simp only [PointToMap.keys_insertAll, PointToMap.keys_erase, PointToMap.keys_touch,
          Finset.mem_insert, Finset.mem_erase]
        exact Or.inr ⟨fun h => hne' h.symm, Or.inr hk⟩
      · rw [renameRetval_of_not_pointer M ci _ S (fun rv' h => by
          cases h; simpa using hrv)]
        exact hk
  have hsets0 : S.pt.sets (M.arg F i) ⊆ (renameRetval M ci retval S).pt.sets (M.arg F i) := by
    cases retval with
    | none => exact Finset.Subset.refl _
    | some rv =>
      by_cases hrv : M.isPointerTy rv = true
      · have hne' := hret rv rfl hrv i hi
        rw [renameRetval_of_pointer M ci rv S hrv]
        intro z hz
        simp only [PointToMap.sets_insertAll, PointToMap.sets_erase, PointToMap.sets_touch]
        have h1 : M.arg F i ≠ rv := fun h => hne' h.symm
        split
        · rename_i h
          rw [← h, if_neg h1]
          exact Finset.mem_union_left _ hz
        · exact hz
      · rw [renameRetval_of_not_pointer M ci _ S (fun rv' h => by
          cases h; simpa using hrv)]
  refine ⟨hτ, ?_, ?_, ?_, ?_⟩
  · intro v hv
    apply substAll_of_not_key
    intro e he hev
    obtain ⟨j, _, h2, h3, h4⟩ := reverseArgMap_entry M F ci.args e he
    exact hv j e.2 h2 h3 (hev.symm.trans h4)
  · intro hk
    have hk1 : a ∈ (renameReturn M ci F retval S).pt.keys := by
      rw [heq]
      exact (PointToMap.mem_keys_renameKeysBy _ _ _).2 ⟨M.arg F i, hkeys0 hk, hτ⟩
    refine ⟨hle.1.1 hk1, ?_⟩
    intro z hz
    obtain ⟨z', hz', rfl⟩ := Finset.mem_image.1 hz
    apply hle.1.2 a
    rw [heq]
    exact (PointToMap.mem_sets_renameKeysBy _ _ _ _).2
      ⟨M.arg F i, hτ, (PointToMap.mem_sets_renameMembersBy _ _ _ _).2 ⟨z', hsets0 hz', rfl⟩⟩
  · intro hk
    have hk1 : a ∈ (renameReturn M ci F retval S).field_pt.keys := by
      rw [heq]
      exact (PointToMap.mem_keys_renameKeysBy _ _ _).2 ⟨M.arg F i, hk, hτ⟩
    refine ⟨hle.2.1 hk1, ?_⟩
    intro z hz
    obtain ⟨z', hz', rfl⟩ := Finset.mem_image.1 hz
    apply hle.2.2 a
    rw [heq]
    exact (PointToMap.mem_sets_renameKeysBy _ _ _ _).2
      ⟨M.arg F i, hτ, (PointToMap.mem_sets_renameMembersBy _ _ _ _).2 ⟨z', hz', rfl⟩⟩
  · rw [heq]
    rintro (h | h) <;> rcases h with h | ⟨k, hk, h⟩
    · obtain ⟨k', _, hk'⟩ := (PointToMap.mem_keys_renameKeysBy _ _ _).1 h
      exact hne k' hk'
    · obtain ⟨k', _, hz⟩ := (PointToMap.mem_sets_renameKeysBy _ _ _ _).1 h
      obtain ⟨z', _, hz'⟩ := (PointToMap.mem_sets_renameMembersBy _ _ _ _).1 hz
      exact hne z' hz'
    · obtain ⟨k', _, hk'⟩ := (PointToMap.mem_keys_renameKeysBy _ _ _).1 h
      exact hne k' hk'
    · obtain ⟨k', _, hz⟩ := (PointToMap.mem_sets_renameKeysBy _ _ _ _).1 h
      obtain ⟨z', _, hz'⟩ := (PointToMap.mem_sets_renameMembersBy _ _ _ _).1 hz
      exact hne z' hz'

/-- C24, amended, at a return of the function `1` of the scenario in the state in
which the parameter `20` points to `3`, for the call `%33 = call @1(%11)` of the
caller `2`: `11` has a `pt` entry in the out summary afterwards. -/
theorem return_flow_of_parameters_witness :
    20 ∈ stateParamToThree.pt.keys
      ∧ 11 ∈ ((handleReturnInst callbackModule 1 none stateParamToThree
          (edgeToOne callPlain)).instresult.get PointToState.bot callPlain.id).2.pt.keys :=
  ⟨by decide,
    ((return_flow_of_parameters callbackModule 1 none stateParamToThree (edgeToOne callPlain)
      callPlain (by decide) (by decide)
      (fun i j _ _ h => by
        have h' : 20 + i = 20 + j := h
        omega)
      (fun i _ => by
        show ((20 + i == 1) || (20 + i == 5)) = false
        simp only [Bool.or_eq_false_iff, beq_eq_false_iff_ne, ne_eq]
        exact ⟨by omega, by omega⟩)
      (fun a ha _ i _ => by
        have h1 : a = 11 := by simpa [callPlain] using ha
        subst h1
        show (11 : Nat) ≠ 20 + i
        omega)
      (fun rv h => by cases h)
      0 11 rfl rfl).2.2.1 (by decide)).1⟩

/-- C25, as the code has it: (1) the function `1` returns the value `25`, which
points to the parameter `20`; at the call `%33 = call @1(%11)` the set of `25` is
filed under `33` and the parameter in it is then renamed to the argument `11`:
the out summary has `11` in the set of `33`, and not the member `20` of the set
of the returned value; (2) at the recursive call `%35 = call @1(%21, %20)`, whose
arguments are the parameters of the callee, the renamings run one after the
other, `20` to `21` and then `21` to `20`: the set of `35` is `{20}`, without the
argument `21` of the position of the parameter `20`; (3) for the call
`%45 = call @1(%12)`, recorded on the line of `callPlain`, the callee set looked
up contains `1`, and a return of `1` gives it no `pt` entry for `45`. -/
theorem returned_set_is_renamed :
    (callbackModule.isPointerTy 25 = true ∧ stateRetToParam.pt.sets 25 = {20}
        ∧ ((handleReturnInst callbackModule 1 (some 25) stateRetToParam
              (edgeToOne callPlain)).instresult.get PointToState.bot 33).2.pt.sets 33 = {11}
        ∧ ¬ stateRetToParam.pt.sets 25
            ⊆ ((handleReturnInst callbackModule 1 (some 25) stateRetToParam
                (edgeToOne callPlain)).instresult.get PointToState.bot 33).2.pt.sets 33)
      ∧ (callbackModule.arg 1 0 = 20 ∧ callSwappedParams.args[0]? = some 21
        ∧ ((handleReturnInst callbackModule 1 (some 25) stateRetToParam
              (edgeToOne callSwappedParams)).instresult.get PointToState.bot 35).2.pt.sets 35
            = {20})
      ∧ (1 ∈ callReturnGet edgesSameLine.call_return callPlainSameLine
        ∧ 45 ∉ ((handleReturnInst callbackModule 1 (some 25) stateTwentyFiveToThree
              edgesSameLine).instresult.get PointToState.bot 45).2.pt.keys) := by
  decide

/-- C25, amended: a return of the pointer-typed value `rv` by the function `F` in
state `S`, a call site `ci` whose recorded callee set contains `F` and on whose
source line no other call has been recorded, the parameters of `F` distinct
values that are no functions, no pointer-typed argument of the call a parameter
of `F`, and the call instruction no parameter of `F`.  The renaming `τ` of the
return sends the parameter of every position with a pointer-typed argument to
that argument and fixes every value that is no parameter of such a position.
The out summary of the call afterwards has a `pt` entry for the call
instruction, which contains the renamed members of the set of `rv`, so the set
of `rv` itself when no member is a parameter.  The state merged into the summary
has no `pt` key `rv`, when `rv` is neither the call instruction nor one of its
arguments.  When the returned value is not pointer-typed, or there is none, the
merged state has a `pt` key for the call instruction only if `S` has it or the
call instruction is one of its own arguments. -/
theorem return_value_flow (M : Module) (F : Value) (rv : Value) (S : PointToState)
    (g : Globals) (ci : CallInst)
    (hrec : F ∈ callReturnGet g.call_return ci)
    (hkey : ∀ e ∈ g.call_return, e.1.line = ci.line → e.1 = ci)
    (hptr : M.isPointerTy rv = true)
    (hinj : ∀ i j, i < ci.args.length → j < ci.args.length → M.arg F i = M.arg F j → i = j)
    (hparam : ∀ i, i < ci.args.length → M.isFunction (M.arg F i) = false)
    (hargs : ∀ a ∈ ci.args, M.isPointerTy a = true →
      ∀ i, i < ci.args.length → a ≠ M.arg F i)
    (hci : ∀ i, i < ci.args.length → ci.id ≠ M.arg F i) :
    (∀ i a, ci.args[i]? = some a → M.isPointerTy a = true →
        substAll (reverseArgMapFrom M F 0 ci.args []) (M.arg F i) = a)
      ∧ (∀ v, (∀ j b, ci.args[j]? = some b → M.isPointerTy b = true → v ≠ M.arg F j) →
          substAll (reverseArgMapFrom M F 0 ci.args []) v = v)
      ∧ ci.id ∈ ((handleReturnInst M F (some rv) S g).instresult.get
          PointToState.bot ci.id).2.pt.keys
      ∧ (S.pt.sets rv).image (substAll (reverseArgMapFrom M F 0 ci.args []))
          ⊆ ((handleReturnInst M F (some rv) S g).instresult.get
              PointToState.bot ci.id).2.pt.sets ci.id
      ∧ ((∀ z ∈ S.pt.sets rv, ∀ i, i < ci.args.length → z ≠ M.arg F i) →
          S.pt.sets rv ⊆ ((handleReturnInst M F (some rv) S g).instresult.get
              PointToState.bot ci.id).2.pt.sets ci.id)
      ∧ (rv ≠ ci.id → rv ∉ ci.args → rv ∉ (renameReturn M ci F (some rv) S).pt.keys)
      ∧ ∀ retval : Option Value, (∀ v, retval = some v → M.isPointerTy v = false) →
          ci.id ∉ S.pt.keys → ci.id ∉ ci.args →
          ci.id ∉ (renameReturn M ci F retval S).pt.keys := by
  obtain ⟨fs, hmem, hF⟩ := callReturn_own_entry ci F g.call_return hrec hkey
  have hl := reverseArgMap_not_function M F ci.args hparam
  have hle := handleReturnInst_merged M F (some rv) S g ci fs hmem hF
  have heq := renameReturn_eq_retval M ci F (some rv) S hl
  have hfix : ∀ v, (∀ i, i < ci.args.length → v ≠ M.arg F i) →
      substAll (reverseArgMapFrom M F 0 ci.args []) v = v := by
    intro v hv
    apply substAll_of_not_key
    intro e he hev
    obtain ⟨j, hj, _, _, h4⟩ := reverseArgMap_entry M F ci.args e he
    exact hv j hj (hev.symm.trans h4)
  have hτ := hfix ci.id hci
  have hkeyci : ci.id ∈ (renameReturn M ci F (some rv) S).pt.keys := by
    rw [heq]
    refine (PointToMap.mem_keys_renameKeysBy _ _ _).2 ⟨ci.id, ?_, hτ⟩
    rw [PointToMap.keys_renameMembersBy, renameRetval_of_pointer M ci rv S hptr]
    simp
  have himg : (S.pt.sets rv).image (substAll (reverseArgMapFrom M F 0 ci.args []))
      ⊆ (renameReturn M ci F (some rv) S).pt.sets ci.id := by
    intro z hz
    obtain ⟨z', hz', rfl⟩ := Finset.mem_image.1 hz
    rw [heq]
    refine (PointToMap.mem_sets_renameKeysBy _ _ _ _).2 ⟨ci.id, hτ,
      (PointToMap.mem_sets_renameMembersBy _ _ _ _).2 ⟨z', ?_, rfl⟩⟩
    rw [renameRetval_of_pointer M ci rv S hptr]
    simp only [PointToMap.sets_insertAll, if_true]
    exact Finset.mem_union_right _ hz'
  refine ⟨fun i a hget hp => substAll_reverse_param M F ci.args hinj hargs i a hget hp, ?_,
    hle.1.1 hkeyci, himg.trans (hle.1.2 ci.id), ?_, ?_, ?_⟩
  · intro v hv
    apply substAll_of_not_key
    intro e he hev
    obtain ⟨j, _, h2, h3, h4⟩ := reverseArgMap_entry M F ci.args e he
    exact hv j e.2 h2 h3 (hev.symm.trans h4)
  · intro hz z hzm
    apply hle.1.2 ci.id
    apply himg
    exact Finset.mem_image.2 ⟨z, hzm, hfix z (hz z hzm)⟩
  · intro h1 h2 hk
    rw [heq] at hk
    obtain ⟨k, hk0, hk1⟩ := (PointToMap.mem_keys_renameKeysBy _ _ _).1 hk
    rw [PointToMap.keys_renameMembersBy, renameRetval_of_pointer M ci rv S hptr] at hk0
    rcases substAll_reverse_mem_args M F ci.args k with h | h
    · rw [h] at hk1
      subst hk1
      simp only [PointToMap.keys_insertAll, PointToMap.keys_erase, PointToMap.keys_touch,
        Finset.mem_insert, Finset.mem_erase] at hk0
      rcases hk0 with h3 | h3
      · exact h1 h3
      · exact h3.1 rfl
    · rw [hk1] at h
      exact h2 h
  · intro retval hret h1 h2 hk
    rw [renameReturn_eq M ci F retval S hret hl] at hk
    obtain ⟨k, hk0, hk1⟩ := (PointToMap.mem_keys_renameKeysBy _ _ _).1 hk
    rw [PointToMap.keys_renameMembersBy] at hk0
    rcases substAll_reverse_mem_args M F ci.args k with h | h
    · rw [h] at hk1
      subst hk1
      exact h1 hk0
    · rw [hk1] at h
      exact h2 h

/-- C25, amended, at a return of the value `25` by the function `1` of the
scenario, in the state in which `25` points to `3`, for the call
`%33 = call @1(%11)`: the out summary afterwards has `3` in the set of `33`. -/
theorem return_value_flow_witness :
    stateTwentyFiveToThree.pt.sets 25 = {3}
      ∧ stateTwentyFiveToThree.pt.sets 25
        ⊆ ((handleReturnInst callbackModule 1 (some 25) stateTwentyFiveToThree
            (edgeToOne callPlain)).instresult.get PointToState.bot callPlain.id).2.pt.sets
              callPlain.id :=
  ⟨by decide,
    (return_value_flow callbackModule 1 25 stateTwentyFiveToThree (edgeToOne callPlain)
      callPlain (by decide) (by decide) rfl
      (fun i j _ _ h => by
        have h' : 20 + i = 20 + j := h
        omega)
      (fun i _ => by
        show ((20 + i == 1) || (20 + i == 5)) = false
        simp only [Bool.or_eq_false_iff, beq_eq_false_iff_ne, ne_eq]
        exact ⟨by omega, by omega⟩)
      (fun a ha _ i _ => by
        have h1 : a = 11 := by simpa [callPlain] using ha
        subst h1
        show (11 : Nat) ≠ 20 + i
        omega)
      (fun i hi => by
        have h1 : i < 1 := hi
        show (33 : Nat) ≠ 20 + i
        omega)).2.2.2.2.1
      (fun z hz i hi => by
        have h0 : z = 3 := by
          have : z ∈ ({3} : Finset Value) := hz
          simpa using this
        subst h0
        show (3 : Nat) ≠ 20 + i
        omega)⟩

/-- C26: the global tables only grow.  Handling a call, handling a return and one
turn of the loop of the engine on a block (with every call and return in it)
each leave the callee set recorded for every call, the out summary of every
call site and the in summary of every block above what they were before the
step, in `pt` and in `field_pt`, keys and members. -/
theorem tables_only_grow (M : Module) (o : Order) (fuel : Nat)
    (bbresult : Table PointToState) (g : Globals) :
    (∀ (ci : CallInst) (S : PointToState) (r : PointToState × Table PointToState × Globals),
        handleCallInst M o fuel ci S bbresult g = some r → TablesGrow bbresult g r.2.1 r.2.2)
      ∧ (∀ (F : Value) (retval : Option Value) (S : PointToState),
          TablesGrow bbresult g bbresult (handleReturnInst M F retval S g))
      ∧ (∀ (bb : Value) (worklist : Finset Value)
          (r : Finset Value × Table PointToState × Globals),
          forwardStep M (PointToVisitor M o fuel) bb worklist bbresult g = some r →
          TablesGrow bbresult g r.2.1 r.2.2) :=
  ⟨fun ci S r h => handleCallInst_grow M o fuel ci S bbresult g r h,
    fun F retval S => handleReturnInst_grow M F retval S bbresult g,
    fun bb worklist r h => forwardStep_grow M o fuel bb worklist bbresult g r h⟩

/-- C26 at the scenario "store through a parameter": a turn of the loop on the
block `102` of the caller, which holds the call `call @1(%11)`, from the tables
in which the edge of the call is recorded: the turn returns and the tables
after it are above the tables before it. -/
theorem tables_only_grow_witness :
    ∃ r, forwardStep storeModule (PointToVisitor storeModule Order.asc 1) 102 {102}
          Table.empty (edgeToOne callStore) = some r
      ∧ TablesGrow Table.empty (edgeToOne callStore) r.2.1 r.2.2 :=
  ⟨_, rfl, (tables_only_grow storeModule Order.asc 1 Table.empty (edgeToOne callStore)).2.2
    102 {102} _ rfl⟩

/-- C28, as the code has it: the function `2` of the module with the blocks `201`
to `204`, analysed by the engine with the points-to visitor from empty tables.
Taking the blocks in increasing order, the block `202` is handled before its
predecessor `204` and again after it, and the in summary of the exit block `203`
collects both out states of `202`: the set of `8` is `{7, 9}`.  Taking them in
decreasing order, `202` is handled after `204` only, and the set of `8` is
`{9}`.  The out state of `202` is the same at the end of both runs. -/
theorem engine_result_depends_on_order :
    (∃ r, compForwardDataflow diamondModule Order.asc (PointToVisitor diamondModule Order.asc 1)
          20 2 Table.empty Globals.init PointToState.bot = some r
        ∧ (r.1.get PointToState.bot 203).1.pt.sets 8 = {7, 9}
        ∧ (r.1.get PointToState.bot 202).2.pt.sets 8 = {9})
      ∧ (∃ r, compForwardDataflow diamondModule Order.desc
            (PointToVisitor diamondModule Order.desc 1)
            20 2 Table.empty Globals.init PointToState.bot = some r
          ∧ (r.1.get PointToState.bot 203).1.pt.sets 8 = {9}
          ∧ (r.1.get PointToState.bot 202).2.pt.sets 8 = {9})
      ∧ (∃ r, runOnModule diamondModule Order.asc 20 = some r
          ∧ (r.1.get PointToState.bot 203).1.pt.sets 8 = {7, 9})
      ∧ ∃ r, runOnModule diamondModule Order.desc 20 = some r
          ∧ (r.1.get PointToState.bot 203).1.pt.sets 8 = {9} :=
  ⟨⟨_, rfl, by decide, by decide⟩, ⟨_, rfl, by decide, by decide⟩, ⟨_, rfl, by decide⟩,
    ⟨_, rfl, by decide⟩⟩

/-- C28, amended: a visitor whose `compDFVal` is a pure function `f` of the
instruction and the state, monotone in the state, and whose merge is a join; a
function whose blocks are the successors of their predecessors and have their
successors among them; and a table in which, as the engine initialises it, the
in state of every block is above the out states of its predecessors (a table
without entries for the blocks, or one that an earlier run has left).  Two runs
of `compForwardDataflow` with any two orders of extraction that both return
end with the same `(in, out)` pair in every entry of the table and with what the
visitor owns unchanged. -/
theorem engine_order_independent {T G : Type} [DecidableEq T] (M : Module) (o1 o2 : Order)
    (V : DataflowVisitor T G) (f : Instruction → T → T) (hpure : V.IsPure f) (hj : V.IsJoin)
    (hmono : ∀ inst a b, V.merge b a = b → V.merge (f inst b) (f inst a) = f inst b)
    (fn : Value) (hcfg : ∀ b ∈ M.blocks fn, ∀ p ∈ M.preds b, b ∈ M.succs p)
    (hsucc : ∀ b ∈ M.blocks fn, ∀ s ∈ M.succs b, s ∈ M.blocks fn)
    (result : Table T) (g : G) (initval : T)
    (hstart : ∀ b ∈ M.blocks fn, ∀ p ∈ M.preds b,
      V.merge ((initBlocks initval (M.blocks fn) result).1.get V.dflt b).1
          ((initBlocks initval (M.blocks fn) result).1.get V.dflt p).2
        = ((initBlocks initval (M.blocks fn) result).1.get V.dflt b).1)
    (fuel1 fuel2 : Nat) (r1 r2 : Table T × G)
    (h1 : compForwardDataflow M o1 V fuel1 fn result g initval = some r1)
    (h2 : compForwardDataflow M o2 V fuel2 fn result g initval = some r2) :
    (∀ b, r1.1.get V.dflt b = r2.1.get V.dflt b) ∧ r1.2 = r2.2 := by
  unfold compForwardDataflow at h1 h2
  simp only [initBlocks_worklist] at h1 h2
  have hsB : ∀ b ∈ (M.blocks fn).toFinset, ∀ s ∈ M.succs b, s ∈ (M.blocks fn).toFinset :=
    fun b hb s hs => List.mem_toFinset.2 (hsucc b (List.mem_toFinset.1 hb) s hs)
  have g1 := forwardLoop_grows M o1 V f hpure hj _ hsB fuel1 _ _ g r1 h1 (Finset.Subset.refl _)
  have g2 := forwardLoop_grows M o2 V f hpure hj _ hsB fuel2 _ _ g r2 h2 (Finset.Subset.refl _)
  have s1 := forwardLoop_stable M o1 V f hpure hj (M.blocks fn) hcfg fuel1 _ _ g r1 h1
    (fun b hb hnot => absurd (List.mem_toFinset.2 hb) hnot)
  have s2 := forwardLoop_stable M o2 V f hpure hj (M.blocks fn) hcfg fuel2 _ _ g r2 h2
    (fun b hb hnot => absurd (List.mem_toFinset.2 hb) hnot)
  -- each run stays below the in states of the other
  have below : ∀ (oa : Order) (fa : Nat) (ra rb : Table T × G),
      forwardLoop M oa V fa (M.blocks fn).toFinset
        (initBlocks initval (M.blocks fn) result).1 g = some ra →
      (∀ b, V.merge (rb.1.get V.dflt b).1
        ((initBlocks initval (M.blocks fn) result).1.get V.dflt b).1 = (rb.1.get V.dflt b).1) →
      (∀ b ∈ M.blocks fn, blockStable M V f rb.1 b) →
      ∀ b ∈ (M.blocks fn).toFinset,
        V.merge (rb.1.get V.dflt b).1 (ra.1.get V.dflt b).1 = (rb.1.get V.dflt b).1 := by
    intro oa fa ra rb ha hg hs
    refine forwardLoop_below M oa V f hpure hj hmono _ hsB (fun b => (rb.1.get V.dflt b).1) ?_
      fa _ _ g ra ha (Finset.Subset.refl _) (fun b _ => hg b) ?_
    · intro b hb p hp hpB
      have e1 := (hs b (List.mem_toFinset.1 hb)).2 p hp
      rw [(hs p (List.mem_toFinset.1 hpB)).1] at e1
      exact e1
    · intro b hb p hp
      exact join_trans V hj (hg b) (hstart b (List.mem_toFinset.1 hb) p hp)
  have b12 := below o1 fuel1 r1 r2 h1 g2.1 s2
  have b21 := below o2 fuel2 r2 r1 h2 g1.1 s1
  refine ⟨fun b => ?_, g1.2.2.trans g2.2.2.symm⟩
  by_cases hb : b ∈ (M.blocks fn).toFinset
  · have hin : (r1.1.get V.dflt b).1 = (r2.1.get V.dflt b).1 :=
      join_antisymm V hj (b21 b hb) (b12 b hb)
    have hout : (r1.1.get V.dflt b).2 = (r2.1.get V.dflt b).2 := by
      rw [(s1 b (List.mem_toFinset.1 hb)).1, (s2 b (List.mem_toFinset.1 hb)).1, hin]
    exact Prod.ext hin hout
  · rw [g1.2.1 b hb, g2.2.1 b hb]

/-- C28, amended, at the visitor `seenPhi` on the function `2` of the module with
the loop, from the empty table, in increasing and in decreasing order of the
blocks: both runs end with the same entries. -/
theorem engine_order_independent_witness :
    ∃ r1 r2,
      compForwardDataflow swapLoopModule Order.asc seenPhi 10 2 Table.empty () false = some r1
      ∧ compForwardDataflow swapLoopModule Order.desc seenPhi 10 2 Table.empty () false = some r2
      ∧ (∀ b, r1.1.get false b = r2.1.get false b) ∧ r1.2 = r2.2 :=
  ⟨_, _, rfl, rfl,
    engine_order_independent swapLoopModule Order.asc Order.desc seenPhi seenPhiTransfer
      seenPhi_isPure seenPhi_isJoin
      (fun inst a b h => by
        cases inst <;> first | rfl | exact h)
      2 (by decide) (by decide) Table.empty () false (by decide) 10 10 _ _ rfl rfl⟩

/-- C29: a visitor whose `compDFVal` is a pure function `f` of the instruction
and the state and whose merge is a join, and a function whose blocks are the
successors of their predecessors.  When `compForwardDataflow` returns, every
block `b` of the function has `out(b) = f(b, in(b))`, and merging the out state
of any predecessor of `b` into `in(b)` leaves `in(b)` unchanged. -/
theorem engine_postcondition {T G : Type} [DecidableEq T] (M : Module) (o : Order)
    (V : DataflowVisitor T G) (f : Instruction → T → T) (hpure : V.IsPure f) (hj : V.IsJoin)
    (fn : Value) (hcfg : ∀ b ∈ M.blocks fn, ∀ p ∈ M.preds b, b ∈ M.succs p)
    (fuel : Nat) (result : Table T) (g : G) (initval : T) (r : Table T × G)
    (h : compForwardDataflow M o V fuel fn result g initval = some r) :
    ∀ b ∈ M.blocks fn,
      (r.1.get V.dflt b).2 = blockTransfer f (M.insts b) (r.1.get V.dflt b).1
        ∧ ∀ p ∈ M.preds b,
            V.merge (r.1.get V.dflt b).1 (r.1.get V.dflt p).2 = (r.1.get V.dflt b).1 := by
  unfold compForwardDataflow at h
  simp only [initBlocks_worklist] at h
  exact forwardLoop_stable M o V f hpure hj (M.blocks fn) hcfg fuel _ _ g r h
    (fun b hb hnot => absurd (List.mem_toFinset.2 hb) hnot)

/-- C29 at the visitor `seenPhi` on the function `2` of the module with the
loop, from the empty table: the engine returns, and the exit block `203`, which
follows the block of the phis, has met a phi in its in state and in its out
state. -/
theorem engine_postcondition_witness :
    ∃ r, compForwardDataflow swapLoopModule Order.asc seenPhi 10 2 Table.empty () false = some r
      ∧ (r.1.get false 203).1 = true
      ∧ (r.1.get false 203).2 = blockTransfer seenPhiTransfer (swapLoopModule.insts 203)
          (r.1.get false 203).1
      ∧ ∀ p ∈ swapLoopModule.preds 203,
          ((r.1.get false 203).1 || (r.1.get false p).2) = (r.1.get false 203).1 :=
  ⟨_, rfl, by decide,
    engine_postcondition swapLoopModule Order.asc seenPhi seenPhiTransfer
      seenPhi_isPure seenPhi_isJoin 2 (by decide) 10 Table.empty () false _ rfl 203
      (by decide)⟩

/-- C30: a visitor whose `compDFVal` is a pure function of the instruction and
the state, a lattice of finite height (a rank of the states that is at most
`H`, and that goes up whenever a merge changes its first argument, as the
height of a state does under a join), and a function whose blocks have their
successors among its finitely many blocks.  There is a number of turns within
which the loop of `compForwardDataflow` empties its worklist and returns, for
every order of extraction and all starting tables.  The transfer need not be
monotone for that: the in states only go up. -/
theorem engine_terminates {T G : Type} [DecidableEq T] (M : Module) (o : Order)
    (V : DataflowVisitor T G) (f : Instruction → T → T) (hpure : V.IsPure f)
    (rank : T → Nat) (H : Nat) (hH : ∀ a, rank a ≤ H)
    (hrank : ∀ a b, V.merge a b = a ∨ rank a < rank (V.merge a b))
    (fn : Value) (hsucc : ∀ b ∈ M.blocks fn, ∀ s ∈ M.succs b, s ∈ M.blocks fn)
    (result : Table T) (g : G) (initval : T) :
    ∃ N, ∀ fuel, N ≤ fuel →
      ∃ r, compForwardDataflow M o V fuel fn result g initval = some r := by
  unfold compForwardDataflow
  simp only [initBlocks_worklist]
  exact forwardLoop_terminates M o V f hpure rank H hH hrank (M.blocks fn).toFinset
    (fun b hb s hs => List.mem_toFinset.2 (hsucc b (List.mem_toFinset.1 hb) s hs)) g _
    (M.blocks fn).toFinset _ (Finset.Subset.refl _) rfl

/-- C30 at the visitor `seenPhi` on the function `2` of the module with the loop,
from the empty table: with enough turns the engine returns; ten turns are
enough. -/
theorem engine_terminates_witness :
    (∃ N, ∀ fuel, N ≤ fuel →
        ∃ r, compForwardDataflow swapLoopModule Order.asc seenPhi fuel 2 Table.empty () false
          = some r)
      ∧ ∃ r, compForwardDataflow swapLoopModule Order.asc seenPhi 10 2 Table.empty () false
          = some r :=
  ⟨engine_terminates swapLoopModule Order.asc seenPhi seenPhiTransfer seenPhi_isPure boolRank 1
      (by decide) (by decide) 2 (by decide) Table.empty () false,
    ⟨_, rfl⟩⟩

/-- C31: the start of a run of the engine keeps what the table holds.  The table
that the loop starts with has `(initval, initval)` for a block of the function
without entry and the stored pair for every other block.  When the run of the
points-to visitor returns, the in summary of every block is above the one read
before the run.  In particular, after a call that is no direct call to a
declaration has been handled, the state that it merged into the entry block of
a callee with a body is below the in summary of that block when a later run of
the engine on the callee returns. -/
theorem engine_keeps_results (M : Module) (o : Order) (fuel n : Nat) (fn : Value)
    (result : Table PointToState) (g : Globals) (initval : PointToState)
    (r : Table PointToState × Globals)
    (h : compForwardDataflow M o (PointToVisitor M o fuel) n fn result g initval = some r) :
    (∀ b, (initBlocks initval (M.blocks fn) result).1 b =
        if b ∈ M.blocks fn ∧ (result b).isNone = true then some (initval, initval)
        else result b)
      ∧ (∀ b, (result.get PointToState.bot b).1.le (r.1.get PointToState.bot b).1)
      ∧ ∀ (ci : CallInst) (S S' : PointToState) (bbresult : Table PointToState) (g0 : Globals)
          (st : PointToState) (callee_set : FunctionSet),
          getFunctions M o fuel ci.called S = some (callee_set, S') →
          handleCallInst M o fuel ci S bbresult g0 = some (st, result, g) →
          (M.isFunction ci.called && M.isDeclaration ci.called) = false →
          fn ∈ callee_set → M.isDeclaration fn = false →
          (renameCall M ci fn S').le (r.1.get PointToState.bot (M.entry fn)).1 := by
  have hgrow := compForwardDataflow_tablesGrow M o fuel n fn result g initval r h
  refine ⟨fun b => initBlocks_table initval (M.blocks fn) result b, hgrow.1, ?_⟩
  intro ci S S' bbresult g0 st callee_set hg hcall hnd hmem hd
  exact state_le_trans
    (handleCallInst_deposits M o fuel ci S bbresult g0 _ callee_set S' fn hg hcall hnd hmem hd)
    (hgrow.1 (M.entry fn))

/-- C31 at the scenario "store through a parameter": the call `call @1(%11)`,
handled in the state in which `11` points to `10`, leaves the parameter `20`
pointing to `10` in the in summary of the entry block `101` of the callee; the
run of the engine on the callee from these tables returns, and the renamed
state of the call is below the in summary of `101` after it. -/
theorem engine_keeps_results_witness :
    handleCallInst storeModule Order.asc 1 callStore stateXToG Table.empty Globals.init
        = some afterCallStore
      ∧ (afterCallStore.2.1.get PointToState.bot 101).1.pt.sets 20 = {10}
      ∧ ∃ r, compForwardDataflow storeModule Order.asc (PointToVisitor storeModule Order.asc 1)
            5 1 afterCallStore.2.1 afterCallStore.2.2 PointToState.bot = some r
        ∧ (renameCall storeModule callStore 1 stateXToG).le (r.1.get PointToState.bot 101).1
        ∧ 10 ∈ (r.1.get PointToState.bot 101).1.pt.sets 20 :=
  ⟨rfl, by decide, _, rfl,
    (engine_keeps_results storeModule Order.asc 1 5 1 afterCallStore.2.1 afterCallStore.2.2
      PointToState.bot _ rfl).2.2 callStore stateXToG stateXToG Table.empty Globals.init
      afterCallStore.1 {1} rfl rfl rfl (by decide) rfl,
    by decide⟩

/-- C32: the functions flagged for a new analysis.  After a call has been
handled, a function is in `func_set` exactly when it was there before, or the
call is no direct call to a declaration and the function is a resolved callee
with a body whose entry-block in summary the merge of the renamed state changed
(the entry blocks of distinct callees being distinct).  After a return of `F`
has been handled, a function is in `func_set` exactly when it was there before,
or it encloses a call, recorded with `F` among its callees, whose out summary
the merge of the renamed state changed (the recorded calls being distinct
instructions). -/
theorem requeue_iff_changed (M : Module) (o : Order) (fuel : Nat) (g : Globals) :
    (∀ (ci : CallInst) (S S' : PointToState) (bbresult : Table PointToState)
        (r : PointToState × Table PointToState × Globals) (callee_set : FunctionSet),
        getFunctions M o fuel ci.called S = some (callee_set, S') →
        handleCallInst M o fuel ci S bbresult g = some r →
        (∀ c ∈ callee_set, ∀ c' ∈ callee_set, c ≠ c' → M.isDeclaration c = false →
          M.isDeclaration c' = false → M.entry c ≠ M.entry c') →
        ∀ f, f ∈ r.2.2.func_set ↔
          f ∈ g.func_set ∨ ((M.isFunction ci.called && M.isDeclaration ci.called) = false
            ∧ f ∈ callee_set ∧ callChanges M ci S' bbresult f))
      ∧ ∀ (F : Value) (retval : Option Value) (S : PointToState),
          (g.call_return.map (fun cr => cr.1.id)).Nodup →
          ∀ f, f ∈ (handleReturnInst M F retval S g).func_set ↔
            f ∈ g.func_set ∨
              ∃ cr ∈ g.call_return, returnChanges M F retval S g.instresult cr ∧ cr.1.fn = f :=
  ⟨fun ci S S' bbresult r callee_set hg h hent f =>
      handleCallInst_func_set M o fuel ci S bbresult g r callee_set S' hg h hent f,
    fun F retval S hnd f => foldl_returnStep_func_set M F retval S g.call_return hnd g f⟩

/-- C32 at the scenario "store through a parameter".  The call `call @1(%11)`
in the state in which `11` points to `10`, with empty tables, flags the callee
`1`; handled again with the tables that it left, it flags nothing.  The return
of `1` in the state in which the parameter `20` points to `3` flags the caller
`2` of the recorded call. -/
theorem requeue_iff_changed_witness :
    (∃ r, handleCallInst storeModule Order.asc 1 callStore stateXToG Table.empty Globals.init
          = some r ∧ 1 ∈ r.2.2.func_set)
      ∧ (∃ r, handleCallInst storeModule Order.asc 1 callStore stateXToG afterCallStore.2.1
            { afterCallStore.2.2 with func_set := ∅ } = some r ∧ 1 ∉ r.2.2.func_set)
      ∧ 2 ∈ (handleReturnInst storeModule 1 none stateParamToThree
          (edgeToOne callStore)).func_set :=
  ⟨⟨_, rfl, ((requeue_iff_changed storeModule Order.asc 1 Globals.init).1 callStore stateXToG
        stateXToG Table.empty _ {1} rfl rfl (by decide) 1).2
        (Or.inr ⟨by decide, by decide, by decide⟩)⟩,
    ⟨_, rfl, fun hmem =>
      ((requeue_iff_changed storeModule Order.asc 1 { afterCallStore.2.2 with func_set := ∅ }).1
        callStore stateXToG stateXToG afterCallStore.2.1 _ {1} rfl rfl (by decide) 1).1 hmem
        |>.elim (fun h => by simp at h)
          (fun h => h.2.2.2 (PointToState.eq_of_maps (by decide) (by decide)))⟩,
    ((requeue_iff_changed storeModule Order.asc 1 (edgeToOne callStore)).2 1 none
      stateParamToThree (by decide) 2).2
      (Or.inr ⟨(callStore, {1}), by decide, by decide, rfl⟩)⟩

/-- C33, as the code has it: a read with `operator[]` creates the key it reads.
The load `5 = load 1` in the empty state leaves the address `1` as a key of `pt`,
with an empty set; the memory copy from `11` to `12` leaves the source `11` as a
key; the resolution of the callees of `41`, which points to `43`, leaves `43` as
a key.  The store of `7` and the field-address computation over `1` test the set
of the value they read in the same way and erase the key again.  The key
matters: a phi over the incoming value `1` has the set `{1}` in the empty state
and the empty set after the load. -/
theorem read_creates_pt_key :
    (1 ∉ PointToState.bot.pt.keys
        ∧ (handleLoadInst plainModule 5 1 PointToState.bot).pt.keys = {1, 5}
        ∧ (handleLoadInst plainModule 5 1 PointToState.bot).pt.sets 1 = ∅)
      ∧ (11 ∉ PointToState.bot.pt.keys
        ∧ 11 ∈ (handleMemCpyInst castModule 80 81 PointToState.bot).pt.keys)
      ∧ (43 ∉ stateChainToUnbound.pt.keys
        ∧ ∃ r, getFunctions twoCalleeModule Order.asc 5 41 stateChainToUnbound = some r
          ∧ 43 ∈ r.2.pt.keys)
      ∧ (7 ∉ (handleStoreInst plainModule 7 1 PointToState.bot).pt.keys
        ∧ 1 ∉ (handleGetElementPtrInst 5 1 PointToState.bot).pt.keys)
      ∧ (handlePHINode plainModule 6 [1] PointToState.bot).pt.sets 6 = {1}
      ∧ (handlePHINode plainModule 6 [1]
          (handleLoadInst plainModule 5 1 PointToState.bot)).pt.sets 6 = ∅ :=
  ⟨⟨by decide, by decide, by decide⟩, ⟨by decide, by decide⟩,
    ⟨by decide, _, rfl, by decide⟩, ⟨by decide, by decide⟩, by decide, by decide⟩

/-- C34: `getFunctions` has no guard against cycles.  For every state `S` and
value `v` from which a `pt` chain runs into a cycle (a value `y` that is reached
from `v` and, in one step or more, from itself, as with `y` in `S.pt[y]`), the
worklist of `getFunctions(v, S)` is never empty: for every order of extraction
and every bound on the number of turns, the loop does not end within the
bound. -/
theorem getFunctions_cycle_diverges (M : Module) (o : Order) (S : PointToState) (v : Value)
    (h : ptReachesCycle M S v) : ∀ fuel, getFunctions M o fuel v S = none := by
  intro fuel
  obtain ⟨x1, hedge, hcyc1⟩ := ptReachesCycle_step h
  have hkey : v ∈ S.pt.keys := S.pt.mem_keys_of_mem_sets hedge.2
  unfold getFunctions
  simp only [hedge.1, Bool.false_eq_true, if_false]
  rw [(S.pt.count_eq_true v).2 hkey, if_pos rfl]
  exact getFunctionsLoop_cycle M o S fuel _ _ S (fun _ => rfl) ⟨x1, hedge.2, hcyc1⟩

/-- C34 at the value `41` of the state in which `41` points to `43` and `43`
points to itself: `41` is no function, `43` is in its own `pt` set, and the
resolution of the callees of `41` does not end within any bound, in increasing
order of extraction. -/
theorem getFunctions_cycle_diverges_witness :
    twoCalleeModule.isFunction 41 = false ∧ 43 ∈ stateChainToSelf.pt.sets 43
      ∧ ∀ fuel, getFunctions twoCalleeModule Order.asc fuel 41 stateChainToSelf = none :=
  ⟨by decide, by decide,
    getFunctions_cycle_diverges twoCalleeModule Order.asc stateChainToSelf 41
      ⟨43, Relation.ReflTransGen.single ⟨by decide, by decide⟩,
        Relation.TransGen.single ⟨by decide, by decide⟩⟩⟩

/-- C35: a store of `v` followed by a load into `l` through the same address
reads back the overwrite set of the store, the `pt` set of `v` in `S` if it is
not empty and `{v}` otherwise: when the address `a` is no field computation and
`l` is not `a`; and when the store goes through a field address `a` and the load
through a field address `a2` over the same base, whether the base has a `pt` set
or not, and `l` is not the base. -/
theorem store_then_load (M : Module) (S : PointToState) (v a l : Value) :
    (M.gepOf a = none → l ≠ a →
        (handleLoadInst M l a (handleStoreInst M v a S)).pt.sets l = overwriteSet S v)
      ∧ ∀ a2 base, M.gepOf a = some base → M.gepOf a2 = some base → l ≠ base →
          (handleLoadInst M l a2 (handleStoreInst M v a S)).pt.sets l = overwriteSet S v := by
  constructor
  · intro ha hl
    have hal : a ≠ l := fun e => hl e.symm
    simp only [handleLoadInst, handleStoreInst, ha, overwriteSet, PointToMap.sets_insertAll,
      PointToMap.sets_touch, PointToMap.sets_assign, if_true, hal, if_false,
      Finset.empty_union]
  · intro a2 base ha ha2 hl
    have hbl : base ≠ l := fun e => hl e.symm
    have hb : (if S.pt.sets v = ∅ then (S.pt.touch v).erase v else S.pt.touch v).sets base
        = S.pt.sets base := by
      simpa using store_base_sets S v base
    unfold handleLoadInst handleStoreInst
    simp only [ha, ha2, PointToMap.sets_touch, hb]
    by_cases he : S.pt.sets base = ∅
    · simp only [he, if_true, PointToMap.sets_touch, PointToMap.sets_assign,
        PointToMap.sets_erase, hbl, if_false, PointToMap.sets_insertAll, Finset.empty_union,
        hb, overwriteSet]
      rw [if_neg hl, Finset.empty_union]
    · simp only [he, if_false, PointToMap.sets_touch, PointToMap.sets_assign, hbl, hb]
      rw [foldr_loadStep_pt_sets]
      simp only [PointToMap.sets_touch, PointToMap.sets_assign, if_true, Finset.empty_union,
        foldr_storeStep_sets, Finset.mem_val]
      obtain ⟨x, hx⟩ := Finset.nonempty_iff_ne_empty.2 he
      ext z
      simp only [Finset.mem_biUnion, Finset.val_toFinset, overwriteSet]
      constructor
      · rintro ⟨c, hc, hz⟩
        rw [if_pos hc] at hz
        exact hz
      · intro hz
        exact ⟨x, hx, by rw [if_pos hx]; exact hz⟩

/-- C35 at the store of `9` through the field address `50` over the base `51`,
which points to `60` or `61`, followed by the load into `52` through the same
field address: the load reads `{9}`. -/
theorem store_then_load_witness :
    (handleLoadInst fieldModule 52 50 (handleStoreInst fieldModule 9 50 fieldState)).pt.sets 52
      = {9} :=
  ((store_then_load fieldModule fieldState 9 50 52).2 50 51 rfl rfl (by decide)).trans
    (by decide)

/-- C36: the frame of the phi, the load and the field-address computation.  In
every state `S`, after the transfer of an instruction with the result `r`, the
`pt` set of every value other than `r` and the `field_pt` set of every value are
the sets of `S`; so a value other than `r` is a key of `pt` after the transfer
exactly when it was one before, unless its set is empty, and the same holds for
every value and `field_pt`. -/
theorem value_defining_frame (M : Module) (S : PointToState) (r : Value) (S' : PointToState)
    (h : (∃ incoming, S' = handlePHINode M r incoming S)
      ∨ (∃ addr, S' = handleLoadInst M r addr S)
      ∨ ∃ base, S' = handleGetElementPtrInst r base S) :
    (∀ k, k ≠ r → S'.pt.sets k = S.pt.sets k)
      ∧ (∀ k, S'.field_pt.sets k = S.field_pt.sets k)
      ∧ (∀ k, k ≠ r → (k ∈ S'.pt.keys ↔ k ∈ S.pt.keys) ∨ S.pt.sets k = ∅)
      ∧ ∀ k, (k ∈ S'.field_pt.keys ↔ k ∈ S.field_pt.keys) ∨ S.field_pt.sets k = ∅ := by
  have h12 : (∀ k, k ≠ r → S'.pt.sets k = S.pt.sets k)
      ∧ ∀ k, S'.field_pt.sets k = S.field_pt.sets k := by
    rcases h with ⟨incoming, rfl⟩ | ⟨addr, rfl⟩ | ⟨base, rfl⟩
    · exact ⟨fun k hk => handlePHINode_sets_other M r incoming S k hk,
        fun k => by rw [handlePHINode_field_pt]⟩
    · exact ⟨fun k hk => handleLoadInst_sets_other M r addr S k hk,
        fun k => handleLoadInst_field_sets M r addr S k⟩
    · exact ⟨fun k hk => handleGetElementPtrInst_sets_other r base S k hk,
        fun k => by rw [handleGetElementPtrInst_field_pt]⟩
  exact ⟨h12.1, h12.2, fun k hk => keys_iff_or_empty _ _ k (h12.1 k hk),
    fun k => keys_iff_or_empty _ _ k (h12.2 k)⟩

/-- C36 at the load into `52` through the field address `50` over the base `51`,
in the state in which `51` points to `60` or `61`: the set of `51` and the field
of `60` are as before. -/
theorem value_defining_frame_witness :
    (handleLoadInst fieldModule 52 50 fieldState).pt.sets 51 = fieldState.pt.sets 51
      ∧ (handleLoadInst fieldModule 52 50 fieldState).field_pt.sets 60
        = fieldState.field_pt.sets 60 :=
  ⟨(value_defining_frame fieldModule fieldState 52 _ (Or.inr (Or.inl ⟨50, rfl⟩))).1 51
      (by decide),
    (value_defining_frame fieldModule fieldState 52 _ (Or.inr (Or.inl ⟨50, rfl⟩))).2.1 60⟩

end PointTo
